import Mathlib

/-!
Lua pattern matching (`pattern.go`): a shallow embedding.

Go strings are byte sequences; a string is modelled as a `List Nat` of byte
values, and a Go `int` that only ever holds an index or a counter is a `Nat`.
A Go function that can end in a Lua error (`Errorf`) or in a Go run-time
panic (index or slice out of range) returns `Except Err _`.

Loops that Go writes as `for { ... }` are recursive functions on a counter
that bounds the number of iterations; the bound is computed from the
arguments by the function that starts the loop, and `Err.outOfFuel` is the
outcome of a loop that would need more iterations than that. The theorem
`never_outOfFuel` shows that no call ends that way.

Go's `match` is `match_`. It is put together from `matchCall` (the depth
check and the decrement at the entry, the increment at the exit),
`matchInit` (the loop that the label `init` and `goto init` make) and
`matchStep` (one pass through the `switch`). The functions that call `match`
back (`maxExpand`, `minExpand`, `startCapture`, `endCapture` and the closure
`defaultCase`) take it as their first argument `cont`.
-/

namespace LuaPattern

/-- The ways a call can end other than by returning. -/
inductive Err where
  /-- `Errorf(ms.l, "pattern too complex")` -/
  | tooComplex
  /-- `Errorf(ms.l, "malformed pattern (ends with '%%')")` -/
  | malformedEndsWithEsc
  /-- `Errorf(ms.l, "malformed pattern (missing ']')")` -/
  | malformedMissingBracket
  /-- `Errorf(ms.l, "too many captures")` -/
  | tooManyCaptures
  /-- `Errorf(ms.l, "invalid pattern capture")` -/
  | invalidPatternCapture
  /-- `Errorf(ms.l, "unfinished capture")` -/
  | unfinishedCapture
  /-- `Errorf(ms.l, "invalid capture index")` -/
  | invalidCaptureIndex
  /-- Go run-time panic: string index out of range -/
  | indexOutOfRange
  /-- Go run-time panic: slice bounds out of range -/
  | sliceOutOfRange
  /-- The iteration bound of a modelled loop was not enough. -/
  | outOfFuel
  deriving DecidableEq, Repr

deriving instance DecidableEq for Except

abbrev Res (α : Type) := Except Err α

/-- The bytes of an ASCII string literal. -/
def bytes (s : String) : List Nat := s.toList.map Char.toNat

/-- Go `s[i]`: the byte at index `i`, a run-time panic when `i` is out of range. -/
def idx (s : List Nat) (i : Nat) : Res Nat :=
  match s.get? i with
  | some c => .ok c
  | none => .error .indexOutOfRange

/-- Go `s[lo:hi]`: a run-time panic unless `lo <= hi <= len(s)`. -/
def slice (s : List Nat) (lo hi : Nat) : Res (List Nat) :=
  if lo ≤ hi ∧ hi ≤ s.length then .ok ((s.drop lo).take (hi - lo))
  else .error .sliceOutOfRange

def luaMaxCaptures : Nat := 32

def capUnfinished : Int := -1

def capPosition : Int := -2

def maxCCalls : Nat := 200

/-- The escape character `%`. -/
def lEsc : Nat := 37

/-- The special characters `^$*+?.([%-`. -/
def specials : List Nat := [94, 36, 42, 43, 63, 46, 40, 91, 37, 45]

/-- One slot of `matchState.capture`. -/
structure Capture where
  init : Nat
  len : Int
  deriving DecidableEq, Repr

/-- The mutable part of Go's `matchState`. The subject `src` and the pattern
`p`, which `matchState` holds by pointer and never changes, are arguments of
the functions below; `l`, the host state, is not modelled. `capture` is the
array of `luaMaxCaptures` slots, indexed by position. -/
structure MatchState where
  matchDepth : Nat
  level : Nat
  capture : Nat → Capture

/-- Assignment to the two fields of `ms.capture[i]`. -/
def MatchState.setCapture (ms : MatchState) (i : Nat) (c : Capture) : MatchState :=
  { ms with capture := fun j => if j = i then c else ms.capture j }

/-- Assignment to the field `ms.capture[i].len`. -/
def MatchState.setLen (ms : MatchState) (i : Nat) (l : Int) : MatchState :=
  ms.setCapture i { init := (ms.capture i).init, len := l }

/-- The loop of `captureToClose`: `level` counts down from `ms.level - 1`;
the argument is the number of slots still to look at. -/
def captureToCloseLoop (ms : MatchState) : Nat → Res Nat
  | 0 => .error .invalidPatternCapture
  | level + 1 =>
    if (ms.capture level).len = capUnfinished then .ok level
    else captureToCloseLoop ms level

def captureToClose (ms : MatchState) : Res Nat :=
  captureToCloseLoop ms ms.level

/-- The `for` loop of `classend` that looks for the closing bracket. -/
def classendLoop (p : List Nat) : Nat → Nat → Res Nat
  | 0, _ => .error .outOfFuel
  | fuel + 1, ppos =>
    if ppos = p.length then .error .malformedMissingBracket
    else do
      let ppos := ppos + 1
      let c ← idx p ppos
      -- Go evaluates `(*ms.p)[ppos] == lEsc` before `ppos < len(*ms.p)`
      let ppos := if c = lEsc ∧ ppos < p.length then ppos + 1 else ppos
      let c ← idx p ppos
      if c = 93 then .ok ppos  -- ']'
      else classendLoop p fuel ppos

def classend (p : List Nat) (ppos : Nat) : Res Nat := do
  let c ← idx p ppos
  if c = lEsc then
    let ppos := ppos + 1
    if ppos = p.length then .error .malformedEndsWithEsc
    else .ok (ppos + 1)
  else if c = 91 then  -- '['
    let ppos := ppos + 1
    let c ← idx p ppos
    let ppos := if c = 94 then ppos + 1 else ppos  -- '^'
    let ppos ← classendLoop p (p.length + 1) ppos
    .ok (ppos + 1)
  else .ok (ppos + 1)

/-! ### Go's `unicode` package on the runes of one byte (Latin-1) -/

def unicodeToLower (r : Nat) : Nat :=
  if (65 ≤ r ∧ r ≤ 90) ∨ (192 ≤ r ∧ r ≤ 214) ∨ (216 ≤ r ∧ r ≤ 222) then r + 32 else r

def unicodeIsUpper (r : Nat) : Bool :=
  (65 ≤ r ∧ r ≤ 90) ∨ (192 ≤ r ∧ r ≤ 214) ∨ (216 ≤ r ∧ r ≤ 222)

def unicodeIsLower (r : Nat) : Bool :=
  (97 ≤ r ∧ r ≤ 122) ∨ r = 181 ∨ (223 ≤ r ∧ r ≤ 246) ∨ (248 ≤ r ∧ r ≤ 255)

def unicodeIsLetter (r : Nat) : Bool :=
  unicodeIsUpper r || unicodeIsLower r || r = 170 || r = 186

def unicodeIsControl (r : Nat) : Bool :=
  r < 32 ∨ (127 ≤ r ∧ r < 160)

def unicodeIsDigit (r : Nat) : Bool :=
  48 ≤ r ∧ r ≤ 57

def unicodeIsNumber (r : Nat) : Bool :=
  unicodeIsDigit r || r = 178 || r = 179 || r = 185 || (188 ≤ r ∧ r ≤ 190)

def unicodeIsSpace (r : Nat) : Bool :=
  (9 ≤ r ∧ r ≤ 13) ∨ r = 32 ∨ r = 133 ∨ r = 160

def unicodeIsGraphic (r : Nat) : Bool :=
  (32 ≤ r ∧ r ≤ 126) ∨ (160 ≤ r ∧ r ≤ 255 ∧ r ≠ 173)

def unicodeIsPunct (r : Nat) : Bool :=
  r ∈ [33, 34, 35, 37, 38, 39, 40, 41, 42, 44, 45, 46, 47, 58, 59, 63, 64,
       91, 92, 93, 95, 123, 125, 161, 167, 171, 182, 183, 187, 191]

def unicodeIsHexDigit (r : Nat) : Bool :=
  (48 ≤ r ∧ r ≤ 57) ∨ (65 ≤ r ∧ r ≤ 70) ∨ (97 ≤ r ∧ r ≤ 102)

def matchClass (c cl : Nat) : Bool :=
  let rcl := unicodeToLower cl
  let fin (res : Bool) : Bool := if unicodeIsLower cl then res else !res
  if rcl = 97 then fin (unicodeIsLetter c)  -- 'a'
  else if rcl = 99 then fin (unicodeIsControl c)  -- 'c'
  else if rcl = 100 then fin (unicodeIsDigit c)  -- 'd'
  else if rcl = 103 then fin (unicodeIsGraphic c && !unicodeIsSpace c)  -- 'g'
  else if rcl = 108 then fin (unicodeIsLower c)  -- 'l'
  else if rcl = 112 then fin (unicodeIsPunct c)  -- 'p'
  else if rcl = 115 then fin (unicodeIsSpace c)  -- 's'
  else if rcl = 117 then fin (unicodeIsUpper c)  -- 'u'
  else if rcl = 119 then fin (unicodeIsLetter c || unicodeIsNumber c)  -- 'w'
  else if rcl = 120 then fin (unicodeIsHexDigit c)  -- 'x'
  else if rcl = 122 then fin (c = 0)  -- 'z'
  else cl = c

/-- The `for` loop of `matchbracketclass`. -/
def matchbracketclassLoop (c : Nat) (p : List Nat) (ecpos : Nat) (sig : Bool) :
    Nat → Nat → Res Bool
  | 0, _ => .error .outOfFuel
  | fuel + 1, ppos =>
    let ppos := ppos + 1
    if ppos ≥ ecpos then .ok (!sig)
    else do
      let pc ← idx p ppos
      if pc = lEsc then
        let ppos := ppos + 1
        let cl ← idx p ppos
        if matchClass c cl then .ok sig
        else matchbracketclassLoop c p ecpos sig fuel ppos
      else
        let pn ← idx p (ppos + 1)
        if pn = 45 ∧ ppos + 2 < ecpos then  -- '-'
          let ppos := ppos + 2
          let lo ← idx p (ppos - 2)
          let hi ← idx p ppos
          if lo ≤ c ∧ c ≤ hi then .ok sig
          else matchbracketclassLoop c p ecpos sig fuel ppos
        else if pc = c then .ok sig
        else matchbracketclassLoop c p ecpos sig fuel ppos

def matchbracketclass (c : Nat) (p : List Nat) (ppos ecpos : Nat) : Res Bool := do
  let pn ← idx p (ppos + 1)
  if pn = 94 then  -- '^'
    matchbracketclassLoop c p ecpos false (ecpos + 1) (ppos + 1)
  else
    matchbracketclassLoop c p ecpos true (ecpos + 1) ppos

def singlematch (src p : List Nat) (spos ppos eppos : Nat) : Res Bool :=
  if spos ≥ src.length then .ok false
  else do
    let c ← idx src spos
    let pc ← idx p ppos
    if pc = 46 then .ok true  -- '.'
    else if pc = lEsc then do
      let cl ← idx p (ppos + 1)
      .ok (matchClass c cl)
    else if pc = 91 then  -- '['
      -- Go computes `eppos-1` on an int; `eppos` is at least 1 here
      matchbracketclass c p ppos (eppos - 1)
    else .ok (decide (pc = c))

/-- What a call of `match` (or of a function that ends in one) leaves
behind: the two Go results and the match state after the call. -/
structure Outcome where
  res : Nat
  ok : Bool
  ms : MatchState

/-- The type of `match(ms, spos, ppos)`. -/
abbrev Cont := MatchState → Nat → Nat → Res Outcome

/-- The first loop of `maxExpand`: counts the maximum expand for the item. -/
def maxExpandCount (src p : List Nat) (spos ppos eppos : Nat) : Nat → Nat → Res Nat
  | 0, _ => .error .outOfFuel
  | fuel + 1, i => do
    if (← singlematch src p (spos + i) ppos eppos) then
      maxExpandCount src p spos ppos eppos fuel (i + 1)
    else .ok i

/-- The second loop of `maxExpand`: keeps trying to match with the maximum
repetitions, `i` counting down until it is negative. `cont` is `match`. -/
def maxExpandTry (cont : Cont) (spos eppos : Nat) : Nat → MatchState → Res Outcome
  | 0, ms => do
    let r ← cont ms (spos + 0) (eppos + 1)
    if r.ok then .ok r else .ok { res := 0, ok := false, ms := r.ms }
  | i + 1, ms => do
    let r ← cont ms (spos + (i + 1)) (eppos + 1)
    if r.ok then .ok r else maxExpandTry cont spos eppos i r.ms

def maxExpand (cont : Cont) (src p : List Nat) (ms : MatchState)
    (spos ppos eppos : Nat) : Res Outcome := do
  let i ← maxExpandCount src p spos ppos eppos (src.length + 1) 0
  maxExpandTry cont spos eppos i ms

/-- The loop of `minExpand`. `cont` is `match`. -/
def minExpandLoop (cont : Cont) (src p : List Nat) (ppos eppos : Nat) :
    Nat → MatchState → Nat → Res Outcome
  | 0, _, _ => .error .outOfFuel
  | fuel + 1, ms, spos => do
    let r ← cont ms spos (eppos + 1)
    if r.ok then .ok { res := r.res, ok := true, ms := r.ms }
    else if (← singlematch src p spos ppos eppos) then
      minExpandLoop cont src p ppos eppos fuel r.ms (spos + 1)
    else .ok { res := 0, ok := false, ms := r.ms }

def minExpand (cont : Cont) (src p : List Nat) (ms : MatchState)
    (spos ppos eppos : Nat) : Res Outcome :=
  minExpandLoop cont src p ppos eppos (src.length + 1) ms spos

def startCapture (cont : Cont) (ms : MatchState) (spos ppos : Nat) (what : Int) :
    Res Outcome :=
  let level := ms.level
  if level ≥ luaMaxCaptures then .error .tooManyCaptures
  else do
    let ms := { ms.setCapture level { init := spos, len := what } with level := level + 1 }
    let r ← cont ms spos ppos
    if r.ok then .ok r
    else .ok { r with ms := { r.ms with level := r.ms.level - 1 } }  -- undo capture

def endCapture (cont : Cont) (ms : MatchState) (spos ppos : Nat) : Res Outcome := do
  let l ← captureToClose ms
  let ms := ms.setLen l ((spos : Int) - ((ms.capture l).init : Int))  -- close capture
  let r ← cont ms spos ppos
  if r.ok then .ok r
  else .ok { r with ms := r.ms.setLen l capUnfinished }  -- undo capture

/-- How one pass through the body of `match` below the label `init` ends:
with `goto init` (the closure `defaultCase` returned true) or at the
statement after the `switch`. -/
inductive Step where
  | again (ms : MatchState) (spos ppos : Nat)
  | done (o : Outcome)

/-- The suffix character `ep` that `defaultCase` reads at `eppos`: 0 at the
end of the pattern. -/
def suffixAt (p : List Nat) (eppos : Nat) : Res Nat :=
  if eppos ≠ p.length then idx p eppos else .ok 0

/-- The closure `defaultCase` of `match`; the variables `spos`, `ppos` and
`ok` it assigns to are in the `Step` it returns. `cont` is `match`. -/
def defaultCase (cont : Cont) (src p : List Nat) (ms : MatchState)
    (spos ppos : Nat) : Res Step := do
  let eppos ← classend p ppos  -- points to optional suffix
  let m ← singlematch src p spos ppos eppos
  let ep ← suffixAt p eppos
  if !m then
    if ep = 42 ∨ ep = 63 ∨ ep = 45 then  -- '*', '?', '-': accept empty?
      .ok (.again ms spos (eppos + 1))
    else  -- '+' or no suffix
      .ok (.done { res := spos, ok := false, ms := ms })
  else if ep = 63 then do  -- '?': optional
    let r ← cont ms (spos + 1) (eppos + 1)
    if r.ok then .ok (.done { res := r.res, ok := true, ms := r.ms })
    else .ok (.again r.ms spos (eppos + 1))
  else if ep = 43 then  -- '+': 1 or more repetitions
    (maxExpand cont src p ms (spos + 1) ppos eppos).map Step.done
  else if ep = 42 then  -- '*': 0 or more repetitions
    (maxExpand cont src p ms spos ppos eppos).map Step.done
  else if ep = 45 then  -- '-': 0 or more repetitions (minimum)
    (minExpand cont src p ms spos ppos eppos).map Step.done
  else  -- no suffix
    .ok (.again ms (spos + 1) eppos)

/-- One pass through the body of `match` from the label `init`. -/
def matchStep (cont : Cont) (src p : List Nat) (ms : MatchState)
    (spos ppos : Nat) : Res Step :=
  if ppos ≠ p.length then do  -- end of pattern?
    let c ← idx p ppos
    if c = 40 then do  -- '(': start capture
      let pn ← idx p (ppos + 1)
      if pn = 41 then  -- ')'
        (startCapture cont ms spos (ppos + 2) capPosition).map Step.done
      else
        (startCapture cont ms spos (ppos + 1) capUnfinished).map Step.done
    else if c = 41 then  -- ')': end capture
      (endCapture cont ms spos (ppos + 1)).map Step.done
    else if c = 36 then  -- '$'
      if ppos + 1 ≠ p.length then  -- is the '$' the last char in pattern?
        defaultCase cont src p ms spos ppos
      else if spos ≠ src.length then
        .ok (.done { res := 0, ok := false, ms := ms })
      else
        .ok (.done { res := spos, ok := true, ms := ms })
    else if c = lEsc then do
      let pnext ← idx p (ppos + 1)
      if pnext = 98 then  -- 'b': balanced string? (TODO in the source)
        .ok (.done { res := spos, ok := true, ms := ms })
      else if pnext = 102 then  -- 'f': frontier? (TODO in the source)
        .ok (.done { res := spos, ok := true, ms := ms })
      else if 48 ≤ pnext ∧ pnext ≤ 57 then  -- '0'..'9' (TODO in the source)
        .ok (.done { res := spos, ok := true, ms := ms })
      else
        defaultCase cont src p ms spos ppos
    else  -- pattern class plus optional suffix
      defaultCase cont src p ms spos ppos
  else
    .ok (.done { res := spos, ok := true, ms := ms })

/-- The entry and the exit of `match` around its body: the depth check, the
decrement, and the increment before the `return`. -/
def matchCall (body : Cont) : Cont := fun ms spos ppos =>
  if ms.matchDepth = 0 then .error .tooComplex
  else do
    let r ← body { ms with matchDepth := ms.matchDepth - 1 } spos ppos
    .ok { r with ms := { r.ms with matchDepth := r.ms.matchDepth + 1 } }

/-- The body of `match` from the label `init`: every `goto init` and every
nested call of `match` takes one unit of `fuel`. -/
def matchInit (src p : List Nat) : Nat → Cont
  | 0 => fun _ _ _ => .error .outOfFuel
  | fuel + 1 => fun ms spos ppos => do
    match ← matchStep (matchCall (matchInit src p fuel)) src p ms spos ppos with
    | .again ms spos ppos => matchInit src p fuel ms spos ppos
    | .done o => .ok o

/-- Enough fuel for `match` at depth `depth`: below each of the at most
`depth` nested calls the label `init` is reached at most `len(p) + 1` times. -/
def matchFuel (p : List Nat) (depth : Nat) : Nat :=
  depth * (p.length + 3) + p.length + 2

/-- Go's `match(ms, spos, ppos)`. -/
def match_ (src p : List Nat) : Cont := fun ms spos ppos =>
  matchCall (matchInit src p (matchFuel p ms.matchDepth)) ms spos ppos

/-- A value pushed on the host's stack. -/
inductive Value where
  | nil
  | integer (n : Int)
  | string (s : List Nat)
  deriving DecidableEq, Repr

/-- The value `pushOnecapture` pushes. -/
def pushOnecapture (ms : MatchState) (src : List Nat) (i spos epos : Nat) : Res Value :=
  if i ≥ ms.level then
    if i = 0 then  -- ms->level == 0, too
      (slice src spos epos).map Value.string  -- add whole match
    else .error .invalidCaptureIndex
  else
    let l := (ms.capture i).len
    if l = capUnfinished then .error .unfinishedCapture
    else
      let ipos := (ms.capture i).init
      if l = capPosition then .ok (.integer ipos)
      else if l < 0 then .error .sliceOutOfRange
      else (slice src ipos (ipos + l.toNat)).map Value.string

/-- The `for` loop of `pushCaptures`, from index `i`, `n` levels to go. -/
def pushCapturesLoop (ms : MatchState) (src : List Nat) (spos epos : Nat) :
    Nat → Nat → Res (List Value)
  | 0, _ => .ok []
  | n + 1, i => do
    let v ← pushOnecapture ms src i spos epos
    let vs ← pushCapturesLoop ms src spos epos n (i + 1)
    .ok (v :: vs)

/-- The values `pushCaptures` pushes, in order; the number it returns is
their count. `CheckStackWithMessage` is the host's and is taken to succeed. -/
def pushCaptures (ms : MatchState) (src : List Nat) (spos epos : Nat) (snil : Bool) :
    Res (List Value) :=
  let nlevels := if ms.level = 0 ∧ snil = false then 1 else ms.level
  pushCapturesLoop ms src spos epos nlevels 0

def nospecials (p : List Nat) : Bool :=
  !p.any (fun c => c ∈ specials)

/-- Go's `strings.Index` at offset `k` of the string searched: the index of
the first instance of `substr`, or -1. -/
def stringsIndexFrom (substr : List Nat) : List Nat → Nat → Int
  | [], k => if substr = [] then (k : Int) else -1
  | c :: s, k =>
    if substr.isPrefixOf (c :: s) then (k : Int) else stringsIndexFrom substr s (k + 1)

/-- Go's `strings.Index(s, substr)`. -/
def stringsIndex (s substr : List Nat) : Int :=
  stringsIndexFrom substr s 0

/-- Modelled from the spec: `relativePosition` is not in `pattern.go`; a
negative position counts from the end of the subject. -/
def relativePosition (pos : Int) (len : Nat) : Int :=
  if pos ≥ 0 then pos
  else if -pos > (len : Int) then 0
  else (len : Int) + pos + 1

/-- The match state `strFindAux` and `gmatchAux` start from. -/
def initialState : MatchState :=
  { matchDepth := maxCCalls, level := 0, capture := fun _ => { init := 0, len := 0 } }

/-- The `for` loop of `strFindAux` over the start offsets `s1`. -/
def strFindLoop (src p : List Nat) (anchor find : Bool) :
    Nat → MatchState → Nat → Res (List Value)
  | 0, _, _ => .error .outOfFuel
  | fuel + 1, ms, s1 => do
    let r ← match_ src p { ms with level := 0 } s1 0
    if r.ok then
      if find then do
        let caps ← pushCaptures r.ms src 0 0 true
        .ok (.integer ((s1 : Int) + 1) :: .integer r.res :: caps)
      else
        pushCaptures r.ms src s1 r.res false
    else if ¬ (s1 < src.length ∧ anchor = false) then
      .ok [.nil]
    else
      strFindLoop src p anchor find fuel r.ms (s1 + 1)

/-- The part of `strFindAux` after the normalisation of `init`: the plain
search or the loop over the start offsets. -/
def strFindSearch (s p : List Nat) (init : Int) (plain find : Bool) : Res (List Value) :=
  -- explicit request or no special characters?
  if (find && plain) || nospecials p then
    -- do a plain search
    let s2 := stringsIndex (s.drop (init.toNat - 1)) p
    if s2 ≠ -1 then
      .ok [.integer (s2 + init), .integer (s2 + init + (p.length : Int) - 1)]
    else .ok [.nil]
  else do
    let s1 := init.toNat - 1
    let c ← idx p 0
    let anchor := decide (c = 94)  -- '^'
    let p := if anchor then p.drop 1 else p  -- skip anchor character
    strFindLoop s p anchor find (s.length + 1) initialState s1

/-- The values `strFindAux` pushes, in order. `init` is the third argument
(1 when absent), `plain` is `l.Top() >= 4 && l.ToBoolean(4)`. -/
def strFindAux (s p : List Nat) (init : Int) (plain find : Bool) : Res (List Value) :=
  let init := relativePosition init s.length
  if init < 1 then
    strFindSearch s p 1 plain find
  else if init > (s.length : Int) + 1 then  -- start after string's end?
    .ok [.nil]  -- cannot find anything
  else
    strFindSearch s p init plain find

def strFind (s p : List Nat) (init : Int) (plain : Bool) : Res (List Value) :=
  strFindAux s p init plain true

/-- Go's `strMatch`; a fourth argument, when the host passes one, is `plain`. -/
def strMatch (s p : List Nat) (init : Int) (plain : Bool) : Res (List Value) :=
  strFindAux s p init plain false

/-- The `for` loop of `gmatchAux`: the new cursor and the values pushed, or
`none` when the loop ends without a match. -/
def gmatchLoop (src p : List Nat) : Nat → MatchState → Nat → Res (Option (Nat × List Value))
  | 0, _, _ => .error .outOfFuel
  | fuel + 1, ms, srcpos =>
    if srcpos < src.length then do
      let r ← match_ src p { ms with level := 0 } srcpos 0
      if r.ok then do
        let epos := r.res
        let newstart := if epos = srcpos then epos + 1 else epos
        let vals ← pushCaptures r.ms src srcpos epos false
        .ok (some (newstart, vals))
      else
        gmatchLoop src p fuel r.ms (srcpos + 1)
    else .ok none

/-- One call of the iterator `gmatchAux` with the cursor `srcpos` in its
third upvalue: the cursor it leaves there and the values it pushes (none when
it returns 0). -/
def gmatchAux (s p : List Nat) (srcpos : Nat) : Res (Nat × List Value) := do
  match ← gmatchLoop s p (s.length + 1) initialState srcpos with
  | some (newstart, vals) => .ok (newstart, vals)
  | none => .ok (srcpos, [])

/-- The cursor `gmatch` stores in the closure it returns. -/
def gmatch : Nat := 0

/-- The host's generic `for` over the iterator: calls `gmatchAux` until it
pushes nothing, at most `n` times, and collects what each call pushed. The
second component tells whether the iterator was exhausted within `n` calls. -/
def gmatchCalls (s p : List Nat) : Nat → Nat → Res (List (List Value) × Bool)
  | 0, _ => .ok ([], false)
  | n + 1, cursor => do
    let (cursor, vals) ← gmatchAux s p cursor
    if vals = [] then .ok ([], true)
    else do
      let (rest, done) ← gmatchCalls s p n cursor
      .ok (vals :: rest, done)

/-- Go's `strGsub`: a stub that pushes nothing. -/
def strGsub (_s _p : List Nat) : Res (List Value) := .ok []

/-- The pattern `p` occurs in `s` at the 1-based index `i`. -/
def occursAt (s p : List Nat) (i : Nat) : Prop :=
  1 ≤ i ∧ i ≤ s.length + 1 ∧ p <+: s.drop (i - 1)

/-- Two match states in which a call reads the same: the same depth, the
same level and the same capture slots below the level. -/
def MatchState.Same (a b : MatchState) : Prop :=
  a.matchDepth = b.matchDepth ∧ a.level = b.level ∧
    ∀ i, i < a.level → a.capture i = b.capture i

/-- What holds of the outcome `o` of a call made in state `ms` at subject
position `spos`. -/
structure Post (src : List Nat) (ms : MatchState) (spos : Nat) (o : Outcome) : Prop where
  depth : o.ms.matchDepth = ms.matchDepth
  fail : o.ok = false → o.ms.Same ms
  lo : o.ok = true → spos ≤ o.res
  hi : o.ok = true → spos ≤ src.length → o.res ≤ src.length
  level : ms.level ≤ luaMaxCaptures → o.ms.level ≤ luaMaxCaptures

/-- Every outcome of `cont` satisfies `Post`. -/
def ContInv (src : List Nat) (cont : Cont) : Prop :=
  ∀ ms spos ppos o, cont ms spos ppos = .ok o → Post src ms spos o

/-- What holds at the end of one pass through the body of `match`. -/
def StepPost (src : List Nat) (ms : MatchState) (spos ppos : Nat) : Step → Prop
  | .again ms' spos' ppos' =>
    ms'.Same ms ∧ spos ≤ spos' ∧ (spos ≤ src.length → spos' ≤ src.length) ∧ ppos < ppos'
  | .done o => Post src ms spos o

/-- Two results that end in the same error or in values related by `Q`. -/
def RelE {α : Type} (Q : α → α → Prop) : Res α → Res α → Prop
  | .ok a, .ok b => Q a b
  | .error e, .error e' => e = e'
  | _, _ => False

/-- A relation between match states that every step of the engine keeps. -/
structure StateRel (R : MatchState → MatchState → Prop) : Prop where
  depth : ∀ {a b}, R a b → a.matchDepth = b.matchDepth
  level : ∀ {a b}, R a b → a.level = b.level
  cap : ∀ {a b}, R a b → ∀ i, i < a.level → a.capture i = b.capture i
  push : ∀ {a b} (c : Capture), R a b →
    R { a.setCapture a.level c with level := a.level + 1 }
      { b.setCapture a.level c with level := a.level + 1 }
  pop : ∀ {a b}, R a b →
    R { a with level := a.level - 1 } { b with level := b.level - 1 }
  setLen : ∀ {a b} (l : Nat) (v : Int), R a b → R (a.setLen l v) (b.setLen l v)
  setDepth : ∀ {a b} (d : Nat), R a b →
    R { a with matchDepth := d } { b with matchDepth := d }
  setLevel : ∀ {a b}, R a b → R { a with level := 0 } { b with level := 0 }

/-- Two outcomes with the same results and related states. -/
def OutRel (R : MatchState → MatchState → Prop) (a b : Outcome) : Prop :=
  a.res = b.res ∧ a.ok = b.ok ∧ R a.ms b.ms

/-- Two passes through the body of `match` that end the same way. -/
def StepR (R : MatchState → MatchState → Prop) : Step → Step → Prop
  | .again m1 s1 p1, .again m2 s2 p2 => R m1 m2 ∧ s1 = s2 ∧ p1 = p2
  | .done a, .done b => OutRel R a b
  | _, _ => False

/-- The functions `c1` and `c2` do the same on related states of depth `D`. -/
def ContRel (R : MatchState → MatchState → Prop) (D : Nat) (c1 c2 : Cont) : Prop :=
  ∀ m1 m2 s p, m1.matchDepth = D → R m1 m2 → RelE (OutRel R) (c1 m1 s p) (c2 m2 s p)

/-- The fuel that the body of `match` needs at depth `depth` from the
pattern position `ppos`. -/
def fuelNeed (p : List Nat) (depth ppos : Nat) : Nat :=
  depth * (p.length + 3) + (p.length + 1 - ppos) + 1

/-- The body of `match` from the label `init`, with the fuel it needs. -/
def matchBody (src p : List Nat) : Cont := fun ms spos ppos =>
  matchInit src p (fuelNeed p ms.matchDepth ppos) ms spos ppos

/-- The pattern character at `ppos` starts a single item (a literal, `.`, an
escaped class or a bracket set): `match` sends it to `defaultCase`. -/
def isItemStart (p : List Nat) (ppos : Nat) : Bool :=
  match idx p ppos with
  | .error _ => false
  | .ok c =>
    if c = 40 ∨ c = 41 then false  -- '(' and ')'
    else if c = 36 then decide (ppos + 1 ≠ p.length)  -- '$'
    else if c = lEsc then
      match idx p (ppos + 1) with
      | .error _ => false
      | .ok pnext => !decide (pnext = 98 ∨ pnext = 102 ∨ (48 ≤ pnext ∧ pnext ≤ 57))
    else true

/-- The continuation of an item with a suffix, `k` characters after `spos`:
`match` on the pattern after the suffix. When the item matched at `spos`
the body of `match` runs it as a nested call, with the depth counter one
lower; when it did not, the body goes on with `goto init`, which does what
`match` does in the state `ms`. -/
def continuation (src p : List Nat) (ms : MatchState) (spos eppos : Nat)
    (matched : Bool) (k : Nat) : Res Outcome :=
  if matched then
    match_ src p { ms with matchDepth := ms.matchDepth - 1 } (spos + k) (eppos + 1)
  else
    match_ src p ms (spos + k) (eppos + 1)

/-- The pattern of `n` consecutive position captures `()`. -/
def positionCaptures : Nat → List Nat
  | 0 => []
  | n + 1 => 40 :: 41 :: positionCaptures n

/-- The pattern of `n` copies of `a?`. -/
def optionals : Nat → List Nat
  | 0 => []
  | n + 1 => 97 :: 63 :: optionals n

/-- The errors that one pass through the body of `match` raises itself. -/
def LeafErr (e : Err) : Prop :=
  e = .indexOutOfRange ∨ e = .malformedMissingBracket ∨ e = .tooManyCaptures ∨
    e = .invalidPatternCapture

/-- The errors a call of `match` can end in. -/
def EngineErr (e : Err) : Prop :=
  LeafErr e ∨ e = .tooComplex

/-- Every error of `cont` in a state of depth `D` satisfies `E`. -/
def ContErrs (cont : Cont) (D : Nat) (E : Err → Prop) : Prop :=
  ∀ ms s q e, ms.matchDepth = D → cont ms s q = .error e → E e

/-- The errors a call of `strFindAux` or `gmatchAux` can end in. -/
def DriverErr (e : Err) : Prop :=
  EngineErr e ∨ e = .unfinishedCapture ∨ e = .invalidCaptureIndex ∨ e = .sliceOutOfRange

/-- The loop of `strFindAux` with the depth counter set to `maxCCalls`
before every attempt: what the loop is to be compared with. -/
def strFindLoopFullBudget (src p : List Nat) (anchor find : Bool) :
    Nat → MatchState → Nat → Res (List Value)
  | 0, _, _ => .error .outOfFuel
  | fuel + 1, ms, s1 => do
    let r ← match_ src p { ms with level := 0, matchDepth := maxCCalls } s1 0
    if r.ok then
      if find then do
        let caps ← pushCaptures r.ms src 0 0 true
        .ok (.integer ((s1 : Int) + 1) :: .integer r.res :: caps)
      else
        pushCaptures r.ms src s1 r.res false
    else if ¬ (s1 < src.length ∧ anchor = false) then
      .ok [.nil]
    else
      strFindLoopFullBudget src p anchor find fuel r.ms (s1 + 1)

/-- The loop of `gmatchAux` with the depth counter set to `maxCCalls` before
every attempt: what the loop is to be compared with. -/
def gmatchLoopFullBudget (src p : List Nat) :
    Nat → MatchState → Nat → Res (Option (Nat × List Value))
  | 0, _, _ => .error .outOfFuel
  | fuel + 1, ms, srcpos =>
    if srcpos < src.length then do
      let r ← match_ src p { ms with level := 0, matchDepth := maxCCalls } srcpos 0
      if r.ok then do
        let epos := r.res
        let newstart := if epos = srcpos then epos + 1 else epos
        let vals ← pushCaptures r.ms src srcpos epos false
        .ok (some (newstart, vals))
      else
        gmatchLoopFullBudget src p fuel r.ms (srcpos + 1)
    else .ok none

/-- A plain literal: a character that is none of the special characters and
not `)`. -/
def isPlainLiteral (c : Nat) : Bool :=
  !decide (c ∈ specials) && !decide (c = 41)

/-- An unquantified single-character item: a plain literal or `.`. -/
def isPlainItem (c : Nat) : Bool :=
  decide (c = 46) || isPlainLiteral c

/-- The items of `p` match the first characters of `t` one by one: `.`
matches any character, a literal matches itself. -/
def itemsMatch : List Nat → List Nat → Bool
  | [], _ => true
  | _ :: _, [] => false
  | c :: p, x :: t => (decide (c = 46) || decide (c = x)) && itemsMatch p t

/-! ## Theorems -/

@[simp] theorem bind_ok {α β : Type} (a : α) (f : α → Res β) :
    (Except.ok a >>= f) = f a := rfl

@[simp] theorem bind_error {α β : Type} (e : Err) (f : α → Res β) :
    ((Except.error e : Res α) >>= f) = Except.error e := rfl

@[simp] theorem pure_eq_ok {α : Type} (a : α) : (pure a : Res α) = Except.ok a := rfl

@[simp] theorem map_ok {α β : Type} (a : α) (f : α → β) :
    (Except.ok a : Res α).map f = Except.ok (f a) := rfl

@[simp] theorem map_error {α β : Type} (e : Err) (f : α → β) :
    (Except.error e : Res α).map f = Except.error e := rfl

theorem stringsIndexFrom_spec (sub : List Nat) :
    ∀ (s : List Nat) (k : Nat),
      (stringsIndexFrom sub s k = -1 ∧ ∀ j, j ≤ s.length → ¬ sub <+: s.drop j) ∨
      (∃ j, j ≤ s.length ∧ stringsIndexFrom sub s k = ((k + j : Nat) : Int) ∧
        sub <+: s.drop j ∧ ∀ j', j' < j → ¬ sub <+: s.drop j') := by
  intro s
  induction s with
  | nil =>
    intro k
    by_cases h : sub = []
    · right
      refine ⟨0, by simp, by simp [stringsIndexFrom, h], by simp [h], by simp⟩
    · left
      refine ⟨by simp [stringsIndexFrom, h], ?_⟩
      intro j _
      simpa using h
  | cons c s ih =>
    intro k
    by_cases h : sub.isPrefixOf (c :: s) = true
    · right
      refine ⟨0, by simp, by simp [stringsIndexFrom, h], ?_, by simp⟩
      simpa using List.isPrefixOf_iff_prefix.mp h
    · have hnp : ¬ sub <+: c :: s := fun hp => h (List.isPrefixOf_iff_prefix.mpr hp)
      have hstep : stringsIndexFrom sub (c :: s) k = stringsIndexFrom sub s (k + 1) := by
        simp [stringsIndexFrom, h]
      rcases ih (k + 1) with ⟨h1, h2⟩ | ⟨j, hj, h1, h2, h3⟩
      · left
        refine ⟨by rw [hstep, h1], ?_⟩
        intro j hj
        cases j with
        | zero => simpa using hnp
        | succ j =>
          simp only [List.drop_succ_cons]
          exact h2 j (by simpa using hj)
      · right
        refine ⟨j + 1, by simpa using hj, ?_, by simpa using h2, ?_⟩
        · rw [hstep, h1]
          congr 1
          omega
        · intro j' hj'
          cases j' with
          | zero => simpa using hnp
          | succ j' =>
            simp only [List.drop_succ_cons]
            exact h3 j' (by omega)

/-- C1: for a pattern without special characters and an in-range `init`,
`Find` is plain substring search: it returns `(i, i + len(p) - 1)` for the
smallest 1-based index `i >= init` at which `p` occurs in `s`, and "not
found" (a single nil) when `p` does not occur at or after `init`. -/
theorem find_nospecials_is_plain_search (s p : List Nat) (init : Int) (plain : Bool)
    (hp : nospecials p = true) (h1 : 1 ≤ init) (h2 : init ≤ (s.length : Int) + 1) :
    (∃ i : Nat, init ≤ (i : Int) ∧ occursAt s p i ∧
        (∀ j : Nat, init ≤ (j : Int) → occursAt s p j → i ≤ j) ∧
        strFind s p init plain =
          .ok [.integer (i : Int), .integer ((i : Int) + (p.length : Int) - 1)]) ∨
    ((∀ j : Nat, init ≤ (j : Int) → ¬ occursAt s p j) ∧
        strFind s p init plain = .ok [.nil]) := by
  lift init to ℕ using (by omega) with n
  have hn1 : 1 ≤ n := by exact_mod_cast h1
  have hn2 : n ≤ s.length + 1 := by exact_mod_cast h2
  have hrel : relativePosition (n : Int) s.length = (n : Int) := by
    simp [relativePosition]
  have hlen : (s.drop (n - 1)).length = s.length - (n - 1) := by simp
  have hfind : strFind s p (n : Int) plain =
      (if stringsIndex (s.drop (n - 1)) p ≠ -1 then
        .ok [.integer (stringsIndex (s.drop (n - 1)) p + (n : Int)),
             .integer (stringsIndex (s.drop (n - 1)) p + (n : Int) + (p.length : Int) - 1)]
      else .ok [.nil]) := by
    have hlt : ¬ ((n : Int) < 1) := by omega
    have hgt : ¬ ((n : Int) > (s.length : Int) + 1) := by omega
    simp only [strFind, strFindAux, strFindSearch, hrel, hlt, hgt, hp, if_false, Bool.or_true, if_true,
      Int.toNat_ofNat]
  rcases stringsIndexFrom_spec p (s.drop (n - 1)) 0 with ⟨hm, hnone⟩ | ⟨j, hj, hm, hocc, hmin⟩
  · right
    refine ⟨?_, ?_⟩
    · intro i hi hoc
      obtain ⟨hi1, hi2, hpre⟩ := hoc
      have hi' : n ≤ i := by exact_mod_cast hi
      apply hnone (i - n) (by rw [hlen]; omega)
      rw [List.drop_drop]
      have : n - 1 + (i - n) = i - 1 := by omega
      rw [Nat.add_comm] at this
      rw [Nat.add_comm, this]
      exact hpre
    · rw [hfind]
      simp [stringsIndex, hm]
  · left
    have hidx : stringsIndex (s.drop (n - 1)) p = (j : Int) := by
      simp [stringsIndex, hm]
    rw [hlen] at hj
    refine ⟨j + n, by push_cast; omega, ⟨by omega, by omega, ?_⟩, ?_, ?_⟩
    · rw [List.drop_drop] at hocc
      have : j + n - 1 = n - 1 + j := by omega
      rw [this]
      exact hocc
    · intro i hi hoc
      obtain ⟨hi1, hi2, hpre⟩ := hoc
      have hi' : n ≤ i := by exact_mod_cast hi
      by_contra hlt
      apply hmin (i - n) (by omega)
      rw [List.drop_drop]
      have : n - 1 + (i - n) = i - 1 := by omega
      rw [Nat.add_comm] at this
      rw [Nat.add_comm, this]
      exact hpre
    · rw [hfind, hidx]
      have hne : ((j : Int) ≠ -1) := by omega
      simp only [hne, ne_eq, not_false_eq_true, if_true]
      push_cast
      rfl

theorem find_nospecials_is_plain_search_witness :
    (∃ i : Nat, (2 : Int) ≤ (i : Int) ∧ occursAt (bytes "hello") (bytes "l") i ∧
        (∀ j : Nat, (2 : Int) ≤ (j : Int) → occursAt (bytes "hello") (bytes "l") j → i ≤ j) ∧
        strFind (bytes "hello") (bytes "l") 2 false =
          .ok [.integer (i : Int), .integer ((i : Int) + ((bytes "l").length : Int) - 1)]) ∨
    ((∀ j : Nat, (2 : Int) ≤ (j : Int) → ¬ occursAt (bytes "hello") (bytes "l") j) ∧
        strFind (bytes "hello") (bytes "l") 2 false = .ok [.nil]) :=
  find_nospecials_is_plain_search (bytes "hello") (bytes "l") 2 false
    (by decide) (by decide) (by decide)

theorem bind_eq_ok {α β : Type} (x : Res α) (f : α → Res β) (b : β) :
    (x >>= f) = .ok b ↔ ∃ a, x = .ok a ∧ f a = .ok b := by
  cases x with
  | error e => simp
  | ok a => simp

theorem map_eq_ok {α β : Type} (x : Res α) (f : α → β) (b : β) :
    x.map f = .ok b ↔ ∃ a, x = .ok a ∧ f a = b := by
  cases x with
  | error e => simp
  | ok a => simp

theorem MatchState.Same.refl (a : MatchState) : a.Same a :=
  ⟨rfl, rfl, fun _ _ => rfl⟩

theorem MatchState.Same.symm {a b : MatchState} (h : a.Same b) : b.Same a :=
  ⟨h.1.symm, h.2.1.symm, fun i hi => (h.2.2 i (h.2.1 ▸ hi)).symm⟩

theorem MatchState.Same.trans {a b c : MatchState} (h1 : a.Same b) (h2 : b.Same c) :
    a.Same c :=
  ⟨h1.1.trans h2.1, h1.2.1.trans h2.2.1,
    fun i hi => (h1.2.2 i hi).trans (h2.2.2 i (h1.2.1 ▸ hi))⟩

theorem Post.of_again {src : List Nat} {ms ms' : MatchState} {spos spos' : Nat}
    {o : Outcome} (hs : ms'.Same ms) (h1 : spos ≤ spos')
    (h2 : spos ≤ src.length → spos' ≤ src.length) (h : Post src ms' spos' o) :
    Post src ms spos o where
  depth := h.depth.trans hs.1
  fail := fun hf => (h.fail hf).trans hs
  lo := fun ho => le_trans h1 (h.lo ho)
  hi := fun ho hl => h.hi ho (h2 hl)
  level := fun hl => h.level (hs.2.1 ▸ hl)

theorem idx_eq_ok {s : List Nat} {i c : Nat} : idx s i = .ok c ↔ s.get? i = some c := by
  unfold idx
  cases h : s.get? i <;> simp

theorem idx_lt {s : List Nat} {i c : Nat} (h : idx s i = .ok c) : i < s.length := by
  rw [idx_eq_ok] at h
  exact (List.get?_eq_some.mp h).1

theorem singlematch_lt {src p : List Nat} {spos ppos eppos : Nat}
    (h : singlematch src p spos ppos eppos = .ok true) : spos < src.length := by
  unfold singlematch at h
  by_contra hc
  simp [Nat.not_lt.mp hc] at h

theorem classendLoop_gt (p : List Nat) :
    ∀ fuel ppos r, classendLoop p fuel ppos = .ok r → ppos < r := by
  intro fuel
  induction fuel with
  | zero => intro ppos r h; simp [classendLoop] at h
  | succ n ih =>
    intro ppos r h
    simp only [classendLoop] at h
    split at h
    · simp at h
    · simp only [bind_eq_ok] at h
      obtain ⟨c, _, c2, _, h⟩ := h
      split at h
      · simp only [Except.ok.injEq] at h
        subst h
        split <;> omega
      · have := ih _ _ h
        split at this <;> omega

theorem classend_gt {p : List Nat} {ppos e : Nat} (h : classend p ppos = .ok e) :
    ppos < e := by
  unfold classend at h
  simp only [bind_eq_ok] at h
  obtain ⟨c, _, h⟩ := h
  split at h
  · split at h
    · simp at h
    · simp only [Except.ok.injEq] at h; omega
  · split at h
    · simp only [bind_eq_ok] at h
      obtain ⟨c1, _, r, hr, h⟩ := h
      have := classendLoop_gt p _ _ _ hr
      simp only [Except.ok.injEq] at h
      split at this <;> omega
    · simp only [Except.ok.injEq] at h; omega

theorem maxExpandCount_bound (src p : List Nat) (spos ppos eppos : Nat) :
    ∀ fuel i n, maxExpandCount src p spos ppos eppos fuel i = .ok n →
      i ≤ n ∧ (spos + i ≤ src.length → spos + n ≤ src.length) := by
  intro fuel
  induction fuel with
  | zero => intro i n h; simp [maxExpandCount] at h
  | succ f ih =>
    intro i n h
    simp only [maxExpandCount, bind_eq_ok] at h
    obtain ⟨m, hm, h⟩ := h
    cases m with
    | false =>
      simp at h
      subst h
      exact ⟨le_refl _, id⟩
    | true =>
      simp at h
      have hlt := singlematch_lt hm
      obtain ⟨h1, h2⟩ := ih _ _ h
      exact ⟨by omega, fun _ => h2 (by omega)⟩

theorem maxExpandTry_post {src : List Nat} {cont : Cont} (hc : ContInv src cont)
    (spos eppos : Nat) :
    ∀ i ms o, (spos ≤ src.length → spos + i ≤ src.length) →
      maxExpandTry cont spos eppos i ms = .ok o → Post src ms spos o := by
  intro i
  induction i with
  | zero =>
    intro ms o _ h
    simp only [maxExpandTry, bind_eq_ok] at h
    obtain ⟨r, hr, h⟩ := h
    have hp := hc _ _ _ _ hr
    split at h
    · rename_i hok
      simp only [Except.ok.injEq] at h
      subst h
      exact ⟨hp.depth, fun hf => by simp [hok] at hf, fun ho => by have := hp.lo ho; omega,
        fun ho hl => hp.hi ho (by omega), hp.level⟩
    · rename_i hok
      simp only [Except.ok.injEq] at h
      subst h
      exact ⟨hp.depth, fun _ => hp.fail (by simpa using hok), fun ho => by simp at ho,
        fun ho => by simp at ho, hp.level⟩
  | succ i ih =>
    intro ms o hb h
    simp only [maxExpandTry, bind_eq_ok] at h
    obtain ⟨r, hr, h⟩ := h
    have hp := hc _ _ _ _ hr
    split at h
    · rename_i hok
      simp only [Except.ok.injEq] at h
      subst h
      exact ⟨hp.depth, fun hf => by simp [hok] at hf, fun ho => by have := hp.lo ho; omega,
        fun ho hl => hp.hi ho (hb hl), hp.level⟩
    · rename_i hok
      have hs := hp.fail (by simpa using hok)
      have hq := ih r.ms o (fun hl => by have := hb hl; omega) h
      exact Post.of_again hs (le_refl _) id hq

theorem maxExpand_post {src : List Nat} {cont : Cont} (hc : ContInv src cont)
    (p : List Nat) (ms : MatchState) (spos ppos eppos : Nat) (o : Outcome)
    (h : maxExpand cont src p ms spos ppos eppos = .ok o) : Post src ms spos o := by
  simp only [maxExpand, bind_eq_ok] at h
  obtain ⟨i, hi, h⟩ := h
  have hb := (maxExpandCount_bound src p spos ppos eppos _ _ _ hi).2
  exact maxExpandTry_post hc spos eppos i ms o (fun hl => hb (by omega)) h

theorem minExpandLoop_post {src : List Nat} {cont : Cont} (hc : ContInv src cont)
    (p : List Nat) (ppos eppos : Nat) :
    ∀ fuel ms spos o, minExpandLoop cont src p ppos eppos fuel ms spos = .ok o →
      Post src ms spos o := by
  intro fuel
  induction fuel with
  | zero => intro ms spos o h; simp [minExpandLoop] at h
  | succ f ih =>
    intro ms spos o h
    simp only [minExpandLoop, bind_eq_ok] at h
    obtain ⟨r, hr, h⟩ := h
    have hp := hc _ _ _ _ hr
    split at h
    · rename_i hok
      simp only [Except.ok.injEq] at h
      subst h
      exact ⟨hp.depth, fun hf => by simp at hf, fun _ => hp.lo hok,
        fun _ hl => hp.hi hok hl, hp.level⟩
    · rename_i hok
      have hs := hp.fail (by simpa using hok)
      simp only [bind_eq_ok] at h
      obtain ⟨m, hm, h⟩ := h
      cases m with
      | true =>
        simp at h
        have hlt := singlematch_lt hm
        have hq := ih _ _ _ h
        exact Post.of_again hs (by omega) (fun _ => by omega) hq
      | false =>
        simp at h
        subst h
        exact ⟨hp.depth, fun _ => hs, fun ho => by simp at ho, fun ho => by simp at ho,
          hp.level⟩

theorem startCapture_post {src : List Nat} {cont : Cont} (hc : ContInv src cont)
    (ms : MatchState) (spos ppos : Nat) (what : Int) (o : Outcome)
    (h : startCapture cont ms spos ppos what = .ok o) : Post src ms spos o := by
  simp only [startCapture] at h
  split at h
  · simp at h
  · rename_i hlev
    simp only [bind_eq_ok] at h
    obtain ⟨r, hr, h⟩ := h
    have hp := hc _ _ _ _ hr
    split at h
    · rename_i hok
      simp only [Except.ok.injEq] at h
      subst h
      refine ⟨hp.depth, fun hf => by simp [hok] at hf, hp.lo, hp.hi, fun _ => hp.level ?_⟩
      simp only [luaMaxCaptures] at hlev ⊢
      show ms.level + 1 ≤ 32
      omega
    · rename_i hok
      have hs := hp.fail (by simpa using hok)
      simp only [Except.ok.injEq] at h
      subst h
      obtain ⟨hs1, hs2, hs3⟩ := hs
      simp only [MatchState.setCapture] at hs1 hs2 hs3
      refine ⟨hs1, fun _ => ⟨hs1, by simp [hs2], ?_⟩, fun ho => by simp [hok] at ho,
        fun ho => by simp [hok] at ho, fun hl => by simp [hs2]; exact hl⟩
      intro i hi
      simp only [hs2, Nat.add_sub_cancel] at hi
      have := hs3 i (by omega)
      simp only [this]
      simp [Nat.ne_of_lt hi]

theorem captureToCloseLoop_spec (ms : MatchState) :
    ∀ n l, captureToCloseLoop ms n = .ok l →
      l < n ∧ (ms.capture l).len = capUnfinished := by
  intro n
  induction n with
  | zero => intro l h; simp [captureToCloseLoop] at h
  | succ n ih =>
    intro l h
    simp only [captureToCloseLoop] at h
    split at h
    · simp only [Except.ok.injEq] at h
      subst h
      exact ⟨by omega, by assumption⟩
    · have := ih l h
      exact ⟨by omega, this.2⟩

theorem endCapture_post {src : List Nat} {cont : Cont} (hc : ContInv src cont)
    (ms : MatchState) (spos ppos : Nat) (o : Outcome)
    (h : endCapture cont ms spos ppos = .ok o) : Post src ms spos o := by
  simp only [endCapture, bind_eq_ok] at h
  obtain ⟨l, hl, r, hr, h⟩ := h
  have hp := hc _ _ _ _ hr
  obtain ⟨hl1, hl2⟩ := captureToCloseLoop_spec ms _ _ hl
  split at h
  · rename_i hok
    simp only [Except.ok.injEq] at h
    subst h
    exact ⟨hp.depth, fun hf => by simp [hok] at hf, hp.lo, hp.hi, hp.level⟩
  · rename_i hok
    have hs := hp.fail (by simpa using hok)
    simp only [Except.ok.injEq] at h
    subst h
    obtain ⟨hs1, hs2, hs3⟩ := hs
    simp only [MatchState.setLen, MatchState.setCapture] at hs1 hs2 hs3
    refine ⟨hs1, fun _ => ⟨hs1, hs2, ?_⟩, fun ho => by simp [hok] at ho,
      fun ho => by simp [hok] at ho, fun hl => by simp [MatchState.setLen, MatchState.setCapture, hs2]; exact hl⟩
    intro i hi
    simp only [MatchState.setLen, MatchState.setCapture] at hi ⊢
    have := hs3 i hi
    by_cases hil : i = l
    · subst hil
      simp only [if_true] at this ⊢
      rw [this]
      simp only
      rw [← hl2]
    · simp only [hil, if_false] at this ⊢
      exact this

theorem Post.done_of_map {src : List Nat} {ms : MatchState} {spos ppos : Nat}
    {x : Res Outcome} {st : Step} (hx : ∀ o, x = .ok o → Post src ms spos o)
    (h : x.map Step.done = .ok st) : StepPost src ms spos ppos st := by
  rw [map_eq_ok] at h
  obtain ⟨o, ho, rfl⟩ := h
  exact hx o ho

theorem defaultCase_post {src : List Nat} {cont : Cont} (hc : ContInv src cont)
    (p : List Nat) (ms : MatchState) (spos ppos : Nat) (st : Step)
    (h : defaultCase cont src p ms spos ppos = .ok st) : StepPost src ms spos ppos st := by
  simp only [defaultCase, bind_eq_ok] at h
  obtain ⟨eppos, he, m, hm, ep, _, h⟩ := h
  have hgt := classend_gt he
  cases m with
  | false =>
    simp only [Bool.not_false, if_true] at h
    split at h
    · simp only [Except.ok.injEq] at h
      subst h
      exact ⟨MatchState.Same.refl _, le_refl _, id, by omega⟩
    · simp only [Except.ok.injEq] at h
      subst h
      exact ⟨rfl, fun _ => MatchState.Same.refl _, fun ho => by simp at ho,
        fun ho => by simp at ho, id⟩
  | true =>
    have hlt := singlematch_lt hm
    simp only [Bool.not_true, Bool.false_eq_true, if_false] at h
    split at h
    · simp only [bind_eq_ok] at h
      obtain ⟨r, hr, h⟩ := h
      have hp := hc _ _ _ _ hr
      split at h
      · rename_i hok
        simp only [Except.ok.injEq] at h
        subst h
        exact ⟨hp.depth, fun hf => by simp at hf, fun _ => by have := hp.lo hok; show spos ≤ r.res; omega,
          fun _ _ => hp.hi hok (by omega), hp.level⟩
      · rename_i hok
        simp only [Except.ok.injEq] at h
        subst h
        exact ⟨hp.fail (by simpa using hok), le_refl _, id, by omega⟩
    · split at h
      · refine Post.done_of_map (fun o ho => ?_) h
        have hq := maxExpand_post hc _ _ _ _ _ _ ho
        exact ⟨hq.depth, hq.fail, fun hk => by have := hq.lo hk; omega,
          fun hk _ => hq.hi hk (by omega), hq.level⟩
      · split at h
        · exact Post.done_of_map (fun o ho => maxExpand_post hc _ _ _ _ _ _ ho) h
        · split at h
          · exact Post.done_of_map
              (fun o ho => minExpandLoop_post hc _ _ _ _ _ _ _ ho) h
          · simp only [Except.ok.injEq] at h
            subst h
            exact ⟨MatchState.Same.refl _, by omega, fun _ => by omega, hgt⟩

theorem matchStep_post {src : List Nat} {cont : Cont} (hc : ContInv src cont)
    (p : List Nat) (ms : MatchState) (spos ppos : Nat) (st : Step)
    (h : matchStep cont src p ms spos ppos = .ok st) : StepPost src ms spos ppos st := by
  have hdone : ∀ (res : Nat) (ok : Bool),
      (ok = true → res = spos) →
      StepPost src ms spos ppos (.done { res := res, ok := ok, ms := ms }) := by
    intro res ok hres
    exact ⟨rfl, fun _ => MatchState.Same.refl _, fun ho => le_of_eq (hres ho).symm,
      fun ho hl => le_of_eq_of_le (hres ho) hl, id⟩
  simp only [matchStep] at h
  split at h
  · simp only [bind_eq_ok] at h
    obtain ⟨c, _, h⟩ := h
    split at h
    · simp only [bind_eq_ok] at h
      obtain ⟨pn, _, h⟩ := h
      split at h
      · exact Post.done_of_map (fun o ho => startCapture_post hc _ _ _ _ _ ho) h
      · exact Post.done_of_map (fun o ho => startCapture_post hc _ _ _ _ _ ho) h
    · split at h
      · exact Post.done_of_map (fun o ho => endCapture_post hc _ _ _ _ ho) h
      · split at h
        · split at h
          · exact defaultCase_post hc _ _ _ _ _ h
          · split at h
            · simp only [Except.ok.injEq] at h
              subst h
              exact hdone _ _ (by simp)
            · simp only [Except.ok.injEq] at h
              subst h
              exact hdone _ _ (by simp)
        · split at h
          · simp only [bind_eq_ok] at h
            obtain ⟨pnext, _, h⟩ := h
            split at h
            · simp only [Except.ok.injEq] at h
              subst h
              exact hdone _ _ (by simp)
            · split at h
              · simp only [Except.ok.injEq] at h
                subst h
                exact hdone _ _ (by simp)
              · split at h
                · simp only [Except.ok.injEq] at h
                  subst h
                  exact hdone _ _ (by simp)
                · exact defaultCase_post hc _ _ _ _ _ h
          · exact defaultCase_post hc _ _ _ _ _ h
  · simp only [Except.ok.injEq] at h
    subst h
    exact hdone _ _ (by simp)

theorem matchCall_inv {src : List Nat} {body : Cont} (hb : ContInv src body) :
    ContInv src (matchCall body) := by
  intro ms spos ppos o h
  simp only [matchCall] at h
  split at h
  · simp at h
  · rename_i hd
    simp only [bind_eq_ok] at h
    obtain ⟨r, hr, h⟩ := h
    have hp := hb _ _ _ _ hr
    simp only [Except.ok.injEq] at h
    subst h
    have hdep : r.ms.matchDepth + 1 = ms.matchDepth := by
      have := hp.depth
      simp only at this
      omega
    refine ⟨hdep, fun hf => ?_, hp.lo, hp.hi, hp.level⟩
    obtain ⟨_, h2, h3⟩ := hp.fail hf
    exact ⟨hdep, h2, h3⟩

theorem matchInit_inv (src p : List Nat) : ∀ fuel, ContInv src (matchInit src p fuel) := by
  intro fuel
  induction fuel with
  | zero => intro ms spos ppos o h; simp [matchInit] at h
  | succ f ih =>
    intro ms spos ppos o h
    simp only [matchInit, bind_eq_ok] at h
    obtain ⟨st, hst, h⟩ := h
    have hp := matchStep_post (matchCall_inv ih) _ _ _ _ _ hst
    cases st with
    | again ms' spos' ppos' =>
      simp only at h
      obtain ⟨hs, h1, h2, _⟩ := hp
      exact Post.of_again hs h1 h2 (ih _ _ _ _ h)
    | done o' =>
      simp only [Except.ok.injEq] at h
      subst h
      exact hp

theorem match_inv (src p : List Nat) : ContInv src (match_ src p) := by
  intro ms spos ppos o h
  exact matchCall_inv (matchInit_inv src p _) ms spos ppos o h

@[simp] theorem RelE_ok_ok {α : Type} (Q : α → α → Prop) (a b : α) :
    RelE Q (.ok a) (.ok b) ↔ Q a b := Iff.rfl

@[simp] theorem RelE_error_error {α : Type} (Q : α → α → Prop) (e e' : Err) :
    RelE Q (.error e) (.error e') ↔ e = e' := Iff.rfl

@[simp] theorem RelE_ok_error {α : Type} (Q : α → α → Prop) (a : α) (e : Err) :
    RelE Q (.ok a) (.error e) ↔ False := Iff.rfl

@[simp] theorem RelE_error_ok {α : Type} (Q : α → α → Prop) (a : α) (e : Err) :
    RelE Q (.error e) (.ok a) ↔ False := Iff.rfl

theorem RelE.bind {α β : Type} {Q : α → α → Prop} {Q' : β → β → Prop}
    {x1 x2 : Res α} {f1 f2 : α → Res β} (hx : RelE Q x1 x2)
    (hf : ∀ a b, x1 = .ok a → x2 = .ok b → Q a b → RelE Q' (f1 a) (f2 b)) :
    RelE Q' (x1 >>= f1) (x2 >>= f2) := by
  cases x1 with
  | error e =>
    cases x2 with
    | error e' => simpa using hx
    | ok b => simp at hx
  | ok a =>
    cases x2 with
    | error e' => simp at hx
    | ok b => simpa using hf a b rfl rfl (by simpa using hx)

theorem RelE.map {α β : Type} {Q : α → α → Prop} {Q' : β → β → Prop}
    {x1 x2 : Res α} {f : α → β} (hx : RelE Q x1 x2)
    (hf : ∀ a b, Q a b → Q' (f a) (f b)) :
    RelE Q' (x1.map f) (x2.map f) := by
  cases x1 with
  | error e =>
    cases x2 with
    | error e' => simpa using hx
    | ok b => simp at hx
  | ok a =>
    cases x2 with
    | error e' => simp at hx
    | ok b => simpa using hf a b (by simpa using hx)

theorem RelE_eq_iff {α : Type} (x y : Res α) : RelE Eq x y ↔ x = y := by
  cases x <;> cases y <;> simp

theorem StateRel.eq : StateRel Eq where
  depth := fun h => by rw [h]
  level := fun h => by rw [h]
  cap := fun h _ _ => by rw [h]
  push := fun _ h => by rw [h]
  pop := fun h => by rw [h]
  setLen := fun _ _ h => by rw [h]
  setDepth := fun _ h => by rw [h]
  setLevel := fun h => by rw [h]

theorem StateRel.same : StateRel MatchState.Same where
  depth := fun h => h.1
  level := fun h => h.2.1
  cap := fun h => h.2.2
  push := by
    intro a b c h
    refine ⟨h.1, rfl, ?_⟩
    intro i hi
    simp only [MatchState.setCapture]
    by_cases hil : i = a.level
    · simp [hil]
    · simp only [hil, if_false]
      exact h.2.2 i (by simp only at hi; omega)
  pop := by
    intro a b h
    refine ⟨h.1, by simp [h.2.1], ?_⟩
    intro i hi
    exact h.2.2 i (by simp only at hi; omega)
  setLen := by
    intro a b l v h
    refine ⟨h.1, h.2.1, ?_⟩
    intro i hi
    simp only [MatchState.setLen, MatchState.setCapture] at hi ⊢
    by_cases hil : i = l
    · subst hil
      simp [h.2.2 i hi]
    · simp only [hil, if_false]
      exact h.2.2 i hi
  setDepth := fun d h => ⟨rfl, h.2.1, h.2.2⟩
  setLevel := fun h => ⟨h.1, rfl, fun i hi => by simp at hi⟩

theorem OutRel_eq_iff (a b : Outcome) : OutRel Eq a b ↔ a = b := by
  constructor
  · intro h
    cases a
    cases b
    obtain ⟨h1, h2, h3⟩ := h
    simp only at h1 h2 h3
    simp [h1, h2, h3]
  · intro h
    subst h
    exact ⟨rfl, rfl, rfl⟩

theorem RelE_OutRel_eq_iff (x y : Res Outcome) : RelE (OutRel Eq) x y ↔ x = y := by
  cases x <;> cases y <;> simp [OutRel_eq_iff]

theorem RelE.done {R : MatchState → MatchState → Prop} {x1 x2 : Res Outcome}
    (h : RelE (OutRel R) x1 x2) : RelE (StepR R) (x1.map Step.done) (x2.map Step.done) :=
  RelE.map h (fun _ _ hq => hq)

theorem maxExpandTry_congr {R : MatchState → MatchState → Prop}
    {src : List Nat} {c1 c2 : Cont} {D : Nat} (h12 : ContRel R D c1 c2)
    (h1 : ContInv src c1) (spos eppos : Nat) :
    ∀ i m1 m2, m1.matchDepth = D → R m1 m2 →
      RelE (OutRel R) (maxExpandTry c1 spos eppos i m1) (maxExpandTry c2 spos eppos i m2) := by
  intro i
  induction i with
  | zero =>
    intro m1 m2 hD hr
    simp only [maxExpandTry]
    refine RelE.bind (h12 _ _ _ _ hD hr) ?_
    intro a b _ _ hab
    obtain ⟨hres, hok, hms⟩ := hab
    rw [← hok]
    split
    · exact ⟨hres, hok, hms⟩
    · exact ⟨rfl, rfl, hms⟩
  | succ i ih =>
    intro m1 m2 hD hr
    simp only [maxExpandTry]
    refine RelE.bind (h12 _ _ _ _ hD hr) ?_
    intro a b ha _ hab
    obtain ⟨hres, hok, hms⟩ := hab
    rw [← hok]
    split
    · exact ⟨hres, hok, hms⟩
    · exact ih _ _ ((h1 _ _ _ _ ha).depth.trans hD) hms

theorem maxExpand_congr {R : MatchState → MatchState → Prop}
    {src : List Nat} {c1 c2 : Cont} {D : Nat} (h12 : ContRel R D c1 c2)
    (h1 : ContInv src c1) (p : List Nat) (spos ppos eppos : Nat) (m1 m2 : MatchState)
    (hD : m1.matchDepth = D) (hr : R m1 m2) :
    RelE (OutRel R) (maxExpand c1 src p m1 spos ppos eppos)
      (maxExpand c2 src p m2 spos ppos eppos) := by
  simp only [maxExpand]
  cases maxExpandCount src p spos ppos eppos (src.length + 1) 0 with
  | error e => simp
  | ok i =>
    simp only [bind_ok]
    exact maxExpandTry_congr h12 h1 spos eppos i m1 m2 hD hr

theorem minExpandLoop_congr {R : MatchState → MatchState → Prop}
    {src : List Nat} {c1 c2 : Cont} {D : Nat} (h12 : ContRel R D c1 c2)
    (h1 : ContInv src c1) (p : List Nat) (ppos eppos : Nat) :
    ∀ fuel m1 m2 spos, m1.matchDepth = D → R m1 m2 →
      RelE (OutRel R) (minExpandLoop c1 src p ppos eppos fuel m1 spos)
        (minExpandLoop c2 src p ppos eppos fuel m2 spos) := by
  intro fuel
  induction fuel with
  | zero => intro m1 m2 spos _ _; simp [minExpandLoop]
  | succ f ih =>
    intro m1 m2 spos hD hr
    simp only [minExpandLoop]
    refine RelE.bind (h12 _ _ _ _ hD hr) ?_
    intro a b ha _ hab
    obtain ⟨hres, hok, hms⟩ := hab
    rw [← hok]
    split
    · exact ⟨hres, rfl, hms⟩
    · cases singlematch src p spos ppos eppos with
      | error e => simp
      | ok m =>
        simp only [bind_ok]
        cases m with
        | true =>
          simp only [if_true]
          exact ih _ _ _ ((h1 _ _ _ _ ha).depth.trans hD) hms
        | false =>
          simp only [Bool.false_eq_true, if_false]
          exact ⟨rfl, rfl, hms⟩

theorem startCapture_congr {R : MatchState → MatchState → Prop} (hR : StateRel R)
    {c1 c2 : Cont} {D : Nat} (h12 : ContRel R D c1 c2)
    (spos ppos : Nat) (what : Int) (m1 m2 : MatchState)
    (hD : m1.matchDepth = D) (hr : R m1 m2) :
    RelE (OutRel R) (startCapture c1 m1 spos ppos what)
      (startCapture c2 m2 spos ppos what) := by
  simp only [startCapture]
  rw [show m2.level = m1.level from (hR.level hr).symm]
  split
  · simp
  · refine RelE.bind (h12 _ _ _ _ hD (hR.push _ hr)) ?_
    intro a b _ _ hab
    obtain ⟨hres, hok, hms⟩ := hab
    rw [← hok]
    split
    · exact ⟨hres, hok, hms⟩
    · exact ⟨hres, rfl, hR.pop hms⟩

theorem captureToCloseLoop_congr (m1 m2 : MatchState) :
    ∀ n, (∀ i, i < n → m1.capture i = m2.capture i) →
      captureToCloseLoop m1 n = captureToCloseLoop m2 n := by
  intro n
  induction n with
  | zero => intro _; rfl
  | succ n ih =>
    intro h
    simp only [captureToCloseLoop]
    rw [h n (by omega), ih (fun i hi => h i (by omega))]

theorem endCapture_congr {R : MatchState → MatchState → Prop} (hR : StateRel R)
    {c1 c2 : Cont} {D : Nat} (h12 : ContRel R D c1 c2)
    (spos ppos : Nat) (m1 m2 : MatchState)
    (hD : m1.matchDepth = D) (hr : R m1 m2) :
    RelE (OutRel R) (endCapture c1 m1 spos ppos) (endCapture c2 m2 spos ppos) := by
  simp only [endCapture]
  have hcl : captureToClose m2 = captureToClose m1 := by
    simp only [captureToClose]
    rw [← hR.level hr]
    exact (captureToCloseLoop_congr m1 m2 _ (hR.cap hr)).symm
  rw [hcl]
  cases hl : captureToClose m1 with
  | error e => simp
  | ok l =>
    simp only [bind_ok]
    have hlt := (captureToCloseLoop_spec m1 _ _ hl).1
    rw [← hR.cap hr l hlt]
    refine RelE.bind (h12 _ _ _ _ hD (hR.setLen _ _ hr)) ?_
    intro a b _ _ hab
    obtain ⟨hres, hok, hms⟩ := hab
    rw [← hok]
    split
    · exact ⟨hres, hok, hms⟩
    · exact ⟨hres, rfl, hR.setLen _ _ hms⟩

theorem defaultCase_congr {R : MatchState → MatchState → Prop}
    {src : List Nat} {c1 c2 : Cont} {D : Nat} (h12 : ContRel R D c1 c2)
    (h1 : ContInv src c1) (p : List Nat) (spos ppos : Nat) (m1 m2 : MatchState)
    (hD : m1.matchDepth = D) (hr : R m1 m2) :
    RelE (StepR R) (defaultCase c1 src p m1 spos ppos)
      (defaultCase c2 src p m2 spos ppos) := by
  simp only [defaultCase]
  cases classend p ppos with
  | error e => simp
  | ok eppos =>
    simp only [bind_ok]
    cases singlematch src p spos ppos eppos with
    | error e => simp
    | ok m =>
      simp only [bind_ok]
      cases suffixAt p eppos with
      | error e => simp
      | ok ep =>
        simp only [bind_ok]
        cases m with
        | false =>
          simp only [Bool.not_false, if_true]
          split
          · exact ⟨hr, rfl, rfl⟩
          · exact ⟨rfl, rfl, hr⟩
        | true =>
          simp only [Bool.not_true, Bool.false_eq_true, if_false]
          split
          · refine RelE.bind (h12 _ _ _ _ hD hr) ?_
            intro a b _ _ hab
            obtain ⟨hres, hok, hms⟩ := hab
            rw [← hok]
            split
            · exact ⟨hres, rfl, hms⟩
            · exact ⟨hms, rfl, rfl⟩
          · split
            · exact RelE.done (maxExpand_congr h12 h1 p _ _ _ m1 m2 hD hr)
            · split
              · exact RelE.done (maxExpand_congr h12 h1 p _ _ _ m1 m2 hD hr)
              · split
                · exact RelE.done (minExpandLoop_congr h12 h1 p _ _ _ m1 m2 _ hD hr)
                · exact ⟨hr, rfl, rfl⟩

theorem matchStep_congr {R : MatchState → MatchState → Prop} (hR : StateRel R)
    {src : List Nat} {c1 c2 : Cont} {D : Nat} (h12 : ContRel R D c1 c2)
    (h1 : ContInv src c1) (p : List Nat) (spos ppos : Nat) (m1 m2 : MatchState)
    (hD : m1.matchDepth = D) (hr : R m1 m2) :
    RelE (StepR R) (matchStep c1 src p m1 spos ppos) (matchStep c2 src p m2 spos ppos) := by
  have hdone : ∀ (res : Nat) (ok : Bool),
      RelE (StepR R) (.ok (.done { res := res, ok := ok, ms := m1 }))
        (.ok (.done { res := res, ok := ok, ms := m2 })) :=
    fun _ _ => ⟨rfl, rfl, hr⟩
  have hdef := defaultCase_congr h12 h1 p spos ppos m1 m2 hD hr
  simp only [matchStep]
  split
  · cases idx p ppos with
    | error e => simp
    | ok c =>
      simp only [bind_ok]
      split
      · cases idx p (ppos + 1) with
        | error e => simp
        | ok pn =>
          simp only [bind_ok]
          split
          · exact RelE.done (startCapture_congr hR h12 _ _ _ m1 m2 hD hr)
          · exact RelE.done (startCapture_congr hR h12 _ _ _ m1 m2 hD hr)
      · split
        · exact RelE.done (endCapture_congr hR h12 _ _ m1 m2 hD hr)
        · split
          · split
            · exact hdef
            · split
              · exact hdone _ _
              · exact hdone _ _
          · split
            · cases idx p (ppos + 1) with
              | error e => simp
              | ok pnext =>
                simp only [bind_ok]
                split
                · exact hdone _ _
                · split
                  · exact hdone _ _
                  · split
                    · exact hdone _ _
                    · exact hdef
            · exact hdef
  · exact hdone _ _

theorem matchCall_congr {R : MatchState → MatchState → Prop} (hR : StateRel R)
    {b1 b2 : Cont} {D : Nat} (h12 : 0 < D → ContRel R (D - 1) b1 b2) :
    ContRel R D (matchCall b1) (matchCall b2) := by
  intro m1 m2 s p hD hr
  simp only [matchCall]
  rw [← hR.depth hr]
  split
  · simp
  · rename_i hne
    refine RelE.bind (h12 (by omega) _ _ _ _ (by simp only; omega) (hR.setDepth _ hr)) ?_
    intro a b _ _ hab
    obtain ⟨hres, hok, hms⟩ := hab
    refine ⟨hres, hok, ?_⟩
    simp only
    rw [← hR.depth hms]
    exact hR.setDepth _ hms

theorem defaultCase_ok_lt {cont : Cont} {src p : List Nat} {ms : MatchState}
    {spos ppos : Nat} {st : Step} (h : defaultCase cont src p ms spos ppos = .ok st) :
    ppos < p.length := by
  simp only [defaultCase, bind_eq_ok] at h
  obtain ⟨eppos, he, _⟩ := h
  simp only [classend, bind_eq_ok] at he
  obtain ⟨c, hc, _⟩ := he
  exact idx_lt hc

theorem matchStep_again_lt {cont : Cont} {src p : List Nat} {ms ms' : MatchState}
    {spos ppos spos' ppos' : Nat}
    (h : matchStep cont src p ms spos ppos = .ok (.again ms' spos' ppos')) :
    ppos < p.length := by
  simp only [matchStep] at h
  split at h
  · simp only [bind_eq_ok] at h
    obtain ⟨c, hc, _⟩ := h
    exact idx_lt hc
  · simp at h

theorem fuelNeed_call {p : List Nat} {D ppos ppos' n : Nat} (hD : 0 < D)
    (h : fuelNeed p D ppos ≤ n + 1) : fuelNeed p (D - 1) ppos' ≤ n := by
  obtain ⟨d, rfl⟩ : ∃ d, D = d + 1 := ⟨D - 1, by omega⟩
  simp only [fuelNeed, Nat.add_sub_cancel] at h ⊢
  rw [Nat.succ_mul] at h
  generalize d * (p.length + 3) = X at h ⊢
  omega

theorem fuelNeed_again {p : List Nat} {D ppos ppos' n : Nat} (hlt : ppos < p.length)
    (hgt : ppos < ppos') (h : fuelNeed p D ppos ≤ n + 1) : fuelNeed p D ppos' ≤ n := by
  simp only [fuelNeed] at h ⊢
  generalize D * (p.length + 3) = X at h ⊢
  omega

theorem matchInit_congr {R : MatchState → MatchState → Prop} (hR : StateRel R)
    (src p : List Nat) :
    ∀ f1 f2 m1 m2 spos ppos, R m1 m2 →
      fuelNeed p m1.matchDepth ppos ≤ f1 → fuelNeed p m1.matchDepth ppos ≤ f2 →
      RelE (OutRel R) (matchInit src p f1 m1 spos ppos) (matchInit src p f2 m2 spos ppos) := by
  intro f1
  induction f1 with
  | zero => intro f2 m1 m2 spos ppos _ h; simp [fuelNeed] at h
  | succ n ih =>
    intro f2 m1 m2 spos ppos hr hf1 hf2
    cases f2 with
    | zero => simp [fuelNeed] at hf2
    | succ m =>
      simp only [matchInit]
      have hcont : ContRel R m1.matchDepth (matchCall (matchInit src p n))
          (matchCall (matchInit src p m)) := by
        apply matchCall_congr hR
        intro hD a b s q hab hr'
        exact ih m a b s q hr' (by rw [hab]; exact fuelNeed_call hD hf1)
          (by rw [hab]; exact fuelNeed_call hD hf2)
      have hinv := matchCall_inv (matchInit_inv src p n)
      refine RelE.bind (matchStep_congr hR hcont hinv p spos ppos m1 m2 rfl hr) ?_
      intro a b ha _ hab
      cases a with
      | again a1 s1 p1 =>
        cases b with
        | again a2 s2 p2 =>
          obtain ⟨hr', hs, hp⟩ := hab
          subst hs
          subst hp
          simp only
          have hpost := matchStep_post hinv _ _ _ _ _ ha
          obtain ⟨hsame, _, _, hgt⟩ := hpost
          have hlt := matchStep_again_lt ha
          have hd : a1.matchDepth = m1.matchDepth := hsame.1
          exact ih m a1 a2 s1 p1 hr' (by rw [hd]; exact fuelNeed_again hlt hgt hf1)
            (by rw [hd]; exact fuelNeed_again hlt hgt hf2)
        | done o2 => exact hab.elim
      | done o1 =>
        cases b with
        | again a2 s2 p2 => exact hab.elim
        | done o2 => exact hab

theorem RelE_StepR_eq_iff (x y : Res Step) : RelE (StepR Eq) x y ↔ x = y := by
  cases x with
  | error e => cases y <;> simp
  | ok a =>
    cases y with
    | error e => simp
    | ok b =>
      simp only [RelE_ok_ok, Except.ok.injEq]
      cases a <;> cases b <;> simp [StepR, OutRel_eq_iff]

/-- One pass through the body of `match` calls `match` only in states with
the depth of its own state: two functions in its place that agree on those
states give the same pass. -/
theorem matchStep_eq_of_agree {src : List Nat} {c1 c2 : Cont} (ms : MatchState)
    (h12 : ∀ ms' s' p', ms'.matchDepth = ms.matchDepth → c1 ms' s' p' = c2 ms' s' p')
    (h1 : ContInv src c1) (p : List Nat) (spos ppos : Nat) :
    matchStep c1 src p ms spos ppos = matchStep c2 src p ms spos ppos := by
  rw [← RelE_StepR_eq_iff]
  refine matchStep_congr StateRel.eq ?_ h1 p spos ppos ms ms rfl rfl
  intro m1 m2 s q hD hr
  subst hr
  rw [RelE_OutRel_eq_iff]
  exact h12 m1 s q hD

theorem matchInit_fuel_irrelevant (src p : List Nat) (f1 f2 : Nat) (ms : MatchState)
    (spos ppos : Nat) (h1 : fuelNeed p ms.matchDepth ppos ≤ f1)
    (h2 : fuelNeed p ms.matchDepth ppos ≤ f2) :
    matchInit src p f1 ms spos ppos = matchInit src p f2 ms spos ppos :=
  (RelE_OutRel_eq_iff _ _).mp (matchInit_congr StateRel.eq src p f1 f2 ms ms spos ppos rfl h1 h2)

theorem bind_congr_ok {α β : Type} {x : Res α} {f g : α → Res β}
    (h : ∀ a, x = .ok a → f a = g a) : (x >>= f) = (x >>= g) := by
  cases x with
  | error e => rfl
  | ok a => exact h a rfl

theorem fuelNeed_le_matchFuel (p : List Nat) (D ppos : Nat) (hD : 0 < D) :
    fuelNeed p (D - 1) ppos ≤ matchFuel p D := by
  obtain ⟨d, rfl⟩ : ∃ d, D = d + 1 := ⟨D - 1, by omega⟩
  simp only [fuelNeed, matchFuel, Nat.add_sub_cancel]
  rw [Nat.succ_mul]
  generalize d * (p.length + 3) = X
  omega

/-- `match` is its entry and exit around its body. -/
theorem match_eq (src p : List Nat) (ms : MatchState) (spos ppos : Nat) :
    match_ src p ms spos ppos = matchCall (matchBody src p) ms spos ppos := by
  simp only [match_, matchCall, matchBody]
  split
  · rfl
  · rename_i hd
    rw [matchInit_fuel_irrelevant src p (matchFuel p ms.matchDepth)
      (fuelNeed p (ms.matchDepth - 1) ppos) _ spos ppos
      (fuelNeed_le_matchFuel p _ _ (by omega)) (le_refl _)]

theorem matchCall_matchInit_eq_match (src p : List Nat) (n : Nat) (ms : MatchState)
    (spos ppos : Nat) (h : ∀ q, 0 < ms.matchDepth → fuelNeed p (ms.matchDepth - 1) q ≤ n) :
    matchCall (matchInit src p n) ms spos ppos = match_ src p ms spos ppos := by
  simp only [match_, matchCall]
  split
  · rfl
  · rename_i hd
    rw [matchInit_fuel_irrelevant src p n (matchFuel p ms.matchDepth) _ spos ppos
      (h _ (by omega)) (fuelNeed_le_matchFuel p _ _ (by omega))]

theorem matchInit_succ (src p : List Nat) (n : Nat) (ms : MatchState) (spos ppos : Nat) :
    matchInit src p (n + 1) ms spos ppos =
      (matchStep (matchCall (matchInit src p n)) src p ms spos ppos >>= fun st =>
        match st with
        | .again ms' spos' ppos' => matchInit src p n ms' spos' ppos'
        | .done o => .ok o) := rfl

/-- The body of `match` is one pass from the label `init`, in which every
nested call is a call of `match`, and then either the `goto init` or the
return. -/
theorem matchBody_eq (src p : List Nat) (ms : MatchState) (spos ppos : Nat) :
    matchBody src p ms spos ppos =
      (matchStep (match_ src p) src p ms spos ppos >>= fun st =>
        match st with
        | .again ms' spos' ppos' => matchBody src p ms' spos' ppos'
        | .done o => .ok o) := by
  obtain ⟨n, hn⟩ : ∃ n, fuelNeed p ms.matchDepth ppos = n + 1 :=
    ⟨fuelNeed p ms.matchDepth ppos - 1, by simp [fuelNeed]⟩
  have e1 : matchBody src p ms spos ppos = matchInit src p (n + 1) ms spos ppos := by
    show matchInit src p (fuelNeed _ _ _) _ _ _ = _
    rw [hn]
  rw [e1, matchInit_succ]
  have hinv := matchCall_inv (matchInit_inv src p n)
  have hstep : matchStep (matchCall (matchInit src p n)) src p ms spos ppos =
      matchStep (match_ src p) src p ms spos ppos := by
    refine matchStep_eq_of_agree ms ?_ hinv p spos ppos
    intro m s q hD
    apply matchCall_matchInit_eq_match
    intro q' hpos
    rw [hD]
    rw [hD] at hpos
    exact fuelNeed_call hpos (le_of_eq hn)
  rw [← hstep]
  apply bind_congr_ok
  intro st hst
  cases st with
  | again a1 s1 p1 =>
    show matchInit src p n a1 s1 p1 = matchInit src p (fuelNeed _ _ _) a1 s1 p1
    obtain ⟨hsame, _, _, hgt⟩ := matchStep_post hinv _ _ _ _ _ hst
    have hlt := matchStep_again_lt hst
    have hd : a1.matchDepth = ms.matchDepth := hsame.1
    exact matchInit_fuel_irrelevant src p _ _ _ _ _
      (by rw [hd]; exact fuelNeed_again hlt hgt (le_of_eq hn)) (le_refl _)
  | done o => rfl

theorem matchBody_inv (src p : List Nat) : ContInv src (matchBody src p) :=
  fun ms spos ppos o h => matchInit_inv src p _ ms spos ppos o h

/-- What a call of `match` returns does not depend on the capture slots at
or above the level. -/
theorem match_same (src p : List Nat) (m1 m2 : MatchState) (spos ppos : Nat)
    (h : m1.Same m2) :
    RelE (OutRel MatchState.Same) (match_ src p m1 spos ppos) (match_ src p m2 spos ppos) := by
  simp only [match_]
  rw [← h.1]
  refine matchCall_congr StateRel.same (D := m1.matchDepth) ?_ m1 m2 spos ppos rfl h
  intro hD a b s q hab hr
  exact matchInit_congr StateRel.same src p _ _ a b s q hr
    (by rw [hab]; exact fuelNeed_le_matchFuel p _ _ hD)
    (by rw [hab]; exact fuelNeed_le_matchFuel p _ _ hD)

theorem matchStep_of_isItemStart {p : List Nat} {ppos : Nat} (h : isItemStart p ppos = true)
    (cont : Cont) (src : List Nat) (ms : MatchState) (spos : Nat) :
    matchStep cont src p ms spos ppos = defaultCase cont src p ms spos ppos := by
  unfold isItemStart at h
  cases hidx : idx p ppos with
  | error e => rw [hidx] at h; simp at h
  | ok c =>
    have hlt : ppos < p.length := idx_lt hidx
    rw [hidx] at h
    simp only at h
    simp only [matchStep, hidx, bind_ok, ne_eq, Nat.ne_of_lt hlt, not_false_eq_true, if_true]
    by_cases h40 : c = 40
    · simp [h40] at h
    · by_cases h41 : c = 41
      · simp [h41] at h
      · simp only [h40, h41, or_self, if_false] at h ⊢
        by_cases h36 : c = 36
        · simp only [h36, if_true] at h ⊢
          simp only [decide_eq_true_eq] at h
          simp [h]
        · simp only [h36, if_false] at h ⊢
          by_cases h37 : c = lEsc
          · simp only [h37, if_true] at h ⊢
            cases hidx' : idx p (ppos + 1) with
            | error e => rw [hidx'] at h; simp at h
            | ok pnext =>
              rw [hidx'] at h
              simp only [bind_ok]
              simp only [Bool.not_eq_true', decide_eq_false_iff_not, not_or, not_and] at h
              obtain ⟨hb, hf, hd⟩ := h
              simp only [hb, hf, if_false]
              split
              · rename_i hdig
                exact absurd hdig.2 (hd hdig.1)
              · rfl
          · simp only [h37, if_false]

theorem strFindLoop_succ (src p : List Nat) (anchor find : Bool) (fuel : Nat)
    (ms : MatchState) (s1 : Nat) :
    strFindLoop src p anchor find (fuel + 1) ms s1 =
      (match_ src p { ms with level := 0 } s1 0 >>= fun r =>
        if r.ok then
          if find then
            pushCaptures r.ms src 0 0 true >>= fun caps =>
              .ok (.integer ((s1 : Int) + 1) :: .integer r.res :: caps)
          else
            pushCaptures r.ms src s1 r.res false
        else if ¬ (s1 < src.length ∧ anchor = false) then
          .ok [.nil]
        else
          strFindLoop src p anchor find fuel r.ms (s1 + 1)) := rfl

/-- C4: with a pattern that starts with `^` and an in-range `init`, `Find`
runs the engine once, at the offset `init - 1`, on the pattern after the
`^`: on a match the start it returns is `init`, otherwise it returns "not
found" (a single nil) without another attempt. `Find("xabc","^abc")` is not
found and `Find("abc","^abc")` is (1,3). -/
theorem find_anchored_one_attempt :
    (∀ (s q : List Nat) (init : Int), 1 ≤ init → init ≤ (s.length : Int) + 1 →
      strFind s (94 :: q) init false =
        (match_ s q initialState (init.toNat - 1) 0 >>= fun r =>
          if r.ok then
            pushCaptures r.ms s 0 0 true >>= fun caps =>
              .ok (.integer init :: .integer r.res :: caps)
          else .ok [.nil])) ∧
    strFind (bytes "xabc") (bytes "^abc") 1 false = .ok [.nil] ∧
    strFind (bytes "abc") (bytes "^abc") 1 false = .ok [.integer 1, .integer 3] := by
  refine ⟨?_, by decide, by decide⟩
  intro s q init h1 h2
  lift init to ℕ using (by omega) with n
  have hn1 : 1 ≤ n := by exact_mod_cast h1
  have hrel : relativePosition (n : Int) s.length = (n : Int) := by
    simp [relativePosition]
  have hlt : ¬ ((n : Int) < 1) := by omega
  have hgt : ¬ ((n : Int) > (s.length : Int) + 1) := by omega
  have hns : nospecials (94 :: q) = false := by
    simp [nospecials, specials]
  have hidx : idx (94 :: q) 0 = .ok 94 := rfl
  have hcast : ((n - 1 : Nat) : Int) + 1 = (n : Int) := by omega
  simp only [strFind, strFindAux, strFindSearch, hrel, hlt, hgt, hns, if_false, Bool.and_false, Bool.or_false,
    Int.toNat_ofNat, hidx, bind_ok, decide_True, if_true, List.drop_succ_cons, List.drop_zero,
    strFindLoop_succ, Bool.false_eq_true, hcast]
  apply bind_congr_ok
  intro r _
  split
  · rfl
  · simp

theorem find_anchored_one_attempt_witness :
    strFind (bytes "ab") (bytes "^b") 2 false =
      (match_ (bytes "ab") (bytes "b") initialState ((2 : Int).toNat - 1) 0 >>= fun r =>
        if r.ok then
          pushCaptures r.ms (bytes "ab") 0 0 true >>= fun caps =>
            .ok (.integer 2 :: .integer r.res :: caps)
        else .ok [.nil]) :=
  find_anchored_one_attempt.1 (bytes "ab") (bytes "b") 2 (by decide) (by decide)

theorem RelE_same_ok {x y : Res Outcome} {a : Outcome}
    (h : RelE (OutRel MatchState.Same) x y) (hx : x = .ok a) :
    ∃ b, y = .ok b ∧ a.res = b.res ∧ a.ok = b.ok ∧ a.ms.Same b.ms := by
  subst hx
  cases y with
  | error e => simp at h
  | ok b => exact ⟨b, rfl, h⟩

theorem maxExpandCount_eq (src p : List Nat) (spos ppos eppos r : Nat)
    (hrun : ∀ i, i < r → singlematch src p (spos + i) ppos eppos = .ok true)
    (hstop : singlematch src p (spos + r) ppos eppos = .ok false) :
    ∀ fuel i, i ≤ r → r - i < fuel →
      maxExpandCount src p spos ppos eppos fuel i = .ok r := by
  intro fuel
  induction fuel with
  | zero => intro i _ h; omega
  | succ f ih =>
    intro i hi hf
    simp only [maxExpandCount]
    by_cases hir : i = r
    · subst hir
      simp [hstop]
    · have hlt : i < r := by omega
      simp only [hrun i hlt, bind_ok, if_true]
      exact ih (i + 1) (by omega) (by omega)

theorem run_le_length (src p : List Nat) (spos ppos eppos r : Nat)
    (hrun : ∀ i, i < r → singlematch src p (spos + i) ppos eppos = .ok true) :
    r ≤ src.length := by
  cases r with
  | zero => omega
  | succ r =>
    have := singlematch_lt (hrun r (by omega))
    omega

/-- What the second loop of `maxExpand` returns, in terms of `cont` run in
the state `ms0` the loop started from. -/
theorem maxExpandTry_spec {src : List Nat} {cont : Cont} (hinv : ContInv src cont)
    (hsame : ∀ m1 m2 s q, m1.Same m2 →
      RelE (OutRel MatchState.Same) (cont m1 s q) (cont m2 s q))
    (ms0 : MatchState) (spos eppos : Nat) :
    ∀ i ms o, ms.Same ms0 → maxExpandTry cont spos eppos i ms = .ok o →
      (o.ok = true → ∃ k o', k ≤ i ∧ cont ms0 (spos + k) (eppos + 1) = .ok o' ∧
          o'.ok = true ∧ o.res = o'.res ∧
          ∀ j, k < j → j ≤ i → ∃ oj, cont ms0 (spos + j) (eppos + 1) = .ok oj ∧ oj.ok = false) ∧
      (o.ok = false → ∀ k, k ≤ i →
          ∃ o', cont ms0 (spos + k) (eppos + 1) = .ok o' ∧ o'.ok = false) := by
  intro i
  induction i with
  | zero =>
    intro ms o hs h
    simp only [maxExpandTry, bind_eq_ok] at h
    obtain ⟨r, hr, h⟩ := h
    obtain ⟨r0, hr0, hres, hok, _⟩ := RelE_same_ok (hsame _ _ _ _ hs) hr
    split at h
    · rename_i hrok
      simp only [Except.ok.injEq] at h
      subst h
      refine ⟨fun _ => ⟨0, r0, le_refl _, hr0, by rw [← hok]; exact hrok, hres, ?_⟩,
        fun hf => by simp [hrok] at hf⟩
      intro j h1 h2
      omega
    · rename_i hrok
      simp only [Except.ok.injEq] at h
      subst h
      refine ⟨fun ho => by simp at ho, fun _ k hk => ?_⟩
      have hk0 : k = 0 := by omega
      subst hk0
      exact ⟨r0, hr0, by rw [← hok]; simpa using hrok⟩
  | succ i ih =>
    intro ms o hs h
    simp only [maxExpandTry, bind_eq_ok] at h
    obtain ⟨r, hr, h⟩ := h
    obtain ⟨r0, hr0, hres, hok, _⟩ := RelE_same_ok (hsame _ _ _ _ hs) hr
    split at h
    · rename_i hrok
      simp only [Except.ok.injEq] at h
      subst h
      refine ⟨fun _ => ⟨i + 1, r0, le_refl _, hr0, by rw [← hok]; exact hrok, hres, ?_⟩,
        fun hf => by simp [hrok] at hf⟩
      intro j h1 h2
      omega
    · rename_i hrok
      have hrf : r.ok = false := by simpa using hrok
      have hs' : r.ms.Same ms0 := ((hinv _ _ _ _ hr).fail hrf).trans hs
      obtain ⟨ih1, ih2⟩ := ih r.ms o hs' h
      refine ⟨fun ho => ?_, fun hf k hk => ?_⟩
      · obtain ⟨k, o', hk, hc, hok', hres', hall⟩ := ih1 ho
        refine ⟨k, o', by omega, hc, hok', hres', ?_⟩
        intro j h1 h2
        by_cases hj : j = i + 1
        · subst hj
          exact ⟨r0, hr0, by rw [← hok]; exact hrf⟩
        · exact hall j h1 (by omega)
      · by_cases hj : k = i + 1
        · subst hj
          exact ⟨r0, hr0, by rw [← hok]; exact hrf⟩
        · exact ih2 hf k (by omega)

/-- What the loop of `minExpand` returns, in terms of `cont` run in the
state `ms0` the loop started from. -/
theorem minExpandLoop_spec {src : List Nat} {cont : Cont} (hinv : ContInv src cont)
    (hsame : ∀ m1 m2 s q, m1.Same m2 →
      RelE (OutRel MatchState.Same) (cont m1 s q) (cont m2 s q))
    (p : List Nat) (ms0 : MatchState) (ppos eppos : Nat) :
    ∀ fuel ms spos o, ms.Same ms0 →
      minExpandLoop cont src p ppos eppos fuel ms spos = .ok o →
      (o.ok = true → ∃ k o',
          (∀ i, i < k → singlematch src p (spos + i) ppos eppos = .ok true) ∧
          cont ms0 (spos + k) (eppos + 1) = .ok o' ∧ o'.ok = true ∧ o.res = o'.res ∧
          ∀ j, j < k → ∃ oj, cont ms0 (spos + j) (eppos + 1) = .ok oj ∧ oj.ok = false) ∧
      (o.ok = false → ∀ k,
          (∀ i, i < k → singlematch src p (spos + i) ppos eppos = .ok true) →
          ∃ o', cont ms0 (spos + k) (eppos + 1) = .ok o' ∧ o'.ok = false) := by
  intro fuel
  induction fuel with
  | zero => intro ms spos o _ h; simp [minExpandLoop] at h
  | succ f ih =>
    intro ms spos o hs h
    simp only [minExpandLoop, bind_eq_ok] at h
    obtain ⟨r, hr, h⟩ := h
    obtain ⟨r0, hr0, hres, hok, _⟩ := RelE_same_ok (hsame _ _ _ _ hs) hr
    split at h
    · rename_i hrok
      simp only [Except.ok.injEq] at h
      subst h
      refine ⟨fun _ => ⟨0, r0, fun i hi => by omega, hr0, by rw [← hok]; exact hrok, hres,
        fun j hj => by omega⟩, fun hf => by simp at hf⟩
    · rename_i hrok
      have hrf : r.ok = false := by simpa using hrok
      have hs' : r.ms.Same ms0 := ((hinv _ _ _ _ hr).fail hrf).trans hs
      simp only [bind_eq_ok] at h
      obtain ⟨m, hm, h⟩ := h
      cases m with
      | true =>
        simp only [if_true] at h
        obtain ⟨ih1, ih2⟩ := ih r.ms (spos + 1) o hs' h
        refine ⟨fun ho => ?_, fun hf k hk => ?_⟩
        · obtain ⟨k, o', hrun, hc, hok', hres', hall⟩ := ih1 ho
          refine ⟨k + 1, o', ?_, ?_, hok', hres', ?_⟩
          · intro i hi
            cases i with
            | zero => exact hm
            | succ i =>
              have := hrun i (by omega)
              rw [show spos + (i + 1) = spos + 1 + i by omega]
              exact this
          · rw [show spos + (k + 1) = spos + 1 + k by omega]
            exact hc
          · intro j hj
            cases j with
            | zero => exact ⟨r0, hr0, by rw [← hok]; exact hrf⟩
            | succ j =>
              rw [show spos + (j + 1) = spos + 1 + j by omega]
              exact hall j (by omega)
        · cases k with
          | zero => exact ⟨r0, hr0, by rw [← hok]; exact hrf⟩
          | succ k =>
            rw [show spos + (k + 1) = spos + 1 + k by omega]
            apply ih2 hf k
            intro i hi
            have := hk (i + 1) (by omega)
            rw [show spos + (i + 1) = spos + 1 + i by omega] at this
            exact this
      | false =>
        simp only [Bool.false_eq_true, if_false, Except.ok.injEq] at h
        subst h
        refine ⟨fun ho => by simp at ho, fun _ k hk => ?_⟩
        cases k with
        | zero => exact ⟨r0, hr0, by rw [← hok]; exact hrf⟩
        | succ k =>
          have := hk 0 (by omega)
          rw [Nat.add_zero, hm] at this
          simp at this

theorem suffixAt_of_idx {p : List Nat} {eppos c : Nat} (h : idx p eppos = .ok c) :
    suffixAt p eppos = .ok c := by
  have := idx_lt h
  simp [suffixAt, Nat.ne_of_lt this, h]

/-- A call of `match` that returns: the depth is not 0, the body returns,
and the outcome is the body's with the depth unit given back. -/
theorem match_ok_inv {src p : List Nat} {ms : MatchState} {spos ppos : Nat} {o : Outcome}
    (h : match_ src p ms spos ppos = .ok o) :
    ms.matchDepth ≠ 0 ∧ ∃ o1,
      matchBody src p { ms with matchDepth := ms.matchDepth - 1 } spos ppos = .ok o1 ∧
      o.res = o1.res ∧ o.ok = o1.ok := by
  rw [match_eq] at h
  simp only [matchCall] at h
  split at h
  · simp at h
  · rename_i hd
    simp only [bind_eq_ok] at h
    obtain ⟨o1, h1, h2⟩ := h
    simp only [Except.ok.injEq] at h2
    subst h2
    exact ⟨hd, o1, h1, rfl, rfl⟩

/-- When the item at `ppos` has a suffix that accepts the empty string and
does not match at `spos`, `match` does what it does after the suffix. -/
theorem match_skip_item {src p : List Nat} {ms : MatchState} {spos ppos eppos ep : Nat}
    (hitem : isItemStart p ppos = true) (hend : classend p ppos = .ok eppos)
    (hsuf : idx p eppos = .ok ep) (hep : ep = 42 ∨ ep = 63 ∨ ep = 45)
    (hsm : singlematch src p spos ppos eppos = .ok false) :
    match_ src p ms spos ppos = match_ src p ms spos (eppos + 1) := by
  rw [match_eq, match_eq]
  simp only [matchCall]
  split
  · rfl
  · rw [matchBody_eq, matchStep_of_isItemStart hitem]
    simp only [defaultCase, hend, bind_ok, hsm, suffixAt_of_idx hsuf, Bool.not_false, if_true, hep]

/-- The second loop of `maxExpand` returns: from the results of `cont` in
the state `ms0` the loop started from. -/
theorem maxExpandTry_complete {src : List Nat} {cont : Cont} (hinv : ContInv src cont)
    (hsame : ∀ m1 m2 s q, m1.Same m2 →
      RelE (OutRel MatchState.Same) (cont m1 s q) (cont m2 s q))
    (ms0 : MatchState) (spos eppos : Nat) :
    ∀ i ms, ms.Same ms0 →
      (∀ k o', k ≤ i → cont ms0 (spos + k) (eppos + 1) = .ok o' → o'.ok = true →
        (∀ j, k < j → j ≤ i →
          ∃ oj, cont ms0 (spos + j) (eppos + 1) = .ok oj ∧ oj.ok = false) →
        ∃ o, maxExpandTry cont spos eppos i ms = .ok o ∧ o.ok = true ∧ o.res = o'.res) ∧
      ((∀ k, k ≤ i → ∃ o', cont ms0 (spos + k) (eppos + 1) = .ok o' ∧ o'.ok = false) →
        ∃ o, maxExpandTry cont spos eppos i ms = .ok o ∧ o.ok = false) := by
  intro i
  induction i with
  | zero =>
    intro ms hs
    refine ⟨?_, ?_⟩
    · intro k o' hk hc hok _
      have hk0 : k = 0 := by omega
      subst hk0
      obtain ⟨r, hr, hres, hrok, _⟩ := RelE_same_ok (hsame _ _ _ _ hs.symm) hc
      refine ⟨r, ?_, by rw [← hrok]; exact hok, hres.symm⟩
      simp only [maxExpandTry, hr, bind_ok]
      rw [if_pos (by rw [← hrok]; exact hok)]
    · intro hall
      obtain ⟨o', hc, hok⟩ := hall 0 (le_refl _)
      obtain ⟨r, hr, _, hrok, _⟩ := RelE_same_ok (hsame _ _ _ _ hs.symm) hc
      have hrf : r.ok = false := by rw [← hrok]; exact hok
      refine ⟨{ res := 0, ok := false, ms := r.ms }, ?_, rfl⟩
      simp only [maxExpandTry, hr, bind_ok, hrf, Bool.false_eq_true, if_false]
  | succ i ih =>
    intro ms hs
    refine ⟨?_, ?_⟩
    · intro k o' hk hc hok hall
      by_cases hki : k = i + 1
      · subst hki
        obtain ⟨r, hr, hres, hrok, _⟩ := RelE_same_ok (hsame _ _ _ _ hs.symm) hc
        refine ⟨r, ?_, by rw [← hrok]; exact hok, hres.symm⟩
        simp only [maxExpandTry, hr, bind_ok]
        rw [if_pos (by rw [← hrok]; exact hok)]
      · obtain ⟨oj, hcj, hojf⟩ := hall (i + 1) (by omega) (le_refl _)
        obtain ⟨r, hr, _, hrok, _⟩ := RelE_same_ok (hsame _ _ _ _ hs.symm) hcj
        have hrf : r.ok = false := by rw [← hrok]; exact hojf
        have hs' : r.ms.Same ms0 := ((hinv _ _ _ _ hr).fail hrf).trans hs
        obtain ⟨o, ho, hook, hores⟩ := (ih r.ms hs').1 k o' (by omega) hc hok
          (fun j h1 h2 => hall j h1 (by omega))
        refine ⟨o, ?_, hook, hores⟩
        simp only [maxExpandTry, hr, bind_ok, hrf, Bool.false_eq_true, if_false]
        exact ho
    · intro hall
      obtain ⟨oj, hcj, hojf⟩ := hall (i + 1) (le_refl _)
      obtain ⟨r, hr, _, hrok, _⟩ := RelE_same_ok (hsame _ _ _ _ hs.symm) hcj
      have hrf : r.ok = false := by rw [← hrok]; exact hojf
      have hs' : r.ms.Same ms0 := ((hinv _ _ _ _ hr).fail hrf).trans hs
      obtain ⟨o, ho, hook⟩ := (ih r.ms hs').2 (fun k hk => hall k (by omega))
      refine ⟨o, ?_, hook⟩
      simp only [maxExpandTry, hr, bind_ok, hrf, Bool.false_eq_true, if_false]
      exact ho

/-- At an item with the suffix `*` that matches at `spos`, `match` is
`maxExpand` run one depth unit lower. -/
theorem match_star_eq {src p : List Nat} {ms : MatchState} {spos ppos eppos : Nat}
    (hitem : isItemStart p ppos = true) (hend : classend p ppos = .ok eppos)
    (hsuf : idx p eppos = .ok 42)
    (hsm : singlematch src p spos ppos eppos = .ok true) (hd : ms.matchDepth ≠ 0) :
    match_ src p ms spos ppos =
      (maxExpand (match_ src p) src p { ms with matchDepth := ms.matchDepth - 1 }
          spos ppos eppos >>= fun o1 =>
        .ok { o1 with ms := { o1.ms with matchDepth := o1.ms.matchDepth + 1 } }) := by
  rw [match_eq]
  simp only [matchCall, hd, if_false]
  rw [matchBody_eq, matchStep_of_isItemStart hitem]
  simp only [defaultCase, hend, bind_ok, hsm, suffixAt_of_idx hsuf, Bool.not_true,
    Bool.false_eq_true, if_false, show ¬ ((42 : Nat) = 63) by decide,
    show ¬ ((42 : Nat) = 43) by decide, if_true]
  cases maxExpand (match_ src p) src p
      { matchDepth := ms.matchDepth - 1, level := ms.level, capture := ms.capture }
      spos ppos eppos with
  | error e => rfl
  | ok o1 => rfl

theorem match_depth_ne_zero_of_ok {src p : List Nat} {ms : MatchState} {spos ppos : Nat}
    {o : Outcome} (h : match_ src p ms spos ppos = .ok o) : ms.matchDepth ≠ 0 := by
  intro hd
  simp [match_, matchCall, hd] at h

theorem star_returns (src p : List Nat) (ms : MatchState) (spos ppos eppos r : Nat)
    (hitem : isItemStart p ppos = true) (hend : classend p ppos = .ok eppos)
    (hsuf : idx p eppos = .ok 42)
    (hrun : ∀ i, i < r → singlematch src p (spos + i) ppos eppos = .ok true)
    (hstop : singlematch src p (spos + r) ppos eppos = .ok false) :
    (∀ k o', k ≤ r → continuation src p ms spos eppos (decide (0 < r)) k = .ok o' →
      o'.ok = true →
      (∀ j, k < j → j ≤ r →
        ∃ oj, continuation src p ms spos eppos (decide (0 < r)) j = .ok oj ∧ oj.ok = false) →
      ∃ o, match_ src p ms spos ppos = .ok o ∧ o.ok = true ∧ o.res = o'.res) ∧
    ((∀ k, k ≤ r →
        ∃ o', continuation src p ms spos eppos (decide (0 < r)) k = .ok o' ∧ o'.ok = false) →
      ∃ o, match_ src p ms spos ppos = .ok o ∧ o.ok = false) := by
  by_cases hr0 : r = 0
  · subst hr0
    rw [Nat.add_zero] at hstop
    rw [match_skip_item hitem hend hsuf (Or.inl rfl) hstop]
    simp only [continuation, Nat.lt_irrefl, decide_False, Bool.false_eq_true, if_false]
    refine ⟨?_, ?_⟩
    · intro k o' hk hc hok _
      have hk0 : k = 0 := by omega
      subst hk0
      exact ⟨o', by simpa using hc, hok, rfl⟩
    · intro hall
      obtain ⟨o', hc, hok⟩ := hall 0 (le_refl _)
      exact ⟨o', by simpa using hc, hok⟩
  · have hpos : 0 < r := by omega
    have hsm : singlematch src p spos ppos eppos = .ok true := by
      simpa using hrun 0 hpos
    have hcount : maxExpandCount src p spos ppos eppos (src.length + 1) 0 = .ok r :=
      maxExpandCount_eq src p spos ppos eppos r hrun hstop _ 0 (by omega)
        (by have := run_le_length src p spos ppos eppos r hrun; omega)
    simp only [continuation, hpos, decide_True, if_true]
    have hcompl := maxExpandTry_complete (match_inv src p)
      (fun m1 m2 s q h => match_same src p m1 m2 s q h)
      { ms with matchDepth := ms.matchDepth - 1 } spos eppos r _ (MatchState.Same.refl _)
    have hdepth : ∀ {k : Nat} {o' : Outcome},
        match_ src p { ms with matchDepth := ms.matchDepth - 1 } (spos + k) (eppos + 1) =
          .ok o' → ms.matchDepth ≠ 0 := by
      intro k o' hc hd
      have := match_depth_ne_zero_of_ok hc
      simp only at this
      omega
    refine ⟨?_, ?_⟩
    · intro k o' hk hc hok hall
      obtain ⟨o1, h1, h2, h3⟩ := hcompl.1 k o' hk hc hok hall
      refine ⟨{ o1 with ms := { o1.ms with matchDepth := o1.ms.matchDepth + 1 } }, ?_, h2, h3⟩
      rw [match_star_eq hitem hend hsuf hsm (hdepth hc)]
      simp only [maxExpand, hcount, bind_ok, h1]
    · intro hall
      obtain ⟨o', hc, _⟩ := hall 0 (Nat.zero_le _)
      obtain ⟨o1, h1, h2⟩ := hcompl.2 hall
      refine ⟨{ o1 with ms := { o1.ms with matchDepth := o1.ms.matchDepth + 1 } }, ?_, h2⟩
      rw [match_star_eq hitem hend hsuf hsm (hdepth hc)]
      simp only [maxExpand, hcount, bind_ok, h1]
/-- C5: greedy `*` is maximal. For an item at `ppos` whose extent, as
`classend` computes it, ends at `eppos`, and which is followed by `*`, with
`r` the length of the maximal run of subject characters from `spos` that
match the item. First part: when `match` returns, it succeeded iff the
continuation succeeds for some `k` in `0..r`, its result is the
continuation's at the largest such `k` (the continuation fails at every
larger `j <= r`), and it failed iff the continuation fails at every `k` in
`0..r`. Second part: `match` does return. When the continuation succeeds at
some `k <= r` and returns a failure at every larger `j <= r`, `match`
returns success with the continuation's result at `k`, so it does retry with
fewer repetitions; when the continuation returns a failure at every `k` in
`0..r`, `match` returns a failure. `Match("aaa","a*")` returns "aaa";
`Match("aab","a*ab")` has to give one `a` back and returns "aab";
`Match("aa","^a*b")` tries 2, 1 and 0 repetitions and returns nil. -/
theorem star_is_greedy :
    (∀ (src p : List Nat) (ms : MatchState) (spos ppos eppos r : Nat) (o : Outcome),
      isItemStart p ppos = true → classend p ppos = .ok eppos → idx p eppos = .ok 42 →
      (∀ i, i < r → singlematch src p (spos + i) ppos eppos = .ok true) →
      singlematch src p (spos + r) ppos eppos = .ok false →
      match_ src p ms spos ppos = .ok o →
      (o.ok = true → ∃ k o', k ≤ r ∧
          continuation src p ms spos eppos (decide (0 < r)) k = .ok o' ∧
          o'.ok = true ∧ o.res = o'.res ∧
          ∀ j, k < j → j ≤ r →
            ∃ oj, continuation src p ms spos eppos (decide (0 < r)) j = .ok oj ∧
              oj.ok = false) ∧
      (o.ok = false → ∀ k, k ≤ r →
          ∃ o', continuation src p ms spos eppos (decide (0 < r)) k = .ok o' ∧
            o'.ok = false)) ∧
    (∀ (src p : List Nat) (ms : MatchState) (spos ppos eppos r : Nat),
      isItemStart p ppos = true → classend p ppos = .ok eppos → idx p eppos = .ok 42 →
      (∀ i, i < r → singlematch src p (spos + i) ppos eppos = .ok true) →
      singlematch src p (spos + r) ppos eppos = .ok false →
      (∀ k o', k ≤ r →
        continuation src p ms spos eppos (decide (0 < r)) k = .ok o' → o'.ok = true →
        (∀ j, k < j → j ≤ r →
          ∃ oj, continuation src p ms spos eppos (decide (0 < r)) j = .ok oj ∧
            oj.ok = false) →
        ∃ o, match_ src p ms spos ppos = .ok o ∧ o.ok = true ∧ o.res = o'.res) ∧
      ((∀ k, k ≤ r →
          ∃ o', continuation src p ms spos eppos (decide (0 < r)) k = .ok o' ∧
            o'.ok = false) →
        ∃ o, match_ src p ms spos ppos = .ok o ∧ o.ok = false)) ∧
    strMatch (bytes "aaa") (bytes "a*") 1 false = .ok [.string (bytes "aaa")] ∧
    strMatch (bytes "aab") (bytes "a*ab") 1 false = .ok [.string (bytes "aab")] ∧
    strMatch (bytes "aa") (bytes "^a*b") 1 false = .ok [.nil] := by
  refine ⟨?_, star_returns, by decide, by decide, by decide⟩
  intro src p ms spos ppos eppos r o hitem hend hsuf hrun hstop hres
  by_cases hr0 : r = 0
  · subst hr0
    rw [Nat.add_zero] at hstop
    rw [match_skip_item hitem hend hsuf (Or.inl rfl) hstop] at hres
    have hc : continuation src p ms spos eppos (decide (0 < 0)) 0 = .ok o := by
      simpa [continuation] using hres
    refine ⟨fun ho => ⟨0, o, le_refl _, hc, ho, rfl, fun j h1 h2 => by omega⟩,
      fun hf k hk => ?_⟩
    have hk0 : k = 0 := by omega
    subst hk0
    exact ⟨o, hc, hf⟩
  · have hpos : 0 < r := by omega
    obtain ⟨_, o1, hbody, hres1, hok1⟩ := match_ok_inv hres
    have hsm : singlematch src p spos ppos eppos = .ok true := by
      simpa using hrun 0 hpos
    rw [matchBody_eq, matchStep_of_isItemStart hitem] at hbody
    simp only [defaultCase, hend, bind_ok, hsm, suffixAt_of_idx hsuf, Bool.not_true,
      Bool.false_eq_true, if_false, if_true, bind_eq_ok, map_eq_ok] at hbody
    simp only [show ¬ ((42 : Nat) = 63) by decide, show ¬ ((42 : Nat) = 43) by decide,
      if_false, if_true, bind_eq_ok, map_eq_ok] at hbody
    obtain ⟨st, ⟨o2, hmax, hst⟩, hfin⟩ := hbody
    subst hst
    simp only [Except.ok.injEq] at hfin
    subst hfin
    simp only [maxExpand] at hmax
    rw [maxExpandCount_eq src p spos ppos eppos r hrun hstop _ 0 (by omega)
      (by have := run_le_length src p spos ppos eppos r hrun; omega)] at hmax
    simp only [bind_ok] at hmax
    have hspec := maxExpandTry_spec (match_inv src p)
      (fun m1 m2 s q h => match_same src p m1 m2 s q h)
      { ms with matchDepth := ms.matchDepth - 1 } spos eppos r _ _
      (MatchState.Same.refl _) hmax
    simp only [continuation, hpos, decide_True, if_true]
    rw [hok1, hres1]
    exact hspec

theorem star_is_greedy_witness :
    ∃ o1 o2 o,
      continuation (bytes "aab") (bytes "a*ab") initialState 0 1 (decide (0 < 2)) 1 = .ok o1 ∧
      o1.ok = true ∧ o1.res = 3 ∧
      continuation (bytes "aab") (bytes "a*ab") initialState 0 1 (decide (0 < 2)) 2 = .ok o2 ∧
      o2.ok = false ∧
      match_ (bytes "aab") (bytes "a*ab") initialState 0 0 = .ok o ∧
      o.ok = true ∧ o.res = o1.res := by
  have h1 : (continuation (bytes "aab") (bytes "a*ab") initialState 0 1 (decide (0 < 2)) 1).map
      (fun o => (o.ok, o.res)) = .ok (true, 3) := by decide
  have h2 : (continuation (bytes "aab") (bytes "a*ab") initialState 0 1 (decide (0 < 2)) 2).map
      (fun o => o.ok) = .ok false := by decide
  cases hc1 : continuation (bytes "aab") (bytes "a*ab") initialState 0 1 (decide (0 < 2)) 1 with
  | error e => rw [hc1] at h1; cases h1
  | ok o1 =>
    rw [hc1] at h1
    have hok1 : o1.ok = true := by injection h1 with h; exact congrArg Prod.fst h
    have hres1 : o1.res = 3 := by injection h1 with h; exact congrArg Prod.snd h
    cases hc2 : continuation (bytes "aab") (bytes "a*ab") initialState 0 1 (decide (0 < 2)) 2 with
    | error e => rw [hc2] at h2; cases h2
    | ok o2 =>
      rw [hc2] at h2
      have hok2 : o2.ok = false := by injection h2
      obtain ⟨o, ho, hok, hres⟩ :=
        (star_is_greedy.2.1 (bytes "aab") (bytes "a*ab") initialState 0 0 1 2
          (by decide) (by decide) (by decide)
          (by intro i hi; interval_cases i <;> decide) (by decide)).1 1 o1 (by decide) hc1 hok1
          (fun j hj1 hj2 => by
            have hj : j = 2 := by omega
            subst hj
            exact ⟨o2, hc2, hok2⟩)
      exact ⟨o1, o2, o, rfl, hok1, hres1, rfl, hok2, ho, hok, hres⟩

/-- C6: lazy `-` is minimal. For an item at `ppos` that ends at `eppos` and
is followed by `-` (`m0` tells whether it matches at `spos`): when `match`
returns, it succeeded iff for some `k >= 0` the `k` subject characters from
`spos` all match the item and the continuation succeeds at `spos + k`, its
result is the continuation's at the smallest such `k` (the continuation
fails at every `j < k`), and it failed iff the continuation fails at every
such `k`. `Match("aaa","a-")` returns the empty string. -/
theorem minus_is_lazy :
    (∀ (src p : List Nat) (ms : MatchState) (spos ppos eppos : Nat) (m0 : Bool) (o : Outcome),
      isItemStart p ppos = true → classend p ppos = .ok eppos → idx p eppos = .ok 45 →
      singlematch src p spos ppos eppos = .ok m0 →
      match_ src p ms spos ppos = .ok o →
      (o.ok = true → ∃ k o',
          (∀ i, i < k → singlematch src p (spos + i) ppos eppos = .ok true) ∧
          continuation src p ms spos eppos m0 k = .ok o' ∧ o'.ok = true ∧ o.res = o'.res ∧
          ∀ j, j < k →
            ∃ oj, continuation src p ms spos eppos m0 j = .ok oj ∧ oj.ok = false) ∧
      (o.ok = false → ∀ k,
          (∀ i, i < k → singlematch src p (spos + i) ppos eppos = .ok true) →
          ∃ o', continuation src p ms spos eppos m0 k = .ok o' ∧ o'.ok = false)) ∧
    strMatch (bytes "aaa") (bytes "a-") 1 false = .ok [.string []] := by
  refine ⟨?_, by decide⟩
  intro src p ms spos ppos eppos m0 o hitem hend hsuf hsm hres
  cases m0 with
  | false =>
    rw [match_skip_item hitem hend hsuf (Or.inr (Or.inr rfl)) hsm] at hres
    have hc : continuation src p ms spos eppos false 0 = .ok o := by
      simpa [continuation] using hres
    refine ⟨fun ho => ⟨0, o, fun i hi => by omega, hc, ho, rfl, fun j hj => by omega⟩,
      fun hf k hk => ?_⟩
    cases k with
    | zero => exact ⟨o, hc, hf⟩
    | succ k =>
      have := hk 0 (by omega)
      rw [Nat.add_zero, hsm] at this
      simp at this
  | true =>
    obtain ⟨_, o1, hbody, hres1, hok1⟩ := match_ok_inv hres
    rw [matchBody_eq, matchStep_of_isItemStart hitem] at hbody
    simp only [defaultCase, hend, bind_ok, hsm, suffixAt_of_idx hsuf, Bool.not_true,
      Bool.false_eq_true, if_false, if_true, bind_eq_ok, map_eq_ok] at hbody
    simp only [show ¬ ((45 : Nat) = 63) by decide, show ¬ ((45 : Nat) = 43) by decide,
      show ¬ ((45 : Nat) = 42) by decide, if_false, if_true, bind_eq_ok, map_eq_ok] at hbody
    obtain ⟨st, ⟨o2, hmin, hst⟩, hfin⟩ := hbody
    subst hst
    simp only [Except.ok.injEq] at hfin
    subst hfin
    simp only [minExpand] at hmin
    have hspec := minExpandLoop_spec (match_inv src p)
      (fun m1 m2 s q h => match_same src p m1 m2 s q h) p
      { ms with matchDepth := ms.matchDepth - 1 } ppos eppos _ _ spos _
      (MatchState.Same.refl _) hmin
    simp only [continuation, if_true]
    rw [hok1, hres1]
    exact hspec

theorem minus_is_lazy_witness :
    ∃ o, match_ (bytes "aab") (bytes "a-b") initialState 0 0 = .ok o ∧
      (o.ok = true → ∃ k o',
          (∀ i, i < k → singlematch (bytes "aab") (bytes "a-b") (0 + i) 0 1 = .ok true) ∧
          continuation (bytes "aab") (bytes "a-b") initialState 0 1 true k = .ok o' ∧
          o'.ok = true ∧ o.res = o'.res ∧
          ∀ j, j < k →
            ∃ oj, continuation (bytes "aab") (bytes "a-b") initialState 0 1 true j = .ok oj ∧
              oj.ok = false) := by
  cases h : match_ (bytes "aab") (bytes "a-b") initialState 0 0 with
  | error e =>
    have : (match_ (bytes "aab") (bytes "a-b") initialState 0 0).toBool = true := by decide
    rw [h] at this
    simp [Except.toBool] at this
  | ok o =>
    refine ⟨o, rfl, ?_⟩
    exact (minus_is_lazy.1 (bytes "aab") (bytes "a-b") initialState 0 0 1 true o
      (by decide) (by decide) (by decide) (by decide) h).1

theorem pushCaptures_ne_nil {ms : MatchState} {src : List Nat} {spos epos : Nat}
    {vs : List Value} (h : pushCaptures ms src spos epos false = .ok vs) : vs ≠ [] := by
  simp only [pushCaptures] at h
  by_cases hl : ms.level = 0
  · simp only [hl, and_self, if_true, pushCapturesLoop, bind_eq_ok] at h
    obtain ⟨v, _, vs', _, h⟩ := h
    simp only [Except.ok.injEq] at h
    subst h
    simp
  · obtain ⟨n, hn⟩ : ∃ n, ms.level = n + 1 := ⟨ms.level - 1, by omega⟩
    simp only [hl, false_and, if_false] at h
    rw [hn] at h
    simp only [pushCapturesLoop, bind_eq_ok] at h
    obtain ⟨v, _, vs', _, h⟩ := h
    simp only [Except.ok.injEq] at h
    subst h
    simp

theorem gmatchLoop_some (s p : List Nat) :
    ∀ fuel ms srcpos ns vals, gmatchLoop s p fuel ms srcpos = .ok (some (ns, vals)) →
      srcpos < ns ∧ ns ≤ s.length ∧ vals ≠ [] := by
  intro fuel
  induction fuel with
  | zero => intro ms srcpos ns vals h; simp [gmatchLoop] at h
  | succ f ih =>
    intro ms srcpos ns vals h
    simp only [gmatchLoop] at h
    split at h
    · rename_i hlt
      simp only [bind_eq_ok] at h
      obtain ⟨r, hr, h⟩ := h
      have hp := match_inv s p _ _ _ _ hr
      split at h
      · rename_i hok
        simp only [bind_eq_ok] at h
        obtain ⟨vs, hvs, h⟩ := h
        simp only [Except.ok.injEq, Option.some.injEq, Prod.mk.injEq] at h
        obtain ⟨h1, h2⟩ := h
        subst h1 h2
        have hlo := hp.lo hok
        have hhi := hp.hi hok (by omega)
        refine ⟨?_, ?_, pushCaptures_ne_nil hvs⟩
        · split <;> omega
        · split <;> omega
      · obtain ⟨h1, h2, h3⟩ := ih _ _ _ _ h
        exact ⟨by omega, h2, h3⟩
    · simp at h

theorem gmatchAux_yield {s p : List Nat} {c c' : Nat} {vals : List Value}
    (h : gmatchAux s p c = .ok (c', vals)) (hv : vals ≠ []) : c < c' ∧ c' ≤ s.length := by
  simp only [gmatchAux, bind_eq_ok] at h
  obtain ⟨x, hx, h⟩ := h
  cases x with
  | none =>
    simp only [Except.ok.injEq, Prod.mk.injEq] at h
    exact absurd h.2.symm hv
  | some y =>
    obtain ⟨ns, vs⟩ := y
    simp only [Except.ok.injEq, Prod.mk.injEq] at h
    obtain ⟨h1, h2⟩ := h
    subst h1 h2
    obtain ⟨h1, h2, _⟩ := gmatchLoop_some s p _ _ _ _ _ hx
    exact ⟨h1, h2⟩

theorem gmatchCalls_length (s p : List Nat) :
    ∀ n c yields done, gmatchCalls s p n c = .ok (yields, done) →
      yields.length ≤ s.length - c := by
  intro n
  induction n with
  | zero =>
    intro c yields done h
    simp only [gmatchCalls, Except.ok.injEq, Prod.mk.injEq] at h
    rw [← h.1]
    simp
  | succ n ih =>
    intro c yields done h
    simp only [gmatchCalls, bind_eq_ok] at h
    obtain ⟨⟨c', vals⟩, hc, h⟩ := h
    simp only at h
    split at h
    · simp only [Except.ok.injEq, Prod.mk.injEq] at h
      rw [← h.1]
      simp
    · rename_i hv
      simp only [bind_eq_ok] at h
      obtain ⟨⟨rest, d⟩, hrest, h⟩ := h
      simp only [Except.ok.injEq, Prod.mk.injEq] at h
      rw [← h.1]
      have := ih _ _ _ hrest
      obtain ⟨h1, h2⟩ := gmatchAux_yield hc hv
      simp only [List.length_cons]
      omega

theorem gmatchCalls_done (s p : List Nat) :
    ∀ n c yields done, s.length - c < n → gmatchCalls s p n c = .ok (yields, done) →
      done = true := by
  intro n
  induction n with
  | zero => intro c yields done hn _; omega
  | succ n ih =>
    intro c yields done hn h
    simp only [gmatchCalls, bind_eq_ok] at h
    obtain ⟨⟨c', vals⟩, hc, h⟩ := h
    simp only at h
    split at h
    · simp only [Except.ok.injEq, Prod.mk.injEq] at h
      exact h.2.symm
    · rename_i hv
      simp only [bind_eq_ok] at h
      obtain ⟨⟨rest, d⟩, hrest, h⟩ := h
      simp only [Except.ok.injEq, Prod.mk.injEq] at h
      obtain ⟨h1, h2⟩ := gmatchAux_yield hc hv
      rw [← h.2]
      exact ih _ _ _ (by omega) hrest

/-- C7: the iterator makes strict forward progress. A call of `gmatchAux`
with the cursor `c` that yields a match (pushes values) leaves a cursor `c'`
with `c < c' <= len(s) + 1`, also when the match is empty; so the calls of an
iterator over a subject of length `n` yield at most `n + 1` times, and after
at most `n + 2` calls the iterator is exhausted. `gmatch("aaa","a*")`
terminates, after one yield. -/
theorem gmatch_strict_progress :
    (∀ (s p : List Nat) (c c' : Nat) (vals : List Value),
      gmatchAux s p c = .ok (c', vals) → vals ≠ [] → c < c' ∧ c' ≤ s.length + 1) ∧
    (∀ (s p : List Nat) (n : Nat) (yields : List (List Value)) (done : Bool),
      gmatchCalls s p n gmatch = .ok (yields, done) → yields.length ≤ s.length + 1) ∧
    (∀ (s p : List Nat) (yields : List (List Value)) (done : Bool),
      gmatchCalls s p (s.length + 2) gmatch = .ok (yields, done) → done = true) ∧
    gmatchCalls (bytes "aaa") (bytes "a*") 5 gmatch =
      .ok ([[.string (bytes "aaa")]], true) := by
  refine ⟨?_, ?_, ?_, by decide⟩
  · intro s p c c' vals h hv
    have := gmatchAux_yield h hv
    omega
  · intro s p n yields done h
    have := gmatchCalls_length s p n _ _ _ h
    omega
  · intro s p yields done h
    exact gmatchCalls_done s p _ _ _ _ (by omega) h

theorem gmatch_strict_progress_witness :
    (0 < 1 ∧ 1 ≤ (bytes "ab").length + 1) ∧
      gmatchAux (bytes "ab") (bytes "a") 0 = .ok (1, [.string (bytes "a")]) :=
  ⟨gmatch_strict_progress.1 (bytes "ab") (bytes "a") 0 1 [.string (bytes "a")]
    (by decide) (by decide), by decide⟩

theorem match_error_of_body {src p : List Nat} {ms : MatchState} {spos ppos : Nat} {e : Err}
    (hd : ms.matchDepth ≠ 0)
    (h : matchBody src p { ms with matchDepth := ms.matchDepth - 1 } spos ppos = .error e) :
    match_ src p ms spos ppos = .error e := by
  rw [match_eq]
  simp only [matchCall, hd, if_false, h, bind_error]

theorem positionCaptures33_overflow (src : List Nat) :
    ∀ n j (ms : MatchState) (spos ppos : Nat), ppos = 2 * j → j + n = 32 → ms.level = j →
      n < ms.matchDepth →
      match_ src (positionCaptures 33) ms spos ppos = .error .tooManyCaptures := by
  have hopen : ∀ j, j < 33 → idx (positionCaptures 33) (2 * j) = .ok 40 := by decide
  have hclose : ∀ j, j < 33 → idx (positionCaptures 33) (2 * j + 1) = .ok 41 := by decide
  have hlen : (positionCaptures 33).length = 66 := by decide
  intro n
  induction n with
  | zero =>
    intro j ms spos ppos hp hj hlev hd
    subst hp
    apply match_error_of_body (by omega)
    rw [matchBody_eq]
    simp only [matchStep, hlen, hopen j (by omega), hclose j (by omega), bind_ok, if_true,
      ne_eq, show ¬ (2 * j = 66) by omega, not_false_eq_true, startCapture, luaMaxCaptures, hlev,
      show j ≥ 32 by omega, map_error, bind_error]
  | succ n ih =>
    intro j ms spos ppos hp hj hlev hd
    subst hp
    apply match_error_of_body (by omega)
    rw [matchBody_eq]
    simp only [matchStep, hlen, hopen j (by omega), hclose j (by omega), bind_ok, if_true,
      ne_eq, show ¬ (2 * j = 66) by omega, not_false_eq_true, startCapture, luaMaxCaptures, hlev,
      show ¬ (j ≥ 32) by omega, if_false]
    rw [ih (j + 1) _ spos (2 * j + 2) (by omega) (by omega) rfl
      (by show n < ms.matchDepth - 1; omega)]
    rfl

/-- The guard of `startCapture` and the bound on the level. `startCapture`
with 32 slots open raises "too many captures" and writes nothing; with fewer
open it records the slot at the level and lets `match` go on one level up; a
call of `match` that starts with a level of at most 32 ends with one; and
`Find` and `Match` with the pattern of 33 groups `()` raise the error on
every subject. -/
theorem capture_level_at_most_32 :
    (∀ (cont : Cont) (ms : MatchState) (spos ppos : Nat) (what : Int),
      luaMaxCaptures ≤ ms.level →
      startCapture cont ms spos ppos what = .error .tooManyCaptures) ∧
    (∀ (cont : Cont) (ms : MatchState) (spos ppos : Nat) (what : Int),
      ms.level < luaMaxCaptures →
      ∃ ms1 : MatchState, ms1.level = ms.level + 1 ∧
        ms1.capture ms.level = { init := spos, len := what } ∧
        (∀ i, i ≠ ms.level → ms1.capture i = ms.capture i) ∧
        startCapture cont ms spos ppos what =
          (cont ms1 spos ppos >>= fun r =>
            if r.ok then .ok r
            else .ok { r with ms := { r.ms with level := r.ms.level - 1 } })) ∧
    (∀ (src p : List Nat) (ms : MatchState) (spos ppos : Nat) (o : Outcome),
      ms.level ≤ luaMaxCaptures → match_ src p ms spos ppos = .ok o →
      o.ms.level ≤ luaMaxCaptures) ∧
    (∀ (s : List Nat) (find : Bool),
      strFindAux s (positionCaptures 33) 1 false find = .error .tooManyCaptures) := by
  refine ⟨?_, ?_, ?_, ?_⟩
  · intro cont ms spos ppos what h
    simp only [startCapture]
    rw [if_pos h]
  · intro cont ms spos ppos what h
    refine ⟨{ ms.setCapture ms.level { init := spos, len := what } with level := ms.level + 1 },
      rfl, by simp [MatchState.setCapture], fun i hi => by simp [MatchState.setCapture, hi], ?_⟩
    simp only [startCapture]
    rw [if_neg (by omega)]
  · intro src p ms spos ppos o hl h
    exact (match_inv src p ms spos ppos o h).level hl
  · intro s find
    have hrel : relativePosition 1 s.length = 1 := by simp [relativePosition]
    have hns : nospecials (positionCaptures 33) = false := by decide
    have hidx : idx (positionCaptures 33) 0 = .ok 40 := by decide
    have hm := positionCaptures33_overflow s 32 0 { initialState with level := 0 } 0 0
      rfl (by omega) rfl (by decide)
    simp only [strFindAux, strFindSearch, hrel, show ¬ ((1 : Int) < 1) by decide,
      show ¬ ((1 : Int) > (s.length : Int) + 1) by omega, if_false, Bool.and_false, hns,
      Bool.or_false, Bool.false_eq_true, hidx, bind_ok, show ¬ ((40 : Nat) = 94) by decide,
      decide_False, strFindLoop_succ]
    simp only [show (1 : Int).toNat - 1 = 0 by decide]
    rw [hm]
    rfl

theorem capture_level_at_most_32_witness :
    startCapture (match_ [] []) { initialState with level := 32 } 0 0 capPosition =
      .error .tooManyCaptures :=
  capture_level_at_most_32.1 (match_ [] []) { initialState with level := 32 } 0 0 capPosition
    (by decide)

theorem matchStep_open_paren (cont : Cont) (src q : List Nat) (c : Nat) (r : List Nat)
    (ms : MatchState) (spos : Nat) :
    matchStep cont src (q ++ 40 :: c :: r) ms spos q.length =
      (startCapture cont ms spos (if c = 41 then q.length + 2 else q.length + 1)
        (if c = 41 then capPosition else capUnfinished)).map Step.done := by
  have hidx : idx (q ++ 40 :: c :: r) q.length = .ok 40 := by
    rw [idx_eq_ok, List.get?_eq_getElem?, List.getElem?_append_right (le_refl _)]
    simp
  have hidx1 : idx (q ++ 40 :: c :: r) (q.length + 1) = .ok c := by
    rw [idx_eq_ok, List.get?_eq_getElem?, List.getElem?_append_right (by omega)]
    simp
  have hlen : q.length ≠ (q ++ 40 :: c :: r).length := by
    simp
  simp only [matchStep, ne_eq, hlen, not_false_eq_true, if_true, hidx, bind_ok, hidx1]
  by_cases hc : c = 41
  · simp [hc]
  · simp [hc]

/-- At a `(` that is not the last pattern character, what `match` does:
with no depth left it raises "pattern too complex", with 32 slots open it
raises "too many captures", and otherwise it calls `match` after the `(`
(after the `()` of a position capture) in the state in which the slot at
the level holds the capture and the level is one higher, and takes the
level back when that call fails. -/
theorem match_open_paren (src q : List Nat) (c : Nat) (r : List Nat)
    (ms : MatchState) (spos : Nat) :
    match_ src (q ++ 40 :: c :: r) ms spos q.length =
      if ms.matchDepth = 0 then .error .tooComplex
      else if luaMaxCaptures ≤ ms.level then .error .tooManyCaptures
      else
        (match_ src (q ++ 40 :: c :: r)
            { matchDepth := ms.matchDepth - 1, level := ms.level + 1,
              capture := fun j =>
                if j = ms.level then
                  { init := spos, len := if c = 41 then capPosition else capUnfinished }
                else ms.capture j }
            spos (if c = 41 then q.length + 2 else q.length + 1) >>= fun o =>
          .ok { res := o.res, ok := o.ok,
                ms := { matchDepth := o.ms.matchDepth + 1,
                        level := if o.ok then o.ms.level else o.ms.level - 1,
                        capture := o.ms.capture } }) := by
  rw [match_eq]
  by_cases hd : ms.matchDepth = 0
  · simp [matchCall, hd]
  · simp only [matchCall, hd, if_false]
    rw [matchBody_eq, matchStep_open_paren]
    by_cases hl : luaMaxCaptures ≤ ms.level
    · simp only [startCapture, ge_iff_le, hl, if_true, map_error, bind_error]
    · simp only [startCapture, ge_iff_le, hl, if_false, MatchState.setCapture]
      cases match_ src (q ++ 40 :: c :: r)
          { matchDepth := ms.matchDepth - 1, level := ms.level + 1,
            capture := fun j =>
              if j = ms.level then
                { init := spos, len := if c = 41 then capPosition else capUnfinished }
              else ms.capture j }
          spos (if c = 41 then q.length + 2 else q.length + 1) with
      | error e => rfl
      | ok o =>
        simp only [bind_ok]
        cases hok : o.ok with
        | true => simp [hok]
        | false => simp [hok]


theorem positionCaptures_append_idx : ∀ (k : Nat) (tail : List Nat) (j : Nat), j < k →
    idx (positionCaptures k ++ tail) (2 * j) = .ok 40 ∧
    idx (positionCaptures k ++ tail) (2 * j + 1) = .ok 41
  | 0, _, j, h => by omega
  | k + 1, _, 0, _ => ⟨rfl, rfl⟩
  | k + 1, tail, j + 1, h => by
    have := positionCaptures_append_idx k tail j (by omega)
    rw [show 2 * (j + 1) = 2 * j + 1 + 1 by omega]
    exact this

theorem positionCaptures_length : ∀ k, (positionCaptures k).length = 2 * k
  | 0 => rfl
  | k + 1 => by simp [positionCaptures, positionCaptures_length k]; omega

theorem positionCaptures_descend (src : List Nat) (k : Nat) (tail : List Nat) (e : Err) :
    ∀ n j (ms : MatchState) (spos : Nat), j + n = k → ms.level + n ≤ 32 → n < ms.matchDepth →
      (∀ ms1 : MatchState, ms1.level = ms.level + n → ms1.matchDepth = ms.matchDepth - n →
        match_ src (positionCaptures k ++ tail) ms1 spos (2 * k) = .error e) →
      match_ src (positionCaptures k ++ tail) ms spos (2 * j) = .error e := by
  intro n
  induction n with
  | zero =>
    intro j ms spos hj _ _ h
    have : j = k := by omega
    subst this
    exact h ms rfl rfl
  | succ n ih =>
    intro j ms spos hj hlev hd h
    obtain ⟨hopen, hclose⟩ := positionCaptures_append_idx k tail j (by omega)
    have hlen : ¬ (2 * j = (positionCaptures k ++ tail).length) := by
      rw [List.length_append, positionCaptures_length]; omega
    apply match_error_of_body (by omega)
    rw [matchBody_eq]
    simp only [matchStep, hopen, hclose, bind_ok, if_true, ne_eq, hlen, not_false_eq_true,
      startCapture, luaMaxCaptures, show ¬ (ms.level ≥ 32) by omega, if_false]
    have key : ∀ m : MatchState, m.level = ms.level + 1 → m.matchDepth = ms.matchDepth - 1 →
        match_ src (positionCaptures k ++ tail) m spos (2 * j + 2) = .error e := by
      intro m hl hm
      have := ih (j + 1) m spos (by omega) (by omega) (by omega)
        (fun ms1 h1 h2 => h ms1 (by omega) (by omega))
      rw [show 2 * (j + 1) = 2 * j + 2 by omega] at this
      exact this
    rw [key _ rfl rfl]
    rfl

theorem strFindAux_error_of_first (s p : List Nat) (find : Bool) (c : Nat) (e : Err)
    (hns : nospecials p = false) (hidx : idx p 0 = .ok c) (hc : c ≠ 94)
    (hm : match_ s p { initialState with level := 0 } 0 0 = .error e) :
    strFindAux s p 1 false find = .error e := by
  have hrel : relativePosition 1 s.length = 1 := by simp [relativePosition]
  simp only [strFindAux, strFindSearch, hrel, show ¬ ((1 : Int) < 1) by decide,
    show ¬ ((1 : Int) > (s.length : Int) + 1) by omega, if_false, Bool.and_false, hns,
    Bool.or_false, Bool.false_eq_true, hidx, bind_ok, hc,
    decide_False, strFindLoop_succ]
  simp only [show (1 : Int).toNat - 1 = 0 by decide]
  rw [hm]
  rfl

theorem match_final_open_paren (src q : List Nat) (ms : MatchState) (spos : Nat)
    (hd : ms.matchDepth ≠ 0) :
    match_ src (q ++ [40]) ms spos q.length = .error .indexOutOfRange := by
  have hidx : idx (q ++ [40]) q.length = .ok 40 := by
    rw [idx_eq_ok, List.get?_eq_getElem?, List.getElem?_append_right (le_refl _)]
    simp
  have hidx1 : idx (q ++ [40]) (q.length + 1) = .error .indexOutOfRange := by
    have hnone : (q ++ [40]).get? (q.length + 1) = none :=
      List.get?_eq_none.mpr (by simp)
    simp only [idx, hnone]
  have hlen : q.length ≠ (q ++ [40]).length := by simp
  apply match_error_of_body hd
  rw [matchBody_eq]
  simp only [matchStep, ne_eq, hlen, not_false_eq_true, if_true, hidx, bind_ok, hidx1,
    bind_error, map_error]
/-- C8: `match` reads the character after a `(` before it calls
`startCapture`, so a `(` that is the last pattern character ends in an index
panic and neither raises "too many captures" nor records a slot: with 32
slots open (`Find` and `Match` with 32 groups `()` and a final `(`, on every
subject), with none open (the pattern `(`), and in `match` at every level.
At a `(` that is followed by a character `match` does what is claimed: with
32 slots open it raises "too many captures", and with fewer it goes on after
the `(` (after the `()` of a position capture) in the state in which the
slot at the level holds the capture and the level is one higher, and takes
the level back when that fails. `Find` and `Match` with 32 groups `()` and
`(a`, and with 33 groups `()`, raise "too many captures" on every subject. -/
theorem open_paren_at_pattern_end :
    (∀ (s : List Nat) (find : Bool),
      strFindAux s (positionCaptures 32 ++ bytes "(") 1 false find =
        .error .indexOutOfRange) ∧
    (∀ (s : List Nat) (find : Bool),
      strFindAux s (bytes "(") 1 false find = .error .indexOutOfRange) ∧
    (∀ (src q : List Nat) (ms : MatchState) (spos : Nat),
      match_ src (q ++ bytes "(") ms spos q.length =
        if ms.matchDepth = 0 then .error .tooComplex else .error .indexOutOfRange) ∧
    (∀ (src q : List Nat) (c : Nat) (r : List Nat) (ms : MatchState) (spos : Nat),
      match_ src (q ++ 40 :: c :: r) ms spos q.length =
        if ms.matchDepth = 0 then .error .tooComplex
        else if luaMaxCaptures ≤ ms.level then .error .tooManyCaptures
        else
          (match_ src (q ++ 40 :: c :: r)
              { matchDepth := ms.matchDepth - 1, level := ms.level + 1,
                capture := fun j =>
                  if j = ms.level then
                    { init := spos, len := if c = 41 then capPosition else capUnfinished }
                  else ms.capture j }
              spos (if c = 41 then q.length + 2 else q.length + 1) >>= fun o =>
            .ok { res := o.res, ok := o.ok,
                  ms := { matchDepth := o.ms.matchDepth + 1,
                          level := if o.ok then o.ms.level else o.ms.level - 1,
                          capture := o.ms.capture } })) ∧
    (∀ (s : List Nat) (find : Bool),
      strFindAux s (positionCaptures 32 ++ bytes "(a") 1 false find =
        .error .tooManyCaptures) ∧
    (∀ (s : List Nat) (find : Bool),
      strFindAux s (positionCaptures 33) 1 false find = .error .tooManyCaptures) := by
  refine ⟨?_, ?_, ?_, match_open_paren, ?_, ?_⟩
  · intro s find
    apply strFindAux_error_of_first s _ find 40 _ (by decide) (by decide) (by decide)
    apply positionCaptures_descend s 32 (bytes "(") _ 32 0 _ 0 (by omega) (by decide)
      (by decide)
    intro ms1 _ h2
    have := match_final_open_paren s (positionCaptures 32) ms1 0 (by rw [h2]; decide)
    rw [positionCaptures_length] at this
    exact this
  · intro s find
    apply strFindAux_error_of_first s _ find 40 _ (by decide) (by decide) (by decide)
    exact match_final_open_paren s [] _ 0 (by decide)
  · intro src q ms spos
    by_cases hd : ms.matchDepth = 0
    · rw [if_pos hd, match_eq]
      simp [matchCall, hd]
    · rw [if_neg hd]
      exact match_final_open_paren src q ms spos hd
  · intro s find
    apply strFindAux_error_of_first s _ find 40 _ (by decide) (by decide) (by decide)
    apply positionCaptures_descend s 32 (bytes "(a") _ 32 0 _ 0 (by omega) (by decide)
      (by decide)
    intro ms1 h1 h2
    have := match_open_paren s (positionCaptures 32) 97 [] ms1 0
    rw [positionCaptures_length] at this
    rw [show positionCaptures 32 ++ bytes "(a" = positionCaptures 32 ++ 40 :: 97 :: [] from rfl,
      this, if_neg (by rw [h2]; decide), if_pos (by rw [h1]; decide)]
  · intro s find
    apply strFindAux_error_of_first s _ find 40 _ (by decide) (by decide) (by decide)
    exact positionCaptures33_overflow s 32 0 { initialState with level := 0 } 0 0
      rfl (by omega) rfl (by decide)

theorem optionals_length : ∀ n, (optionals n).length = 2 * n
  | 0 => rfl
  | n + 1 => by simp [optionals, optionals_length n]; omega

theorem optionals_idx : ∀ n k, k < n →
    idx (optionals n) (2 * k) = .ok 97 ∧ idx (optionals n) (2 * k + 1) = .ok 63
  | 0, k, h => by omega
  | n + 1, 0, _ => ⟨rfl, rfl⟩
  | n + 1, k + 1, h => by
    have := optionals_idx n k (by omega)
    rw [show 2 * (k + 1) = 2 * k + 1 + 1 by omega]
    exact this

theorem replicate_idx (n k c : Nat) (h : k < n) : idx (List.replicate n c) k = .ok c := by
  rw [idx_eq_ok]
  simp [List.getElem?_replicate, h]

theorem optionals_too_complex (n : Nat) :
    ∀ d k (ms : MatchState) (ppos : Nat), ppos = 2 * k → ms.matchDepth = d → k + d ≤ n →
      match_ (List.replicate n 97) (optionals n) ms k ppos = .error .tooComplex := by
  intro d
  induction d with
  | zero =>
    intro k ms ppos _ hd _
    simp [match_, matchCall, hd]
  | succ d ih =>
    intro k ms ppos hp hd hk
    subst hp
    obtain ⟨h97, h63⟩ := optionals_idx n k (by omega)
    apply match_error_of_body (by omega)
    have hitem : isItemStart (optionals n) (2 * k) = true := by
      simp [isItemStart, h97, lEsc]
    have hce : classend (optionals n) (2 * k) = .ok (2 * k + 1) := by
      simp [classend, h97, lEsc]
    have hsm : singlematch (List.replicate n 97) (optionals n) k (2 * k) (2 * k + 1) = .ok true := by
      have hlt : ¬ (k ≥ (List.replicate n 97).length) := by simp; omega
      simp only [singlematch]
      rw [if_neg hlt]
      simp [replicate_idx n k 97 (by omega), h97, lEsc]
    rw [matchBody_eq, matchStep_of_isItemStart hitem]
    simp only [defaultCase, hce, bind_ok, hsm, suffixAt_of_idx h63, Bool.not_true,
      Bool.false_eq_true, if_false, if_true]
    rw [ih (k + 1) _ (2 * k + 1 + 1) (by omega) (by show ms.matchDepth - 1 = d; omega) (by omega)]
    rfl

/-- C9: the depth counter. A call of `match` with the counter at 0 raises
"pattern too complex" without matching; a call that returns leaves the
counter where it found it, so it never exceeds the 200 it starts from; one
pass through the body of `match` in a state with counter `d` calls `match`
only in states with counter `d` (putting in its place any function that
agrees with it on those states changes nothing), so a call `k` levels deep
runs with counter `200 - k` and there are never more than 200 nested calls;
and for `n >= 200` the pattern of `n` copies of `a?` on the subject of `n`
characters `a` raises "pattern too complex" in `Find` and in `Match`. -/
theorem depth_counter_within_budget :
    (∀ (src p : List Nat) (ms : MatchState) (spos ppos : Nat),
      ms.matchDepth = 0 → match_ src p ms spos ppos = .error .tooComplex) ∧
    (∀ (src p : List Nat) (ms : MatchState) (spos ppos : Nat) (o : Outcome),
      ms.matchDepth ≤ maxCCalls → match_ src p ms spos ppos = .ok o →
      o.ms.matchDepth = ms.matchDepth ∧ o.ms.matchDepth ≤ maxCCalls) ∧
    (∀ (src p : List Nat) (ms : MatchState) (spos ppos : Nat) (c : Cont),
      (∀ ms' s' p', ms'.matchDepth = ms.matchDepth →
        c ms' s' p' = match_ src p ms' s' p') →
      matchStep c src p ms spos ppos = matchStep (match_ src p) src p ms spos ppos) ∧
    (∀ (n : Nat) (find : Bool), 200 ≤ n →
      strFindAux (List.replicate n 97) (optionals n) 1 false find = .error .tooComplex) := by
  refine ⟨?_, ?_, ?_, ?_⟩
  · intro src p ms spos ppos hd
    simp [match_, matchCall, hd]
  · intro src p ms spos ppos o hle h
    have := (match_inv src p ms spos ppos o h).depth
    exact ⟨this, by rw [this]; exact hle⟩
  · intro src p ms spos ppos c hc
    exact (matchStep_eq_of_agree ms (fun m s q hD => (hc m s q hD).symm) (match_inv src p)
      p spos ppos).symm
  · intro n find hn
    have hrel : relativePosition 1 (List.replicate n 97).length = 1 := by simp [relativePosition]
    obtain ⟨m, rfl⟩ : ∃ m, n = m + 1 := ⟨n - 1, by omega⟩
    have hns : nospecials (optionals (m + 1)) = false := by
      simp [nospecials, optionals, specials]
    have hidx : idx (optionals (m + 1)) 0 = .ok 97 := rfl
    have hm := optionals_too_complex (m + 1) 200 0 { initialState with level := 0 } 0
      rfl rfl (by omega)
    simp only [strFindAux, strFindSearch, hrel, show ¬ ((1 : Int) < 1) by decide,
      show ¬ ((1 : Int) > (((List.replicate (m + 1) 97).length : Nat) : Int) + 1) by omega,
      if_false, Bool.and_false, hns,
      Bool.or_false, Bool.false_eq_true, hidx, bind_ok, show ¬ ((97 : Nat) = 94) by decide,
      decide_False, strFindLoop_succ]
    simp only [show (1 : Int).toNat - 1 = 0 by decide]
    rw [hm]
    rfl

theorem depth_counter_within_budget_witness :
    match_ (bytes "a") (bytes "a") { initialState with matchDepth := 0 } 0 0 =
      .error .tooComplex :=
  depth_counter_within_budget.1 (bytes "a") (bytes "a") { initialState with matchDepth := 0 } 0 0
    rfl

theorem bind_eq_error {α β : Type} {x : Res α} {f : α → Res β} {e : Err}
    (h : (x >>= f) = .error e) : x = .error e ∨ ∃ a, x = .ok a ∧ f a = .error e := by
  cases x with
  | error e' => left; simpa using h
  | ok a => right; exact ⟨a, rfl, by simpa using h⟩

theorem map_eq_error {α β : Type} {x : Res α} {f : α → β} {e : Err}
    (h : x.map f = .error e) : x = .error e := by
  cases x with
  | error e' => simpa using h
  | ok a => simp at h

theorem idx_error {s : List Nat} {i : Nat} {e : Err} (h : idx s i = .error e) :
    e = .indexOutOfRange := by
  unfold idx at h
  split at h
  · simp at h
  · simp only [Except.error.injEq] at h
    exact h.symm

theorem classendLoop_error (p : List Nat) :
    ∀ fuel ppos e, p.length - ppos < fuel → classendLoop p fuel ppos = .error e →
      e = .indexOutOfRange ∨ e = .malformedMissingBracket := by
  intro fuel
  induction fuel with
  | zero => intro ppos e h _; omega
  | succ f ih =>
    intro ppos e hf h
    simp only [classendLoop] at h
    split at h
    · simp only [Except.error.injEq] at h
      exact Or.inr h.symm
    · rename_i hne
      rcases bind_eq_error h with h1 | ⟨c, hc, h⟩
      · exact Or.inl (idx_error h1)
      · have hlt := idx_lt hc
        rcases bind_eq_error h with h1 | ⟨c2, hc2, h⟩
        · exact Or.inl (idx_error h1)
        · have hlt2 := idx_lt hc2
          split at h
          · simp at h
          · refine ih _ _ ?_ h
            split <;> omega

theorem classend_error {p : List Nat} {ppos : Nat} {e : Err}
    (h : classend p ppos = .error e) :
    e = .indexOutOfRange ∨ e = .malformedMissingBracket ∨
      (e = .malformedEndsWithEsc ∧ idx p ppos = .ok lEsc ∧ ppos + 1 = p.length) := by
  simp only [classend] at h
  rcases bind_eq_error h with h1 | ⟨c, hc, h⟩
  · exact Or.inl (idx_error h1)
  · split at h
    · rename_i hesc
      split at h
      · rename_i hlen
        simp only [Except.error.injEq] at h
        exact Or.inr (Or.inr ⟨h.symm, hesc ▸ hc, hlen⟩)
      · simp at h
    · split at h
      · rcases bind_eq_error h with h1 | ⟨c1, hc1, h⟩
        · exact Or.inl (idx_error h1)
        · rcases bind_eq_error h with h1 | ⟨r, _, h⟩
          · rcases classendLoop_error p _ _ _ (by split <;> omega) h1 with h2 | h2
            · exact Or.inl h2
            · exact Or.inr (Or.inl h2)
          · simp at h
      · simp at h

theorem matchbracketclassLoop_error (c : Nat) (p : List Nat) (ecpos : Nat) (sig : Bool) :
    ∀ fuel ppos e, ecpos - ppos < fuel →
      matchbracketclassLoop c p ecpos sig fuel ppos = .error e → e = .indexOutOfRange := by
  intro fuel
  induction fuel with
  | zero => intro ppos e h _; omega
  | succ f ih =>
    intro ppos e hf h
    simp only [matchbracketclassLoop] at h
    split at h
    · simp at h
    · rename_i hlt
      rcases bind_eq_error h with h1 | ⟨pc, _, h⟩
      · exact idx_error h1
      · split at h
        · rcases bind_eq_error h with h1 | ⟨cl, _, h⟩
          · exact idx_error h1
          · split at h
            · simp at h
            · exact ih _ _ (by omega) h
        · rcases bind_eq_error h with h1 | ⟨pn, _, h⟩
          · exact idx_error h1
          · split at h
            · rcases bind_eq_error h with h1 | ⟨lo, _, h⟩
              · exact idx_error h1
              · rcases bind_eq_error h with h1 | ⟨hi, _, h⟩
                · exact idx_error h1
                · split at h
                  · simp at h
                  · exact ih _ _ (by omega) h
            · split at h
              · simp at h
              · exact ih _ _ (by omega) h

theorem singlematch_error {src p : List Nat} {spos ppos eppos : Nat} {e : Err}
    (h : singlematch src p spos ppos eppos = .error e) : e = .indexOutOfRange := by
  simp only [singlematch] at h
  split at h
  · simp at h
  · rcases bind_eq_error h with h1 | ⟨c, _, h⟩
    · exact idx_error h1
    · rcases bind_eq_error h with h1 | ⟨pc, _, h⟩
      · exact idx_error h1
      · split at h
        · simp at h
        · split at h
          · rcases bind_eq_error h with h1 | ⟨cl, _, h⟩
            · exact idx_error h1
            · simp at h
          · split at h
            · simp only [matchbracketclass] at h
              rcases bind_eq_error h with h1 | ⟨pn, _, h⟩
              · exact idx_error h1
              · split at h
                · exact matchbracketclassLoop_error _ _ _ _ _ _ _ (by omega) h
                · exact matchbracketclassLoop_error _ _ _ _ _ _ _ (by omega) h
            · simp at h

theorem suffixAt_error {p : List Nat} {eppos : Nat} {e : Err}
    (h : suffixAt p eppos = .error e) : e = .indexOutOfRange := by
  unfold suffixAt at h
  split at h
  · exact idx_error h
  · simp at h

theorem maxExpandCount_error (src p : List Nat) (spos ppos eppos : Nat) :
    ∀ fuel i e, src.length - (spos + i) < fuel →
      maxExpandCount src p spos ppos eppos fuel i = .error e → e = .indexOutOfRange := by
  intro fuel
  induction fuel with
  | zero => intro i e h _; omega
  | succ f ih =>
    intro i e hf h
    simp only [maxExpandCount] at h
    rcases bind_eq_error h with h1 | ⟨m, hm, h⟩
    · exact singlematch_error h1
    · cases m with
      | true =>
        simp only [if_true] at h
        have := singlematch_lt hm
        exact ih _ _ (by omega) h
      | false => simp at h

theorem maxExpandTry_error {src : List Nat} {cont : Cont} {D : Nat} {E : Err → Prop}
    (hc : ContErrs cont D E) (hinv : ContInv src cont) (spos eppos : Nat) :
    ∀ i ms e, ms.matchDepth = D → maxExpandTry cont spos eppos i ms = .error e → E e := by
  intro i
  induction i with
  | zero =>
    intro ms e hD h
    simp only [maxExpandTry] at h
    rcases bind_eq_error h with h1 | ⟨r, hr, h⟩
    · exact hc _ _ _ _ hD h1
    · split at h <;> simp at h
  | succ i ih =>
    intro ms e hD h
    simp only [maxExpandTry] at h
    rcases bind_eq_error h with h1 | ⟨r, hr, h⟩
    · exact hc _ _ _ _ hD h1
    · split at h
      · simp at h
      · exact ih _ _ ((hinv _ _ _ _ hr).depth.trans hD) h

theorem minExpandLoop_error {src : List Nat} {cont : Cont} {D : Nat} {E : Err → Prop}
    (hE : ∀ e, LeafErr e → E e) (hc : ContErrs cont D E) (hinv : ContInv src cont)
    (p : List Nat) (ppos eppos : Nat) :
    ∀ fuel ms spos e, src.length - spos < fuel → ms.matchDepth = D →
      minExpandLoop cont src p ppos eppos fuel ms spos = .error e → E e := by
  intro fuel
  induction fuel with
  | zero => intro ms spos e h _ _; omega
  | succ f ih =>
    intro ms spos e hf hD h
    simp only [minExpandLoop] at h
    rcases bind_eq_error h with h1 | ⟨r, hr, h⟩
    · exact hc _ _ _ _ hD h1
    · split at h
      · simp at h
      · rcases bind_eq_error h with h1 | ⟨m, hm, h⟩
        · exact hE _ (Or.inl (singlematch_error h1))
        · cases m with
          | true =>
            simp only [if_true] at h
            have := singlematch_lt hm
            exact ih _ _ _ (by omega) ((hinv _ _ _ _ hr).depth.trans hD) h
          | false => simp at h

theorem maxExpand_error {src : List Nat} {cont : Cont} {D : Nat} {E : Err → Prop}
    (hE : ∀ e, LeafErr e → E e) (hc : ContErrs cont D E) (hinv : ContInv src cont)
    (p : List Nat) (ms : MatchState) (spos ppos eppos : Nat) (e : Err)
    (hD : ms.matchDepth = D) (h : maxExpand cont src p ms spos ppos eppos = .error e) :
    E e := by
  simp only [maxExpand] at h
  rcases bind_eq_error h with h1 | ⟨i, _, h⟩
  · exact hE _ (Or.inl (maxExpandCount_error src p spos ppos eppos _ _ _ (by omega) h1))
  · exact maxExpandTry_error hc hinv spos eppos i ms e hD h

theorem startCapture_error {cont : Cont} {D : Nat} {E : Err → Prop}
    (hE : ∀ e, LeafErr e → E e) (hc : ContErrs cont D E)
    (ms : MatchState) (spos ppos : Nat) (what : Int) (e : Err)
    (hD : ms.matchDepth = D) (h : startCapture cont ms spos ppos what = .error e) : E e := by
  simp only [startCapture] at h
  split at h
  · simp only [Except.error.injEq] at h
    exact hE _ (Or.inr (Or.inr (Or.inl h.symm)))
  · rcases bind_eq_error h with h1 | ⟨r, _, h⟩
    · exact hc _ _ _ _ (by exact hD) h1
    · split at h <;> simp at h

theorem captureToCloseLoop_error (ms : MatchState) :
    ∀ n e, captureToCloseLoop ms n = .error e → e = .invalidPatternCapture := by
  intro n
  induction n with
  | zero =>
    intro e h
    simp only [captureToCloseLoop, Except.error.injEq] at h
    exact h.symm
  | succ n ih =>
    intro e h
    simp only [captureToCloseLoop] at h
    split at h
    · simp at h
    · exact ih e h

theorem endCapture_error {cont : Cont} {D : Nat} {E : Err → Prop}
    (hE : ∀ e, LeafErr e → E e) (hc : ContErrs cont D E)
    (ms : MatchState) (spos ppos : Nat) (e : Err)
    (hD : ms.matchDepth = D) (h : endCapture cont ms spos ppos = .error e) : E e := by
  simp only [endCapture] at h
  rcases bind_eq_error h with h1 | ⟨l, _, h⟩
  · exact hE _ (Or.inr (Or.inr (Or.inr (captureToCloseLoop_error ms _ _ h1))))
  · rcases bind_eq_error h with h1 | ⟨r, _, h⟩
    · exact hc _ _ _ _ (by exact hD) h1
    · split at h <;> simp at h

theorem defaultCase_error {src : List Nat} {cont : Cont} {D : Nat} {E : Err → Prop}
    (hE : ∀ e, LeafErr e → E e) (hc : ContErrs cont D E) (hinv : ContInv src cont)
    (p : List Nat) (ms : MatchState) (spos ppos : Nat) (e : Err)
    (hD : ms.matchDepth = D) (h : defaultCase cont src p ms spos ppos = .error e) :
    E e ∨ (e = .malformedEndsWithEsc ∧ idx p ppos = .ok lEsc ∧ ppos + 1 = p.length) := by
  simp only [defaultCase] at h
  rcases bind_eq_error h with h1 | ⟨eppos, _, h⟩
  · rcases classend_error h1 with h2 | h2 | h2
    · exact Or.inl (hE _ (Or.inl h2))
    · exact Or.inl (hE _ (Or.inr (Or.inl h2)))
    · exact Or.inr h2
  · left
    rcases bind_eq_error h with h1 | ⟨m, _, h⟩
    · exact hE _ (Or.inl (singlematch_error h1))
    · rcases bind_eq_error h with h1 | ⟨ep, _, h⟩
      · exact hE _ (Or.inl (suffixAt_error h1))
      · split at h
        · split at h <;> simp at h
        · split at h
          · rcases bind_eq_error h with h1 | ⟨r, _, h⟩
            · exact hc _ _ _ _ hD h1
            · split at h <;> simp at h
          · split at h
            · exact maxExpand_error hE hc hinv p ms _ _ _ e hD (map_eq_error h)
            · split at h
              · exact maxExpand_error hE hc hinv p ms _ _ _ e hD (map_eq_error h)
              · split at h
                · exact minExpandLoop_error hE hc hinv p _ _ _ _ _ e (by omega) hD
                    (map_eq_error h)
                · simp at h

theorem matchStep_error {src : List Nat} {cont : Cont} {D : Nat} {E : Err → Prop}
    (hE : ∀ e, LeafErr e → E e) (hc : ContErrs cont D E) (hinv : ContInv src cont)
    (p : List Nat) (ms : MatchState) (spos ppos : Nat) (e : Err)
    (hD : ms.matchDepth = D) (h : matchStep cont src p ms spos ppos = .error e) : E e := by
  simp only [matchStep] at h
  split at h
  · rcases bind_eq_error h with h1 | ⟨c, hc', h⟩
    · exact hE _ (Or.inl (idx_error h1))
    · have hdef : c ≠ lEsc → defaultCase cont src p ms spos ppos = .error e → E e := by
        intro hne hd
        rcases defaultCase_error hE hc hinv p ms spos ppos e hD hd with h2 | ⟨_, h3, _⟩
        · exact h2
        · rw [hc'] at h3
          simp only [Except.ok.injEq] at h3
          exact absurd h3 hne
      split at h
      · rcases bind_eq_error h with h1 | ⟨pn, _, h⟩
        · exact hE _ (Or.inl (idx_error h1))
        · split at h
          · exact startCapture_error hE hc ms _ _ _ e hD (map_eq_error h)
          · exact startCapture_error hE hc ms _ _ _ e hD (map_eq_error h)
      · rename_i h40
        split at h
        · exact endCapture_error hE hc ms _ _ e hD (map_eq_error h)
        · rename_i h41
          split at h
          · rename_i h36
            split at h
            · exact hdef (by rw [h36]; decide) h
            · split at h <;> simp at h
          · split at h
            · rcases bind_eq_error h with h1 | ⟨pnext, hpn, h⟩
              · exact hE _ (Or.inl (idx_error h1))
              · split at h
                · simp at h
                · split at h
                  · simp at h
                  · split at h
                    · simp at h
                    · rcases defaultCase_error hE hc hinv p ms spos ppos e hD h with
                        h2 | ⟨_, _, h4⟩
                      · exact h2
                      · have := idx_lt hpn
                        omega
            · rename_i h37
              exact hdef h37 h
  · simp at h

theorem matchCall_errs {body : Cont} {D : Nat} {E : Err → Prop}
    (hT : E .tooComplex) (hb : 0 < D → ContErrs body (D - 1) E) :
    ContErrs (matchCall body) D E := by
  intro ms s q e hD h
  simp only [matchCall] at h
  split at h
  · simp only [Except.error.injEq] at h
    exact h ▸ hT
  · rename_i hne
    rcases bind_eq_error h with h1 | ⟨r, _, h⟩
    · exact hb (by omega) _ _ _ _ (by simp only; omega) h1
    · simp at h

theorem matchInit_error (src p : List Nat) :
    ∀ fuel ms spos ppos e, fuelNeed p ms.matchDepth ppos ≤ fuel →
      matchInit src p fuel ms spos ppos = .error e → EngineErr e := by
  intro fuel
  induction fuel with
  | zero => intro ms spos ppos e h _; simp [fuelNeed] at h
  | succ n ih =>
    intro ms spos ppos e hf h
    rw [matchInit_succ] at h
    have hinv := matchCall_inv (matchInit_inv src p n)
    have hc : ContErrs (matchCall (matchInit src p n)) ms.matchDepth EngineErr := by
      apply matchCall_errs (E := EngineErr) (Or.inr rfl)
      intro hD a s q e' ha he
      exact ih a s q e' (by rw [ha]; exact fuelNeed_call hD hf) he
    rcases bind_eq_error h with h1 | ⟨st, hst, h⟩
    · exact matchStep_error (fun _ he => Or.inl he) hc hinv p ms spos ppos e rfl h1
    · cases st with
      | again a1 s1 p1 =>
        simp only at h
        obtain ⟨hsame, _, _, hgt⟩ := matchStep_post hinv _ _ _ _ _ hst
        have hlt := matchStep_again_lt hst
        have hd : a1.matchDepth = ms.matchDepth := hsame.1
        exact ih a1 s1 p1 e (by rw [hd]; exact fuelNeed_again hlt hgt hf) h
      | done o => simp at h

/-- A call of `match` that does not return ends in one of five errors; it
never runs out of the fuel of the model, and it never raises "malformed
pattern (ends with '%')". -/
theorem match_error (src p : List Nat) (ms : MatchState) (spos ppos : Nat) (e : Err)
    (h : match_ src p ms spos ppos = .error e) : EngineErr e := by
  refine matchCall_errs (E := EngineErr) (D := ms.matchDepth) (Or.inr rfl) ?_ ms spos ppos e rfl h
  intro hD a s q e' ha he
  exact matchInit_error src p _ a s q e' (by rw [ha]; exact fuelNeed_le_matchFuel p _ _ hD) he

theorem slice_error {s : List Nat} {lo hi : Nat} {e : Err} (h : slice s lo hi = .error e) :
    e = .sliceOutOfRange := by
  simp only [slice] at h
  split at h
  · simp at h
  · simp only [Except.error.injEq] at h
    exact h.symm

theorem pushOnecapture_error {ms : MatchState} {src : List Nat} {i spos epos : Nat} {e : Err}
    (h : pushOnecapture ms src i spos epos = .error e) : DriverErr e := by
  simp only [pushOnecapture] at h
  split at h
  · split at h
    · exact Or.inr (Or.inr (Or.inr (slice_error (map_eq_error h))))
    · simp only [Except.error.injEq] at h
      exact Or.inr (Or.inr (Or.inl h.symm))
  · split at h
    · simp only [Except.error.injEq] at h
      exact Or.inr (Or.inl h.symm)
    · split at h
      · simp at h
      · split at h
        · simp only [Except.error.injEq] at h
          exact Or.inr (Or.inr (Or.inr h.symm))
        · exact Or.inr (Or.inr (Or.inr (slice_error (map_eq_error h))))

theorem pushCapturesLoop_error (ms : MatchState) (src : List Nat) (spos epos : Nat) :
    ∀ n i e, pushCapturesLoop ms src spos epos n i = .error e → DriverErr e := by
  intro n
  induction n with
  | zero => intro i e h; simp [pushCapturesLoop] at h
  | succ n ih =>
    intro i e h
    simp only [pushCapturesLoop] at h
    rcases bind_eq_error h with h1 | ⟨v, _, h⟩
    · exact pushOnecapture_error h1
    · rcases bind_eq_error h with h1 | ⟨vs, _, h⟩
      · exact ih _ _ h1
      · simp at h

theorem pushCaptures_error {ms : MatchState} {src : List Nat} {spos epos : Nat} {snil : Bool}
    {e : Err} (h : pushCaptures ms src spos epos snil = .error e) : DriverErr e :=
  pushCapturesLoop_error ms src spos epos _ _ _ h

theorem strFindLoop_error (src p : List Nat) (anchor find : Bool) :
    ∀ fuel ms s1 e, src.length - s1 < fuel →
      strFindLoop src p anchor find fuel ms s1 = .error e → DriverErr e := by
  intro fuel
  induction fuel with
  | zero => intro ms s1 e h _; omega
  | succ f ih =>
    intro ms s1 e hf h
    rw [strFindLoop_succ] at h
    rcases bind_eq_error h with h1 | ⟨r, _, h⟩
    · exact Or.inl (match_error _ _ _ _ _ _ h1)
    · split at h
      · split at h
        · rcases bind_eq_error h with h1 | ⟨caps, _, h⟩
          · exact pushCaptures_error h1
          · simp at h
        · exact pushCaptures_error h
      · split at h
        · simp at h
        · rename_i hcond
          have hlt : s1 < src.length := by
            by_contra hc
            exact hcond (fun hh => hc hh.1)
          exact ih _ _ _ (by omega) h

theorem strFindSearch_error {s p : List Nat} {init : Int} {plain find : Bool} {e : Err}
    (h : strFindSearch s p init plain find = .error e) : DriverErr e := by
  simp only [strFindSearch] at h
  split at h
  · split at h <;> simp at h
  · rcases bind_eq_error h with h1 | ⟨c, _, h⟩
    · exact Or.inl (Or.inl (Or.inl (idx_error h1)))
    · exact strFindLoop_error _ _ _ _ _ _ _ _ (by omega) h

theorem strFindAux_error {s p : List Nat} {init : Int} {plain find : Bool} {e : Err}
    (h : strFindAux s p init plain find = .error e) : DriverErr e := by
  simp only [strFindAux] at h
  split at h
  · exact strFindSearch_error h
  · split at h
    · simp at h
    · exact strFindSearch_error h

theorem gmatchLoop_error (s p : List Nat) :
    ∀ fuel ms srcpos e, s.length - srcpos < fuel →
      gmatchLoop s p fuel ms srcpos = .error e → DriverErr e := by
  intro fuel
  induction fuel with
  | zero => intro ms srcpos e h _; omega
  | succ f ih =>
    intro ms srcpos e hf h
    simp only [gmatchLoop] at h
    split at h
    · rcases bind_eq_error h with h1 | ⟨r, _, h⟩
      · exact Or.inl (match_error _ _ _ _ _ _ h1)
      · split at h
        · rcases bind_eq_error h with h1 | ⟨vals, _, h⟩
          · exact pushCaptures_error h1
          · simp at h
        · exact ih _ _ _ (by omega) h
    · simp at h

theorem gmatchAux_error {s p : List Nat} {c : Nat} {e : Err}
    (h : gmatchAux s p c = .error e) : DriverErr e := by
  simp only [gmatchAux] at h
  rcases bind_eq_error h with h1 | ⟨x, _, h⟩
  · exact gmatchLoop_error s p _ _ _ _ (by omega) h1
  · cases x with
    | none => simp at h
    | some y => simp at h

theorem DriverErr.ne_outOfFuel {e : Err} (h : DriverErr e) : e ≠ .outOfFuel := by
  intro he
  subst he
  simp [DriverErr, EngineErr, LeafErr] at h

theorem DriverErr.ne_malformedEndsWithEsc {e : Err} (h : DriverErr e) :
    e ≠ .malformedEndsWithEsc := by
  intro he
  subst he
  simp [DriverErr, EngineErr, LeafErr] at h

/-- C2: `Match` with a pattern without special characters takes the plain
search of `Find` and returns the two bounds, not the matched substring:
`Match("hello","ell")` returns 2 and 4. With a special character in the
pattern it returns the substring: `Match("hello","el+")` returns "ell". -/
theorem match_nospecials_returns_bounds :
    strMatch (bytes "hello") (bytes "ell") 1 false = .ok [.integer 2, .integer 4] ∧
    strMatch (bytes "hello") (bytes "el+") 1 false = .ok [.string (bytes "ell")] := by
  decide

/-- C3: a position capture is emitted as the 0-based offset at which it was
opened: `Match("hello","()")` returns the integer 0, and `Find` returns the
1-based start 1 before the capture 0. -/
theorem position_capture_is_zero_based :
    strMatch (bytes "hello") (bytes "()") 1 false = .ok [.integer 0] ∧
    strMatch (bytes "hello") (bytes "h()") 1 false = .ok [.integer 1] ∧
    strFind (bytes "hello") (bytes "()") 1 false =
      .ok [.integer 1, .integer 0, .integer 0] := by
  decide

/-- C10: a pattern that ends in a lone `%` ends `Find`, `Match` and the
iterator in Go's index-out-of-range panic when the engine reaches the `%`,
and no call of them ever raises "malformed pattern (ends with '%')". -/
theorem trailing_escape_index_panic :
    strFind (bytes "a") (bytes "%") 1 false = .error .indexOutOfRange ∧
    strMatch (bytes "a") (bytes "%") 1 false = .error .indexOutOfRange ∧
    strFind (bytes "a") (bytes "a%") 1 false = .error .indexOutOfRange ∧
    gmatchAux (bytes "a") (bytes "%") gmatch = .error .indexOutOfRange ∧
    (∀ (s p : List Nat) (init : Int) (plain find : Bool),
      strFindAux s p init plain find ≠ .error .malformedEndsWithEsc) ∧
    (∀ (s p : List Nat) (c : Nat), gmatchAux s p c ≠ .error .malformedEndsWithEsc) := by
  refine ⟨by decide, by decide, by decide, by decide, ?_, ?_⟩
  · intro s p init plain find h
    exact (strFindAux_error h).ne_malformedEndsWithEsc rfl
  · intro s p c h
    exact (gmatchAux_error h).ne_malformedEndsWithEsc rfl

/-- The loops of the model never run out of the iteration bound they are
given: no call of `match`, `strFindAux` or `gmatchAux` ends in
`Err.outOfFuel`. -/
theorem never_outOfFuel :
    (∀ (src p : List Nat) (ms : MatchState) (spos ppos : Nat),
      match_ src p ms spos ppos ≠ .error .outOfFuel) ∧
    (∀ (s p : List Nat) (init : Int) (plain find : Bool),
      strFindAux s p init plain find ≠ .error .outOfFuel) ∧
    (∀ (s p : List Nat) (c : Nat), gmatchAux s p c ≠ .error .outOfFuel) := by
  refine ⟨?_, ?_, ?_⟩
  · intro src p ms spos ppos h
    have hd : DriverErr .outOfFuel := Or.inl (match_error _ _ _ _ _ _ h)
    exact hd.ne_outOfFuel rfl
  · intro s p init plain find h
    exact (strFindAux_error h).ne_outOfFuel rfl
  · intro s p c h
    exact (gmatchAux_error h).ne_outOfFuel rfl

theorem depth_roundtrip (ms : MatchState) (hd : ms.matchDepth ≠ 0) :
    ({ matchDepth := ms.matchDepth - 1 + 1, level := ms.level, capture := ms.capture } :
      MatchState) = ms := by
  have : ms.matchDepth - 1 + 1 = ms.matchDepth := by omega
  rw [this]

/-- C11: `classend` at a `[` without a closing `]` ends in Go's
index-out-of-range panic for "[", "[a", "[a-z" and "[^a": it reads the
pattern at its length. It raises "malformed pattern (missing ']')" for "[^".
`Find("a","[a")` ends in the panic. -/
theorem unterminated_bracket_index_panic :
    classend (bytes "[") 0 = .error .indexOutOfRange ∧
    classend (bytes "[a") 0 = .error .indexOutOfRange ∧
    classend (bytes "[a-z") 0 = .error .indexOutOfRange ∧
    classend (bytes "[^a") 0 = .error .indexOutOfRange ∧
    classend (bytes "[^") 0 = .error .malformedMissingBracket ∧
    strFind (bytes "a") (bytes "[a") 1 false = .error .indexOutOfRange := by
  decide

/-- C13: `strGsub` pushes nothing: `Substitute("hello world","o","0")`
returns no value. -/
theorem substitute_pushes_nothing :
    strGsub (bytes "hello world") (bytes "o") = .ok [] := by
  decide

/-- C18: `classend` takes the `]` after an escape `%` for the end of the
bracket set: on "[%]]" it returns 3 and on "[a%]]" it returns 4, and
`Match("]","[%]]")` finds nothing while `Match("]]","[%]]")` returns "]]". -/
theorem classend_stops_at_escaped_bracket :
    classend (bytes "[%]]") 0 = .ok 3 ∧
    classend (bytes "[a%]]") 0 = .ok 4 ∧
    strMatch (bytes "]") (bytes "[%]]") 1 false = .ok [.nil] ∧
    strMatch (bytes "]]") (bytes "[%]]") 1 false = .ok [.string (bytes "]]")] := by
  decide

/-- C20: the iterator never tries the offset `len(s)`: over the empty
subject with the pattern "a*" the first call yields nothing, although the
engine succeeds at offset 0 and `Find` returns the empty match there; over
"b" the iterator yields the empty match at 0 and not the one at 1. -/
theorem gmatch_skips_subject_end :
    gmatchAux (bytes "") (bytes "a*") gmatch = .ok (0, []) ∧
    (match_ (bytes "") (bytes "a*") initialState 0 0).map (fun o => (o.res, o.ok)) =
      .ok (0, true) ∧
    strFind (bytes "") (bytes "a*") 1 false = .ok [.integer 1, .integer 0] ∧
    gmatchCalls (bytes "b") (bytes "a*") 5 gmatch = .ok ([[.string []]], true) := by
  decide

theorem same_initialState (ms : MatchState) (hd : ms.matchDepth = maxCCalls) :
    MatchState.Same { ms with level := 0 } initialState :=
  ⟨hd, rfl, fun i hi => absurd hi (Nat.not_lt_zero i)⟩

theorem strFindLoop_leftmost (src p : List Nat) :
    ∀ fuel ms s1 vals, src.length - s1 < fuel → s1 ≤ src.length →
      ms.matchDepth = maxCCalls →
      strFindLoop src p false true fuel ms s1 = .ok vals →
      (∃ (o : Nat) (r : Outcome) (caps : List Value), s1 ≤ o ∧ o ≤ src.length ∧
          match_ src p initialState o 0 = .ok r ∧ r.ok = true ∧
          (∀ o', s1 ≤ o' → o' < o →
            ∃ r', match_ src p initialState o' 0 = .ok r' ∧ r'.ok = false) ∧
          vals = .integer ((o : Int) + 1) :: .integer r.res :: caps) ∨
      (vals = [.nil] ∧ ∀ o', s1 ≤ o' → o' ≤ src.length →
          ∃ r', match_ src p initialState o' 0 = .ok r' ∧ r'.ok = false) := by
  intro fuel
  induction fuel with
  | zero => intro ms s1 vals h; omega
  | succ f ih =>
    intro ms s1 vals hf hle hd h
    rw [strFindLoop_succ] at h
    simp only [bind_eq_ok] at h
    obtain ⟨r, hr, h⟩ := h
    obtain ⟨r0, hr0, hres, hok, _⟩ :=
      RelE_same_ok (match_same src p _ _ s1 0 (same_initialState ms hd)) hr
    split at h
    · rename_i hrok
      simp only [if_true, bind_eq_ok] at h
      obtain ⟨caps, _, h⟩ := h
      simp only [Except.ok.injEq] at h
      left
      refine ⟨s1, r0, caps, le_refl _, hle, hr0, by rw [← hok]; exact hrok,
        fun o' h1 h2 => by omega, ?_⟩
      rw [← h, hres]
    · rename_i hrok
      have hrf : r.ok = false := by simpa using hrok
      have hr0f : r0.ok = false := by rw [← hok]; exact hrf
      split at h
      · rename_i hcond
        simp only [Except.ok.injEq] at h
        right
        refine ⟨h.symm, fun o' h1 h2 => ?_⟩
        have : o' = s1 := by
          have : ¬ s1 < src.length := fun hh => hcond ⟨hh, trivial⟩
          omega
        subst this
        exact ⟨r0, hr0, hr0f⟩
      · rename_i hcond
        have hlt : s1 < src.length := by
          by_contra hc
          exact hcond (fun hh => hc hh.1)
        have hd' : r.ms.matchDepth = maxCCalls :=
          ((match_inv src p _ _ _ _ hr).depth).trans hd
        rcases ih r.ms (s1 + 1) vals (by omega) (by omega) hd' h with
          ⟨o, ro, caps, h1, h2, h3, h4, h5, h6⟩ | ⟨h1, h2⟩
        · left
          refine ⟨o, ro, caps, by omega, h2, h3, h4, ?_, h6⟩
          intro o' ho1 ho2
          by_cases heq : o' = s1
          · subst heq
            exact ⟨r0, hr0, hr0f⟩
          · exact h5 o' (by omega) ho2
        · right
          refine ⟨h1, fun o' ho1 ho2 => ?_⟩
          by_cases heq : o' = s1
          · subst heq
            exact ⟨r0, hr0, hr0f⟩
          · exact h2 o' (by omega) ho2

/-- C14: `Find` returns the leftmost match. For a pattern with a special
character that does not start with `^` and an in-range `init`, when `Find`
returns: either it returns the start `o + 1` and the end `e`, where `o` is
the smallest offset in `init-1 .. len(s)` at which the engine succeeds and
`e` is the engine's result there, or it returns "not found" (a single nil)
and the engine fails at every offset in `init-1 .. len(s)`. -/
theorem find_returns_leftmost (s p : List Nat) (init : Int) (vals : List Value)
    (hsp : nospecials p = false) (hanchor : idx p 0 ≠ .ok 94)
    (h1 : 1 ≤ init) (h2 : init ≤ (s.length : Int) + 1)
    (hres : strFind s p init false = .ok vals) :
    (∃ (o : Nat) (r : Outcome) (caps : List Value), init - 1 ≤ (o : Int) ∧ o ≤ s.length ∧
        match_ s p initialState o 0 = .ok r ∧ r.ok = true ∧
        (∀ o' : Nat, init - 1 ≤ (o' : Int) → o' < o →
          ∃ r', match_ s p initialState o' 0 = .ok r' ∧ r'.ok = false) ∧
        vals = .integer ((o : Int) + 1) :: .integer r.res :: caps) ∨
    (vals = [.nil] ∧ ∀ o' : Nat, init - 1 ≤ (o' : Int) → o' ≤ s.length →
        ∃ r', match_ s p initialState o' 0 = .ok r' ∧ r'.ok = false) := by
  lift init to ℕ using (by omega) with n
  have hn1 : 1 ≤ n := by exact_mod_cast h1
  have hn2 : n ≤ s.length + 1 := by exact_mod_cast h2
  have hrel : relativePosition (n : Int) s.length = (n : Int) := by
    simp [relativePosition]
  have hlt : ¬ ((n : Int) < 1) := by omega
  have hgt : ¬ ((n : Int) > (s.length : Int) + 1) := by omega
  simp only [strFind, strFindAux, strFindSearch, hrel, hlt, hgt, hsp, if_false, Bool.and_false,
    Bool.or_false, Int.toNat_ofNat, Bool.false_eq_true, bind_eq_ok] at hres
  obtain ⟨c, hc, hres⟩ := hres
  have hc94 : c ≠ 94 := fun h => hanchor (h ▸ hc)
  simp only [hc94, decide_False, Bool.false_eq_true, if_false] at hres
  rcases strFindLoop_leftmost s p _ _ _ _ (by omega) (by omega) rfl hres with
    ⟨o, r, caps, h1, h2, h3, h4, h5, h6⟩ | ⟨h1, h2⟩
  · left
    exact ⟨o, r, caps, by omega, h2, h3, h4, fun o' ho1 ho2 => h5 o' (by omega) ho2, h6⟩
  · right
    exact ⟨h1, fun o' ho1 ho2 => h2 o' (by omega) ho2⟩

theorem find_returns_leftmost_witness :
    (∃ (o : Nat) (r : Outcome) (caps : List Value), (2 : Int) - 1 ≤ (o : Int) ∧
        o ≤ (bytes "abab").length ∧
        match_ (bytes "abab") (bytes "a.") initialState o 0 = .ok r ∧ r.ok = true ∧
        (∀ o' : Nat, (2 : Int) - 1 ≤ (o' : Int) → o' < o →
          ∃ r', match_ (bytes "abab") (bytes "a.") initialState o' 0 = .ok r' ∧
            r'.ok = false) ∧
        [Value.integer 3, Value.integer 4] =
          .integer ((o : Int) + 1) :: .integer r.res :: caps) ∨
    ([Value.integer 3, Value.integer 4] = [.nil] ∧
      ∀ o' : Nat, (2 : Int) - 1 ≤ (o' : Int) → o' ≤ (bytes "abab").length →
        ∃ r', match_ (bytes "abab") (bytes "a.") initialState o' 0 = .ok r' ∧
          r'.ok = false) :=
  find_returns_leftmost (bytes "abab") (bytes "a.") 2 [.integer 3, .integer 4]
    (by decide) (by decide) (by decide) (by decide) (by decide)

/-- C15: a call that returns failure leaves the capture level and every
slot below it as they were when the call was made, for `match`, for
`startCapture` and for `endCapture`; so the capture that `(a*)` closed
before the rest of "(a*)ab" failed on "aab" does not show in the result of
the attempt that succeeds: `Match("aab","(a*)ab")` returns "a". -/
theorem failure_rolls_captures_back :
    (∀ (src p : List Nat) (ms : MatchState) (spos ppos : Nat) (o : Outcome),
      match_ src p ms spos ppos = .ok o → o.ok = false →
      o.ms.level = ms.level ∧ ∀ i, i < ms.level → o.ms.capture i = ms.capture i) ∧
    (∀ (src p : List Nat) (ms : MatchState) (spos ppos : Nat) (what : Int) (o : Outcome),
      startCapture (match_ src p) ms spos ppos what = .ok o → o.ok = false →
      o.ms.level = ms.level ∧ ∀ i, i < ms.level → o.ms.capture i = ms.capture i) ∧
    (∀ (src p : List Nat) (ms : MatchState) (spos ppos : Nat) (o : Outcome),
      endCapture (match_ src p) ms spos ppos = .ok o → o.ok = false →
      o.ms.level = ms.level ∧ ∀ i, i < ms.level → o.ms.capture i = ms.capture i) ∧
    strMatch (bytes "aab") (bytes "(a*)ab") 1 false = .ok [.string (bytes "a")] := by
  have key : ∀ {src : List Nat} {ms : MatchState} {spos : Nat} {o : Outcome},
      Post src ms spos o → o.ok = false →
      o.ms.level = ms.level ∧ ∀ i, i < ms.level → o.ms.capture i = ms.capture i := by
    intro src ms spos o hp hf
    obtain ⟨_, h2, h3⟩ := hp.fail hf
    exact ⟨h2, fun i hi => h3 i (h2 ▸ hi)⟩
  refine ⟨?_, ?_, ?_, by decide⟩
  · intro src p ms spos ppos o h hf
    exact key (match_inv src p ms spos ppos o h) hf
  · intro src p ms spos ppos what o h hf
    exact key (startCapture_post (match_inv src p) ms spos ppos what o h) hf
  · intro src p ms spos ppos o h hf
    exact key (endCapture_post (match_inv src p) ms spos ppos o h) hf

theorem failure_rolls_captures_back_witness :
    ∃ o, match_ (bytes "ab") (bytes "(a)c") initialState 0 0 = .ok o ∧ o.ok = false ∧
      o.ms.level = initialState.level ∧
      ∀ i, i < initialState.level → o.ms.capture i = initialState.capture i := by
  cases h : match_ (bytes "ab") (bytes "(a)c") initialState 0 0 with
  | error e =>
    have : (match_ (bytes "ab") (bytes "(a)c") initialState 0 0).toBool = true := by decide
    rw [h] at this
    simp [Except.toBool] at this
  | ok o =>
    have hf : o.ok = false := by
      have : (match_ (bytes "ab") (bytes "(a)c") initialState 0 0).map (fun o => o.ok) =
          .ok false := by decide
      rw [h] at this
      simpa using this
    exact ⟨o, rfl, hf,
      failure_rolls_captures_back.1 (bytes "ab") (bytes "(a)c") initialState 0 0 o h hf⟩

theorem captureToCloseLoop_greatest (ms : MatchState) :
    ∀ n l, captureToCloseLoop ms n = .ok l →
      ∀ j, l < j → j < n → (ms.capture j).len ≠ capUnfinished := by
  intro n
  induction n with
  | zero => intro l h; simp [captureToCloseLoop] at h
  | succ n ih =>
    intro l h j hlj hjn
    simp only [captureToCloseLoop] at h
    split at h
    · simp only [Except.ok.injEq] at h
      omega
    · rename_i hne
      by_cases hj : j = n
      · subst hj
        exact hne
      · exact ih l h j hlj (by omega)

theorem captureToCloseLoop_of_spec (ms : MatchState) :
    ∀ n l, l < n → (ms.capture l).len = capUnfinished →
      (∀ j, l < j → j < n → (ms.capture j).len ≠ capUnfinished) →
      captureToCloseLoop ms n = .ok l := by
  intro n
  induction n with
  | zero => intro l h; omega
  | succ n ih =>
    intro l hl hlen hall
    simp only [captureToCloseLoop]
    by_cases hln : l = n
    · subst hln
      simp [hlen]
    · have hne := hall n (by omega) (by omega)
      simp only [hne, if_false]
      exact ih l (by omega) hlen (fun j h1 h2 => hall j h1 (by omega))

theorem captureToCloseLoop_error_iff (ms : MatchState) :
    ∀ n, captureToCloseLoop ms n = .error .invalidPatternCapture ↔
      ∀ i, i < n → (ms.capture i).len ≠ capUnfinished := by
  intro n
  induction n with
  | zero => simp [captureToCloseLoop]
  | succ n ih =>
    simp only [captureToCloseLoop]
    constructor
    · intro h i hi
      split at h
      · simp at h
      · rename_i hne
        by_cases hin : i = n
        · subst hin
          exact hne
        · exact ih.mp h i (by omega)
    · intro h
      simp only [h n (by omega), if_false]
      exact ih.mpr (fun i hi => h i (by omega))

/-- C17: `captureToClose` returns `l` iff `l` is the greatest index below
the level whose slot is unfinished, and it raises "invalid pattern capture"
iff no slot below the level is unfinished; `endCapture` then runs `match`
in the state in which the length of slot `l` is `spos` minus its start and
nothing else has changed. A `)` with no open capture raises the error:
`Find("a",".)")`. -/
theorem captureToClose_innermost_unfinished :
    (∀ (ms : MatchState) (l : Nat), captureToClose ms = .ok l ↔
      (l < ms.level ∧ (ms.capture l).len = capUnfinished ∧
        ∀ j, l < j → j < ms.level → (ms.capture j).len ≠ capUnfinished)) ∧
    (∀ (ms : MatchState), captureToClose ms = .error .invalidPatternCapture ↔
      ∀ i, i < ms.level → (ms.capture i).len ≠ capUnfinished) ∧
    (∀ (cont : Cont) (ms : MatchState) (spos ppos l : Nat), captureToClose ms = .ok l →
      ∃ ms1 : MatchState, ms1.level = ms.level ∧ ms1.matchDepth = ms.matchDepth ∧
        ms1.capture l =
          { init := (ms.capture l).init, len := (spos : Int) - ((ms.capture l).init : Int) } ∧
        (∀ i, i ≠ l → ms1.capture i = ms.capture i) ∧
        endCapture cont ms spos ppos =
          (cont ms1 spos ppos >>= fun r =>
            if r.ok then .ok r else .ok { r with ms := r.ms.setLen l capUnfinished })) ∧
    strFind (bytes "a") (bytes ".)") 1 false = .error .invalidPatternCapture := by
  refine ⟨?_, ?_, ?_, by decide⟩
  · intro ms l
    constructor
    · intro h
      obtain ⟨h1, h2⟩ := captureToCloseLoop_spec ms _ _ h
      exact ⟨h1, h2, captureToCloseLoop_greatest ms _ _ h⟩
    · intro ⟨h1, h2, h3⟩
      exact captureToCloseLoop_of_spec ms _ _ h1 h2 h3
  · intro ms
    exact captureToCloseLoop_error_iff ms ms.level
  · intro cont ms spos ppos l h
    refine ⟨ms.setLen l ((spos : Int) - ((ms.capture l).init : Int)), rfl, rfl,
      by simp [MatchState.setLen, MatchState.setCapture],
      fun i hi => by simp [MatchState.setLen, MatchState.setCapture, hi], ?_⟩
    simp only [endCapture, h, bind_ok]

theorem captureToClose_innermost_unfinished_witness :
    captureToClose
        { matchDepth := 200, level := 2,
          capture := fun i => if i = 0 then { init := 0, len := -1 } else { init := 1, len := 3 } } =
      .ok 0 :=
  (captureToClose_innermost_unfinished.1 _ 0).mpr
    ⟨by decide, by decide, by intro j h1 h2; interval_cases j; decide⟩

theorem strFindLoop_eq_fullBudget (src p : List Nat) (anchor find : Bool) :
    ∀ fuel ms s1, ms.matchDepth = maxCCalls →
      strFindLoop src p anchor find fuel ms s1 =
        strFindLoopFullBudget src p anchor find fuel ms s1 := by
  intro fuel
  induction fuel with
  | zero => intro ms s1 _; rfl
  | succ f ih =>
    intro ms s1 hd
    simp only [strFindLoop, strFindLoopFullBudget]
    have hst : ({ ms with level := 0 } : MatchState) =
        { ms with level := 0, matchDepth := maxCCalls } := by
      simp [hd]
    rw [← hst]
    apply bind_congr_ok
    intro r hr
    have hd' : r.ms.matchDepth = maxCCalls :=
      ((match_inv src p _ _ _ _ hr).depth).trans hd
    rw [ih r.ms (s1 + 1) hd']

theorem gmatchLoop_eq_fullBudget (src p : List Nat) :
    ∀ fuel ms srcpos, ms.matchDepth = maxCCalls →
      gmatchLoop src p fuel ms srcpos = gmatchLoopFullBudget src p fuel ms srcpos := by
  intro fuel
  induction fuel with
  | zero => intro ms s1 _; rfl
  | succ f ih =>
    intro ms srcpos hd
    simp only [gmatchLoop, gmatchLoopFullBudget]
    have hst : ({ ms with level := 0 } : MatchState) =
        { ms with level := 0, matchDepth := maxCCalls } := by
      simp [hd]
    rw [← hst]
    split
    · apply bind_congr_ok
      intro r hr
      have hd' : r.ms.matchDepth = maxCCalls :=
        ((match_inv src p _ _ _ _ hr).depth).trans hd
      rw [ih r.ms (srcpos + 1) hd']
    · rfl

/-- C16: a call of `match` that returns, with success or with failure,
leaves the depth counter at the value it had before the call. So the loops
of `strFindAux` (for `Find` and `Match`) and of `gmatchAux`, which start
from a state with the counter at 200, are the loops in which the counter is
set to 200 before every attempt. -/
theorem match_gives_depth_back :
    (∀ (src p : List Nat) (ms : MatchState) (spos ppos : Nat) (o : Outcome),
      match_ src p ms spos ppos = .ok o → o.ms.matchDepth = ms.matchDepth) ∧
    initialState.matchDepth = 200 ∧
    (∀ (src p : List Nat) (anchor find : Bool) (fuel : Nat) (ms : MatchState) (s1 : Nat),
      ms.matchDepth = maxCCalls →
      strFindLoop src p anchor find fuel ms s1 =
        strFindLoopFullBudget src p anchor find fuel ms s1) ∧
    (∀ (src p : List Nat) (fuel : Nat) (ms : MatchState) (srcpos : Nat),
      ms.matchDepth = maxCCalls →
      gmatchLoop src p fuel ms srcpos = gmatchLoopFullBudget src p fuel ms srcpos) := by
  refine ⟨?_, rfl, ?_, ?_⟩
  · intro src p ms spos ppos o h
    exact (match_inv src p ms spos ppos o h).depth
  · intro src p anchor find fuel ms s1 hd
    exact strFindLoop_eq_fullBudget src p anchor find fuel ms s1 hd
  · intro src p fuel ms srcpos hd
    exact gmatchLoop_eq_fullBudget src p fuel ms srcpos hd

theorem match_gives_depth_back_witness :
    strFindLoop (bytes "ab") (bytes "b") false true 3 initialState 0 =
      strFindLoopFullBudget (bytes "ab") (bytes "b") false true 3 initialState 0 :=
  match_gives_depth_back.2.2.1 (bytes "ab") (bytes "b") false true 3 initialState 0 rfl

theorem isPlainItem_cases {c : Nat} (h : isPlainItem c = true) :
    c ≠ 40 ∧ c ≠ 41 ∧ c ≠ 36 ∧ c ≠ 37 ∧ c ≠ 91 ∧ c ≠ 42 ∧ c ≠ 43 ∧ c ≠ 63 ∧ c ≠ 45 := by
  simp only [isPlainItem, isPlainLiteral, specials, Bool.or_eq_true, decide_eq_true_eq,
    Bool.and_eq_true, Bool.not_eq_true', decide_eq_false_iff_not, List.mem_cons,
    List.mem_singleton, List.not_mem_nil, or_false, not_or] at h
  rcases h with h | h
  · subst h
    decide
  · obtain ⟨⟨_, h36, h42, h43, h63, _, h40, h91, h37, h45⟩, h41⟩ := h
    exact ⟨h40, h41, h36, h37, h91, h42, h43, h63, h45⟩

theorem itemsMatch_iff : ∀ (p t : List Nat),
    itemsMatch p t = true ↔
      p.length ≤ t.length ∧ ∀ k, k < p.length → idx p k = .ok 46 ∨ idx p k = idx t k
  | [], t => by simp [itemsMatch]
  | c :: p, [] => by simp [itemsMatch]
  | c :: p, x :: t => by
    simp only [itemsMatch, Bool.and_eq_true, Bool.or_eq_true, decide_eq_true_eq,
      itemsMatch_iff p t, List.length_cons]
    constructor
    · intro ⟨h0, h1, h2⟩
      refine ⟨by omega, ?_⟩
      intro k hk
      cases k with
      | zero =>
        rcases h0 with h | h
        · left; simp [idx, h]
        · right; simp [idx, h]
      | succ k =>
        have := h2 k (by omega)
        simpa [idx] using this
    · intro ⟨h1, h2⟩
      refine ⟨?_, by omega, ?_⟩
      · have := h2 0 (by omega)
        simpa [idx] using this
      · intro k hk
        have := h2 (k + 1) (by omega)
        simpa [idx] using this

theorem idx_getElem {p : List Nat} {i : Nat} (h : i < p.length) : idx p i = .ok p[i] := by
  rw [idx_eq_ok]
  simp [List.getElem?_eq_getElem h]

theorem singlematch_plainItem {src p : List Nat} {spos ppos eppos c x : Nat}
    (hc : idx p ppos = .ok c) (hitem : isPlainItem c = true) (hx : idx src spos = .ok x) :
    singlematch src p spos ppos eppos = .ok (decide (c = 46) || decide (c = x)) := by
  obtain ⟨_, _, _, h37, h91, _⟩ := isPlainItem_cases hitem
  have hlt : ¬ (spos ≥ src.length) := by have := idx_lt hx; omega
  simp only [singlematch]
  rw [if_neg hlt]
  simp only [hx, hc, bind_ok, lEsc]
  by_cases h46 : c = 46
  · simp [h46]
  · simp [h46, h37, h91]

theorem matchBody_plainItems (src p : List Nat) (hp : ∀ c, c ∈ p → isPlainItem c = true) :
    ∀ k ppos spos (ms : MatchState), ppos + k = p.length →
      ∃ res, matchBody src p ms spos ppos =
          .ok { res := res, ok := itemsMatch (p.drop ppos) (src.drop spos), ms := ms } ∧
        (itemsMatch (p.drop ppos) (src.drop spos) = true → res = spos + k) := by
  intro k
  induction k with
  | zero =>
    intro ppos spos ms hk
    have hpp : ppos = p.length := by omega
    subst hpp
    refine ⟨spos, ?_, fun _ => rfl⟩
    rw [matchBody_eq]
    simp [matchStep, itemsMatch]
  | succ k ih =>
    intro ppos spos ms hk
    have hlt : ppos < p.length := by omega
    have hc := idx_getElem hlt
    have hitem := hp _ (List.getElem_mem hlt)
    obtain ⟨h40, h41, h36, h37, h91, h42, h43, h63, h45⟩ := isPlainItem_cases hitem
    have hstart : isItemStart p ppos = true := by
      simp [isItemStart, hc, h40, h41, h36, h37, lEsc]
    have hce : classend p ppos = .ok (ppos + 1) := by
      simp [classend, hc, h37, h91, lEsc]
    have hdrop : p.drop ppos = p[ppos] :: p.drop (ppos + 1) := List.drop_eq_getElem_cons hlt
    -- the suffix character is not a quantifier
    have hsuf : ∃ ep, suffixAt p (ppos + 1) = .ok ep ∧
        ep ≠ 42 ∧ ep ≠ 63 ∧ ep ≠ 45 ∧ ep ≠ 43 := by
      by_cases hend : ppos + 1 = p.length
      · exact ⟨0, by simp [suffixAt, hend], by decide, by decide, by decide, by decide⟩
      · have hlt' : ppos + 1 < p.length := by omega
        have hitem' := hp _ (List.getElem_mem hlt')
        obtain ⟨_, _, _, _, _, g42, g43, g63, g45⟩ := isPlainItem_cases hitem'
        exact ⟨p[ppos + 1], by simp [suffixAt, hend, idx_getElem hlt'], g42, g63, g45, g43⟩
    obtain ⟨ep, hep, e42, e63, e45, e43⟩ := hsuf
    rw [matchBody_eq, matchStep_of_isItemStart hstart]
    by_cases hs : spos < src.length
    · have hx := idx_getElem hs
      have hsdrop : src.drop spos = src[spos] :: src.drop (spos + 1) :=
        List.drop_eq_getElem_cons hs
      have hsm : singlematch src p spos ppos (ppos + 1) =
          .ok (decide (p[ppos] = 46) || decide (p[ppos] = src[spos])) :=
        singlematch_plainItem hc hitem hx
      rw [hdrop, hsdrop]
      simp only [itemsMatch]
      cases hm : (decide (p[ppos] = 46) || decide (p[ppos] = src[spos])) with
      | false =>
        rw [hm] at hsm
        refine ⟨spos, ?_, fun h => by simp at h⟩
        simp only [defaultCase, hce, bind_ok, hsm, hep, Bool.not_false, if_true, e42, e63, e45,
          or_self, if_false, Bool.false_and]
      | true =>
        rw [hm] at hsm
        obtain ⟨res, h1, h2⟩ := ih (ppos + 1) (spos + 1) ms (by omega)
        refine ⟨res, ?_, fun h => by have := h2 (by simpa using h); omega⟩
        simp only [defaultCase, hce, bind_ok, hsm, hep, Bool.not_true, Bool.false_eq_true,
          if_false, e42, e63, e45, e43, Bool.true_and]
        exact h1
    · have hsm : singlematch src p spos ppos (ppos + 1) = .ok false := by
        simp [singlematch, Nat.not_lt.mp hs]
      have hsdrop : src.drop spos = [] := List.drop_eq_nil_of_le (Nat.not_lt.mp hs)
      rw [hdrop, hsdrop]
      refine ⟨spos, ?_, fun h => by simp [itemsMatch] at h⟩
      simp only [defaultCase, hce, bind_ok, hsm, hep, Bool.not_false, if_true, e42, e63, e45,
        or_self, if_false, itemsMatch]

/-- C19: unquantified items take no depth. On a pattern of `n` plain
literals and `.`, for any `n`, a call of `match` with at least one depth
unit returns (it never raises "pattern too complex"), leaves the state as
it was, and succeeds, with the result `spos + n`, iff the items match the
`n` subject characters from `spos` one by one (`itemsMatch`, which holds iff
those characters exist and every item is `.` or the character itself). -/
theorem unquantified_items_use_no_depth :
    (∀ (src p : List Nat) (ms : MatchState) (spos : Nat),
      (∀ c, c ∈ p → isPlainItem c = true) → 0 < ms.matchDepth →
      ∃ res, match_ src p ms spos 0 =
          .ok { res := res, ok := itemsMatch p (src.drop spos), ms := ms } ∧
        (itemsMatch p (src.drop spos) = true → res = spos + p.length)) ∧
    (∀ (p t : List Nat), itemsMatch p t = true ↔
      p.length ≤ t.length ∧ ∀ k, k < p.length → idx p k = .ok 46 ∨ idx p k = idx t k) := by
  refine ⟨?_, itemsMatch_iff⟩
  intro src p ms spos hp hd
  obtain ⟨res, h1, h2⟩ := matchBody_plainItems src p hp p.length 0 spos
    { ms with matchDepth := ms.matchDepth - 1 } (by omega)
  refine ⟨res, ?_, h2⟩
  rw [match_eq]
  simp only [matchCall, Nat.ne_of_gt hd, if_false, h1, bind_ok, List.drop_zero,
    depth_roundtrip ms (Nat.ne_of_gt hd)]

theorem unquantified_items_use_no_depth_witness :
    ∃ res, match_ (List.replicate 300 97) (List.replicate 300 46) initialState 0 0 =
        .ok { res := res,
              ok := itemsMatch (List.replicate 300 46) ((List.replicate 300 97).drop 0),
              ms := initialState } ∧
      (itemsMatch (List.replicate 300 46) ((List.replicate 300 97).drop 0) = true →
        res = 0 + (List.replicate 300 46).length) :=
  unquantified_items_use_no_depth.1 (List.replicate 300 97) (List.replicate 300 46)
    initialState 0 (by intro c hc; rw [List.eq_of_mem_replicate hc]; decide) (by decide)

theorem dollar_not_last (cont : Cont) (src q : List Nat) (c : Nat) (r : List Nat)
    (ms : MatchState) (spos : Nat) :
    matchStep cont src (q ++ 36 :: c :: r) ms spos q.length =
        defaultCase cont src (q ++ 36 :: c :: r) ms spos q.length ∧
      classend (q ++ 36 :: c :: r) q.length = .ok (q.length + 1) ∧
      singlematch src (q ++ 36 :: c :: r) spos q.length (q.length + 1) =
        .ok (decide (idx src spos = .ok 36)) := by
  have hidx : idx (q ++ 36 :: c :: r) q.length = .ok 36 := by
    rw [idx_eq_ok, List.get?_eq_getElem?, List.getElem?_append_right (le_refl _)]
    simp
  have hlen : (q ++ 36 :: c :: r).length = q.length + 1 + 1 + r.length := by
    simp
    omega
  refine ⟨?_, ?_, ?_⟩
  · apply matchStep_of_isItemStart
    simp only [isItemStart, hidx, hlen]
    simp
    omega
  · simp [classend, hidx, lEsc]
  · simp only [singlematch]
    by_cases hs : spos ≥ src.length
    · have hnone : idx src spos ≠ .ok 36 := by
        intro h
        have := idx_lt h
        omega
      simp [hs, hnone]
    · have hx := idx_getElem (Nat.lt_of_not_ge hs)
      rw [if_neg hs]
      simp only [hx, hidx, bind_ok, lEsc, Except.ok.injEq]
      simp [eq_comm]

/-- C12: at a final `$` a call of `match` with depth left succeeds iff
`spos` is the length of the subject, and then returns `spos`; a `$` that is
not the last character is an item of one character that matches the
character `$` only. But `Find` with a pattern that ends in an unescaped `$`
can succeed with another end: the cases `%b`, `%f` and `%0`..`%9` of `match`
return success without looking at the rest of the pattern, so
`Find("abc","%bxy$")` and `Find("abc","%1$")` return (1, 0). -/
theorem dollar_anchor_skipped_after_todo_escape :
    (∀ (src q : List Nat) (ms : MatchState) (spos : Nat),
      match_ src (q ++ [36]) ms spos q.length =
        if ms.matchDepth = 0 then .error .tooComplex
        else if spos = src.length then .ok { res := spos, ok := true, ms := ms }
        else .ok { res := 0, ok := false, ms := ms }) ∧
    (∀ (cont : Cont) (src q : List Nat) (c : Nat) (r : List Nat) (ms : MatchState) (spos : Nat),
      matchStep cont src (q ++ 36 :: c :: r) ms spos q.length =
          defaultCase cont src (q ++ 36 :: c :: r) ms spos q.length ∧
        classend (q ++ 36 :: c :: r) q.length = .ok (q.length + 1) ∧
        singlematch src (q ++ 36 :: c :: r) spos q.length (q.length + 1) =
          .ok (decide (idx src spos = .ok 36))) ∧
    strFind (bytes "abc") (bytes "%bxy$") 1 false = .ok [.integer 1, .integer 0] ∧
    strFind (bytes "abc") (bytes "%1$") 1 false = .ok [.integer 1, .integer 0] ∧
    strFind (bytes "abc") (bytes "c$") 1 false = .ok [.integer 3, .integer 3] := by
  refine ⟨?_, dollar_not_last, by decide, by decide, by decide⟩
  intro src q ms spos
  rw [match_eq]
  by_cases hd : ms.matchDepth = 0
  · simp [matchCall, hd]
  · have hidx : idx (q ++ [36]) q.length = .ok 36 := by
      rw [idx_eq_ok]
      simp
    have hlen : (q ++ [36]).length = q.length + 1 := by simp
    simp only [matchCall, hd, if_false]
    rw [matchBody_eq]
    simp only [matchStep, hlen, ne_eq, Nat.ne_of_lt (Nat.lt_succ_self q.length),
      not_false_eq_true, if_true, hidx, bind_ok, show ¬ ((36 : Nat) = 40) by decide,
      show ¬ ((36 : Nat) = 41) by decide, if_false, not_true_eq_false]
    by_cases hs : spos = src.length
    · simp only [hs, not_true_eq_false, if_false, bind_ok, if_true, depth_roundtrip ms hd]
    · simp only [hs, not_false_eq_true, if_true, bind_ok, if_false, depth_roundtrip ms hd]

end LuaPattern
